import Mathlib

/-!
# httpServer.go: a shallow embedding

Go strings are byte sequences, so a string is a list of bytes.  A Go `error`
is either `nil` or a value carrying a message; here it is the optional message.
Run-time panics (an index or slice out of range) are explicit faults of the
embedding, so that "this code returns" is a statement about the definitions.
Logging to standard output (`fmt.Println`, `fmt.Printf`) has no effect on the
connection and is left out.
-/

namespace HttpServer

/-! ## Go values -/

abbrev Byte := Fin 256

/-- A Go `string`: an immutable sequence of bytes. -/
abbrev GoString := List Byte

/-- A Go `error`: `none` is `nil`, `some m` an error whose `Error()` text is `m`. -/
abbrev error := Option GoString

/-- The bytes of a string literal of the source (all literals are ASCII). -/
def str (s : String) : GoString := s.toList.map (fun c => Fin.ofNat c.toNat)

/-- What stops a run of the embedded code short of returning. -/
inductive Fault where
  /-- A Go run-time panic: index or slice bounds out of range. -/
  | panic
  /-- The loop budget of the embedding ran out (never the case for the budgets used). -/
  | outOfFuel
  deriving DecidableEq, Repr

/-- A run of embedded code: a fault, or the returned value. -/
abbrev Exec (α : Type) := Except Fault α

instance instDecidableEqExcept {ε α : Type} [DecidableEq ε] [DecidableEq α] :
    DecidableEq (Except ε α)
  | .ok a, .ok b => if h : a = b then isTrue (by rw [h]) else isFalse (fun e => h (by cases e; rfl))
  | .error f, .error g =>
    if h : f = g then isTrue (by rw [h]) else isFalse (fun e => h (by cases e; rfl))
  | .ok _, .error _ => isFalse (fun e => by cases e)
  | .error _, .ok _ => isFalse (fun e => by cases e)

/-- Go indexing `xs[i]`, which panics out of range. -/
def index {α : Type} (xs : List α) (i : Int) : Exec α :=
  if i < 0 then .error .panic
  else match xs[i.toNat]? with
    | some x => .ok x
    | none => .error .panic

/-- Go slicing `s[:hi]`, which panics unless `0 ≤ hi ≤ len(s)`. -/
def sliceTo (s : GoString) (hi : Int) : Exec GoString :=
  if 0 ≤ hi ∧ hi ≤ (s.length : Int) then .ok (s.take hi.toNat) else .error .panic

/-- The constants of the source (lines 13-19). -/
def SERVER_HOST : GoString := str "localhost"
def SERVER_PORT : GoString := str "9980"
def SERVER_TYPE : GoString := str "tcp"
def INDEX_BODY : GoString := str "Hello World!"
def NOT_FOUND_BODY : GoString := str "The requested page not found"

/-- The line terminator `"\r\n"`. -/
def CRLF : GoString := [13, 10]

/-! ## Package `strings` -/

/-- Go `strings.HasSuffix(s, suffix)`:
`len(s) >= len(suffix) && s[len(s)-len(suffix):] == suffix`. -/
def HasSuffix (s suffix : GoString) : Bool :=
  decide (s.length ≥ suffix.length) && decide (s.drop (s.length - suffix.length) = suffix)

/-- Go `strings.IndexByte(s, c)`: the index of the first `c` in `s` (`none` is `-1`).
`strings.Index` with a one-byte separator is this function. -/
def IndexByte : GoString → Byte → Option Nat
  | [], _ => none
  | b :: t, c => if b = c then some 0 else (IndexByte t c).map (· + 1)

/-- Go `strings.Count(s, sep)` for a one-byte separator (`bytealg.CountString`). -/
def Count (s : GoString) (sep : Byte) : Nat := s.count sep

/-- The loop of Go `strings.genSplit`: `k` is the number of cuts still allowed
(`n - 1 - i` in the source), `s` the part of the string not yet split. -/
def genSplit.loop (sep : Byte) (sepSave : Nat) : Nat → GoString → List GoString
  | 0, s => [s]
  | k + 1, s =>
    match IndexByte s sep with
    | none => [s]
    | some m => s.take (m + sepSave) :: genSplit.loop sep sepSave k (s.drop (m + 1))

/-- Go `strings.genSplit(s, sep, sepSave, n)` for a one-byte separator: split after
each instance of `sep`, keeping `sepSave` bytes of it in the parts, into at most
`n` parts (`n < 0`: all of them). -/
def genSplit (s : GoString) (sep : Byte) (sepSave : Nat) (n : Int) : List GoString :=
  if n = 0 then []
  else
    let n : Int := if n < 0 then (Count s sep : Int) + 1 else n
    let n : Int := if n > (s.length : Int) + 1 then (s.length : Int) + 1 else n
    genSplit.loop sep sepSave (n - 1).toNat s

/-- Go `strings.Split(s, sep)` = `genSplit(s, sep, 0, -1)`. -/
def Split (s : GoString) (sep : Byte) : List GoString := genSplit s sep 0 (-1)

/-- Go `strings.SplitAfterN(s, sep, n)` = `genSplit(s, sep, len(sep), n)`. -/
def SplitAfterN (s : GoString) (sep : Byte) (n : Int) : List GoString := genSplit s sep 1 n

/-! ## Packages `unicode/utf8` and `unicode` -/

def RuneError : Nat := 0xFFFD
def RuneSelf : Nat := 0x80
def UTFMax : Nat := 4

/-- The table `utf8.first`: information about the first byte of an encoding
(`as` = 0xF0 for ASCII, `xx` = 0xF1 for an invalid first byte, otherwise the
accept-range index in the high nibble and the size in the low one). -/
def first (b : Byte) : Nat :=
  if b.val < 0x80 then 0xF0
  else if b.val < 0xC2 then 0xF1
  else if b.val < 0xE0 then 0x02
  else if b.val = 0xE0 then 0x13
  else if b.val < 0xED then 0x03
  else if b.val = 0xED then 0x23
  else if b.val < 0xF0 then 0x03
  else if b.val = 0xF0 then 0x34
  else if b.val < 0xF4 then 0x04
  else if b.val = 0xF4 then 0x44
  else 0xF1

/-- The table `utf8.acceptRanges`: the bounds `(lo, hi)` of the second byte. -/
def acceptRanges (i : Nat) : Nat × Nat :=
  match i with
  | 0 => (0x80, 0xBF)
  | 1 => (0xA0, 0xBF)
  | 2 => (0x80, 0x9F)
  | 3 => (0x90, 0xBF)
  | 4 => (0x80, 0x8F)
  | _ => (0, 0)

/-- Go `utf8.DecodeRuneInString(s)`: the first rune of `s` and its width in bytes;
`(RuneError, 1)` for an invalid encoding, `(RuneError, 0)` for the empty string.
The branches marked "not reached" are excluded by the test `n < sz`. -/
def DecodeRuneInString (s : GoString) : Nat × Nat :=
  match s with
  | [] => (RuneError, 0)
  | s0 :: t =>
    let x := first s0
    if x ≥ 0xF0 then
      (if x &&& 1 = 1 then RuneError else s0.val, 1)
    else
      let sz := x &&& 7
      let accept := acceptRanges (x >>> 4)
      if s.length < sz then (RuneError, 1)
      else
        match t with
        | [] => (RuneError, 1) -- not reached
        | s1 :: t =>
          if s1.val < accept.1 ∨ accept.2 < s1.val then (RuneError, 1)
          else if sz ≤ 2 then ((s0.val &&& 0x1F) <<< 6 ||| (s1.val &&& 0x3F), 2)
          else
            match t with
            | [] => (RuneError, 1) -- not reached
            | s2 :: t =>
              if s2.val < 0x80 ∨ 0xBF < s2.val then (RuneError, 1)
              else if sz ≤ 3 then
                ((s0.val &&& 0x0F) <<< 12 ||| (s1.val &&& 0x3F) <<< 6 ||| (s2.val &&& 0x3F), 3)
              else
                match t with
                | [] => (RuneError, 1) -- not reached
                | s3 :: _ =>
                  if s3.val < 0x80 ∨ 0xBF < s3.val then (RuneError, 1)
                  else
                    ((s0.val &&& 0x07) <<< 18 ||| (s1.val &&& 0x3F) <<< 12
                      ||| (s2.val &&& 0x3F) <<< 6 ||| (s3.val &&& 0x3F), 4)

/-- Go `utf8.RuneStart(b)`: `b` is not a continuation byte. -/
def RuneStart (b : Byte) : Bool := decide (b.val &&& 0xC0 ≠ 0x80)

/-- The backward scan of `utf8.DecodeLastRuneInString`
(`for start--; start >= lim; start-- { if RuneStart(s[start]) { break } }`),
entered after `start--`; it runs at most `UTFMax` times. -/
def DecodeLastRuneInString.loop (s : GoString) (lim : Int) : Nat → Int → Int
  | 0, start => start
  | k + 1, start =>
    if start ≥ lim then
      if RuneStart (s.getD start.toNat 0) then start
      else DecodeLastRuneInString.loop s lim k (start - 1)
    else start

/-- Go `utf8.DecodeLastRuneInString(s)`: the last rune of `s` and its width. -/
def DecodeLastRuneInString (s : GoString) : Nat × Nat :=
  let n := s.length
  if n = 0 then (RuneError, 0)
  else
    let start : Int := (n : Int) - 1
    let r := (s.getD start.toNat 0).val
    if r < RuneSelf then (r, 1)
    else
      let lim : Int := (n : Int) - (UTFMax : Int)
      let lim : Int := if lim < 0 then 0 else lim
      let start := DecodeLastRuneInString.loop s lim UTFMax (start - 1)
      let start : Int := if start < 0 then 0 else start
      let (r, size) := DecodeRuneInString ((s.take n).drop start.toNat)
      if start + (size : Int) ≠ (n : Int) then (RuneError, 1) else (r, size)

/-- Go `unicode.IsSpace(r)`: the Latin-1 spaces, else the `White_Space` table. -/
def IsSpace (r : Nat) : Bool :=
  if r ≤ 0xFF then
    decide (r = 0x09 ∨ r = 0x0A ∨ r = 0x0B ∨ r = 0x0C ∨ r = 0x0D ∨ r = 0x20 ∨ r = 0x85 ∨ r = 0xA0)
  else
    decide (r = 0x1680 ∨ (0x2000 ≤ r ∧ r ≤ 0x200A) ∨ r = 0x2028 ∨ r = 0x2029 ∨ r = 0x202F
      ∨ r = 0x205F ∨ r = 0x3000)

/-! ## Package `strings`, continued: trimming -/

/-- The `range s` loop of Go `strings.indexFunc`: `i` is the index of the rune at
the head of the rest `s`; every turn consumes at least one byte. -/
def indexFunc.loop (f : Nat → Bool) (truth : Bool) : Nat → Nat → GoString → Option Nat
  | 0, _, _ => none
  | k + 1, i, s =>
    match s with
    | [] => none
    | _ :: _ =>
      let (r, size) := DecodeRuneInString s
      if f r = truth then some i else indexFunc.loop f truth k (i + size) (s.drop size)

/-- Go `strings.indexFunc(s, f, truth)`: index of the first rune with
`f(r) == truth` (`none` is `-1`). -/
def indexFunc (s : GoString) (f : Nat → Bool) (truth : Bool) : Option Nat :=
  indexFunc.loop f truth s.length 0 s

/-- The loop of Go `strings.lastIndexFunc`, `for i := len(s); i > 0; { ... }`. -/
def lastIndexFunc.loop (s : GoString) (f : Nat → Bool) (truth : Bool) : Nat → Nat → Option Nat
  | 0, _ => none
  | k + 1, i =>
    if i > 0 then
      let (r, size) := DecodeLastRuneInString (s.take i)
      let i := i - size
      if f r = truth then some i else lastIndexFunc.loop s f truth k i
    else none

/-- Go `strings.lastIndexFunc(s, f, truth)` (`none` is `-1`). -/
def lastIndexFunc (s : GoString) (f : Nat → Bool) (truth : Bool) : Option Nat :=
  lastIndexFunc.loop s f truth s.length s.length

/-- Go `strings.TrimLeftFunc(s, f)`. -/
def TrimLeftFunc (s : GoString) (f : Nat → Bool) : GoString :=
  match indexFunc s f false with
  | none => []
  | some i => s.drop i

/-- Go `strings.TrimRightFunc(s, f)`. -/
def TrimRightFunc (s : GoString) (f : Nat → Bool) : GoString :=
  match lastIndexFunc s f false with
  | some i =>
    if (s.getD i 0).val ≥ RuneSelf then s.take (i + (DecodeRuneInString (s.drop i)).2)
    else s.take (i + 1)
  | none => s.take 0

/-- Go `strings.TrimFunc(s, f)`. -/
def TrimFunc (s : GoString) (f : Nat → Bool) : GoString :=
  TrimRightFunc (TrimLeftFunc s f) f

/-- The table `strings.asciiSpace`. -/
def asciiSpace (c : Byte) : Bool :=
  decide (c = 9 ∨ c = 10 ∨ c = 11 ∨ c = 12 ∨ c = 13 ∨ c = 32)

/-- The second loop of Go `strings.TrimSpace` (`for ; stop > start; stop--`): the
argument is `s[start:stop]` reversed, so its head is `s[stop-1]`. -/
def TrimSpace.stop : GoString → GoString
  | [] => []
  | c :: r =>
    if c.val ≥ RuneSelf then TrimRightFunc (c :: r).reverse IsSpace
    else if asciiSpace c then TrimSpace.stop r
    else (c :: r).reverse

/-- The first loop of Go `strings.TrimSpace` (`for ; start < len(s); start++`): the
argument is `s[start:]`. -/
def TrimSpace.start : GoString → GoString
  | [] => TrimSpace.stop []
  | c :: t =>
    if c.val ≥ RuneSelf then TrimFunc (c :: t) IsSpace
    else if asciiSpace c then TrimSpace.start t
    else TrimSpace.stop (c :: t).reverse

/-- Go `strings.TrimSpace(s)`: `s` without leading and trailing white space, as
defined by Unicode. -/
def TrimSpace (s : GoString) : GoString := TrimSpace.start s

/-! ## Package `strconv` -/

/-- Go `strconv.Itoa(i)`: the decimal representation of `i`. -/
def Itoa (i : Int) : GoString :=
  if i < 0 then str "-" ++ (Nat.toDigits 10 (-i).toNat).map (fun c => Fin.ofNat c.toNat)
  else (Nat.toDigits 10 i.toNat).map (fun c => Fin.ofNat c.toNat)

/-! ## Package `path/filepath` (Unix: the separator is `/`, no volume names) -/

/-- Go `os.IsPathSeparator(c)`. -/
def isPathSeparator (c : Byte) : Bool := decide (c = 47)

/-- The inner loop of the `..` case of `filepath.Clean`,
`for out.w > dotdot && !os.IsPathSeparator(out.index(out.w)) { out.w-- }`,
as a function of `out.w`. -/
def Clean.backtrack (out : GoString) (dotdot : Nat) : Nat → Nat
  | 0 => 0
  | w + 1 =>
    if w + 1 > dotdot ∧ isPathSeparator (out.getD (w + 1) 0) = false then
      Clean.backtrack out dotdot w
    else w + 1

/-- The main loop of `filepath.Clean`, `for r < n { switch ... }`: `r` is the index
of the next byte of `path` to process, `out` the bytes written so far (`out.w` is
its length), `dotdot` the index in `out` where `..` must stop.  Every turn
advances `r`. -/
def Clean.loop (path : GoString) (rooted : Bool) : Nat → Nat → GoString → Nat → GoString
  | 0, _, out, _ => out
  | k + 1, r, out, dotdot =>
    let n := path.length
    if r < n then
      if isPathSeparator (path.getD r 0) then
        -- empty path element
        Clean.loop path rooted k (r + 1) out dotdot
      else if path.getD r 0 = 46 ∧ (r + 1 = n ∨ isPathSeparator (path.getD (r + 1) 0)) then
        -- . element
        Clean.loop path rooted k (r + 1) out dotdot
      else if path.getD r 0 = 46 ∧ path.getD (r + 1) 0 = 46
          ∧ (r + 2 = n ∨ isPathSeparator (path.getD (r + 2) 0)) then
        -- .. element: remove to last separator
        if out.length > dotdot then
          Clean.loop path rooted k (r + 2)
            (out.take (Clean.backtrack out dotdot (out.length - 1))) dotdot
        else if rooted = false then
          let out := if out.length > 0 then out ++ [47] else out
          let out := out ++ [46, 46]
          Clean.loop path rooted k (r + 2) out out.length
        else Clean.loop path rooted k (r + 2) out dotdot
      else
        -- real path element: add slash if needed, copy element
        let out :=
          if (rooted = true ∧ out.length ≠ 1) ∨ (rooted = false ∧ out.length ≠ 0) then out ++ [47]
          else out
        let elem := (path.drop r).takeWhile (fun c => !isPathSeparator c)
        Clean.loop path rooted k (r + elem.length) (out ++ elem) dotdot
    else out

/-- Go `filepath.Clean(path)`: the shortest path name equivalent to `path` by
purely lexical processing. -/
def Clean (path : GoString) : GoString :=
  if path = [] then str "."
  else
    let rooted := isPathSeparator (path.getD 0 0)
    let out :=
      if rooted then Clean.loop path rooted path.length 1 [47] 1
      else Clean.loop path rooted path.length 0 [] 0
    if out.length = 0 then str "." else out

/-- Go `strings.Join(elems, sep)`. -/
def stringsJoin (elems : List GoString) (sep : GoString) : GoString :=
  sep.intercalate elems

/-- Go `filepath.Join(elem...)`: joins the elements from the first non-empty one on
with the separator and cleans the result; empty elements before it are ignored. -/
def Join : List GoString → GoString
  | [] => []
  | e :: rest => if e ≠ [] then Clean (stringsJoin (e :: rest) (str "/")) else Join rest

/-! ## Maps `map[string]string` -/

/-- A Go `map[string]string`: its entries, each key once.  The order of the list
has no meaning for the program except through the iteration order below. -/
abbrev GoMap := List (GoString × GoString)

/-- `make(map[string]string)`. -/
def GoMap.make : GoMap := []

/-- `m[key]` in the two-value form `value, found := m[key]` (`none`: not found). -/
def GoMap.get : GoMap → GoString → Option GoString
  | [], _ => none
  | (k, v) :: m, key => if k = key then some v else GoMap.get m key

/-- `m[key] = value`: replaces the value of an existing key, else adds the entry. -/
def GoMap.set : GoMap → GoString → GoString → GoMap
  | [], key, value => [(key, value)]
  | (k, v) :: m, key, value =>
    if k = key then (key, value) :: m else (k, v) :: GoMap.set m key value

/-- The order in which one `for key, value := range m` visits the entries of a
map; Go leaves it unspecified, so it is a parameter of the code that ranges. -/
abbrev RangeOrder := GoMap → List (GoString × GoString)

/-- A legitimate iteration order visits every entry exactly once. -/
def RangeOrder.Valid (range : RangeOrder) : Prop := ∀ m : GoMap, (range m).Perm m

/-- `os.ReadFile(name)`: the contents, or an error. -/
abbrev FileSystem := GoString → GoString × error

/-! ## The connection -/

/-- A `net.Conn` as the handler sees it.  `Read` into a one-byte buffer delivers
the bytes of `input` one by one; once `input` is used up (the peer closed, or the
transport failed) it returns an error whose text is `failure`.  `Write` appends to
`output`. -/
structure Conn where
  input : GoString
  failure : GoString
  output : GoString
  closed : Bool
  deriving DecidableEq, Repr

/-- `connection.Write(p)`. -/
def Conn.Write (connection : Conn) (p : GoString) : Conn :=
  { connection with output := connection.output ++ p }

/-- `connection.Close()`. -/
def Conn.Close (connection : Conn) : Conn :=
  { connection with closed := true }

/-! ## httpServer.go -/

/-- Go `string(b)` for a byte `b` (line 136, `string(buffer[0])`): the conversion of
an integer to a string, which is the UTF-8 encoding of the code point `b`; one
byte below 0x80, else the two bytes `0xC0 | b>>6` and `0x80 | b&0x3F`. -/
def byteString (b : Byte) : GoString :=
  if b.val < 0x80 then [b]
  else [Fin.ofNat (0xC0 ||| (b.val >>> 6)), Fin.ofNat (0x80 ||| (b.val &&& 0x3F))]

/-- The `for` loop of `readLineFromConnection` (lines 129-141): `data` is the
local variable, the last argument the bytes `Read` has still to deliver. -/
def readLineFromConnection.loop (connection : Conn) :
    GoString → GoString → Exec ((GoString × error) × Conn)
  | _, [] =>
    -- `connection.Read` fails: return "", errors.New(...)
    .ok (([], some (str "Could not read new data from connection: '" ++ connection.failure
        ++ str "'")), { connection with input := [] })
  | data, b :: rest =>
    let data := data ++ byteString b
    if HasSuffix data CRLF then
      match sliceTo data ((data.length : Int) - 2) with
      | .error f => .error f
      | .ok data => .ok ((data, none), { connection with input := rest })
    else readLineFromConnection.loop connection data rest

/-- Go `readLineFromConnection` (lines 127-144): returns `(line, err)` and the
connection with the bytes read removed. -/
def readLineFromConnection (connection : Conn) : Exec ((GoString × error) × Conn) :=
  readLineFromConnection.loop connection [] connection.input

/-- Go `readAndDecodeHTTPFirstLine` (lines 103-125). -/
def readAndDecodeHTTPFirstLine (connection : Conn) : Exec ((GoString × error) × Conn) :=
  match readLineFromConnection connection with
  | .error f => .error f
  | .ok ((line, err), connection) =>
    match err with
    | some e =>
      .ok (([], some (str "Could not read a new line from connection: " ++ e)), connection)
    | none =>
      let partList := Split line 32
      if partList.length > 3 then
        .ok (([], some (str "More than 3 parts in first line")), connection)
      else if partList.length < 3 then
        .ok (([], some (str "Less than 3 parts in first line")), connection)
      else
        match index partList 0 with
        | .error f => .error f
        | .ok method =>
          if method ≠ str "GET" then
            .ok (([], some (str "Unhandled method '" ++ method ++ str "'")), connection)
          else
            match index partList 1, index partList 2 with
            | .error f, _ => .error f
            | _, .error f => .error f
            | .ok path, .ok version =>
              if version ≠ str "HTTP/1.1" then
                .ok (([], some (str "Unhandled method: '" ++ version ++ str "'")), connection)
              else .ok ((path, none), connection)

/-- Lines 156-162 of `readAndDecodeHTTPHeaders`: the key and the value a header
line decodes to, or the error returned for a line without a colon. -/
def decodeHeaderLine (line : GoString) : Exec (Except GoString (GoString × GoString)) :=
  let linePartList := SplitAfterN line 58 2 -- SplitAfterN keeps ":" after parts
  if linePartList.length < 2 then
    .ok (.error (str "Less than two parts in header line '" ++ line ++ str "'"))
  else
    match index linePartList 0 with
    | .error f => .error f
    | .ok part0 =>
      let key := TrimSpace part0
      match sliceTo key ((key.length : Int) - 1) with -- remove ":" at the end of key
      | .error f => .error f
      | .ok key =>
        match index linePartList 1 with
        | .error f => .error f
        | .ok part1 => .ok (.ok (key, TrimSpace part1))

/-- The `for` loop of `readAndDecodeHTTPHeaders` (lines 148-165); the first
argument bounds the number of turns. -/
def readAndDecodeHTTPHeaders.loop : Nat → GoMap → Conn → Exec ((GoMap × error) × Conn)
  | 0, _, _ => .error .outOfFuel
  | fuel + 1, headers, connection =>
    match readLineFromConnection connection with
    | .error f => .error f
    | .ok ((line, err), connection) =>
      if line = [] then .ok ((headers, none), connection) -- break; return headers, nil
      else
        match err with
        | some e => .ok ((headers, some e), connection)
        | none =>
          match decodeHeaderLine line with
          | .error f => .error f
          | .ok (.error e) => .ok ((headers, some e), connection)
          | .ok (.ok (key, value)) =>
            readAndDecodeHTTPHeaders.loop fuel (headers.set key value) connection

/-- Go `readAndDecodeHTTPHeaders` (lines 146-167).  A turn of the loop that
continues has read a non-empty line, so the number of bytes left bounds the
number of turns. -/
def readAndDecodeHTTPHeaders (connection : Conn) : Exec ((GoMap × error) × Conn) :=
  readAndDecodeHTTPHeaders.loop (connection.input.length + 1) GoMap.make connection

/-- Go `encodeHTTPHeaders` (lines 169-175), ranging over the map in the order `range`. -/
def encodeHTTPHeaders (range : RangeOrder) (headers : GoMap) : GoString :=
  (range headers).foldl (fun result kv => result ++ kv.1 ++ str ": " ++ kv.2 ++ str "\r\n") []

/-- The local variables `statusCode`, `statusMessage`, `responseHeaders` and `body`
of `processClient` when the response is built. -/
structure Response where
  statusCode : Int
  statusMessage : GoString
  responseHeaders : GoMap
  body : GoString
  deriving DecidableEq, Repr

/-- Lines 74-94 of `processClient`: the response chosen for the decoded `path`, the
request's `Host` value and the result `(content, err)` of reading the file. -/
def decideResponse (path host content : GoString) (err : error) : Response :=
  let r : Response :=
    if path = str "/" then
      { statusCode := 301, statusMessage := str "Moved Permanently",
        responseHeaders := GoMap.make.set (str "Location") (str "index.html"), body := [] }
    else if err ≠ none then
      { statusCode := 404, statusMessage := str "Not Found",
        responseHeaders := GoMap.make, body := NOT_FOUND_BODY }
    else
      { statusCode := 200, statusMessage := str "OK",
        responseHeaders := GoMap.make.set (str "Content-Length") (Itoa content.length),
        body := content }
  { r with responseHeaders := r.responseHeaders.set (str "Host") host }

/-- Line 95 of `processClient`: the bytes of the response. -/
def encodeResponse (range : RangeOrder) (r : Response) : GoString :=
  str "HTTP/1.1 " ++ Itoa r.statusCode ++ str " " ++ r.statusMessage ++ str "\r\n"
    ++ encodeHTTPHeaders range r.responseHeaders ++ str "\r\n" ++ r.body

/-- Go `processClient` (lines 52-101): the connection when the handler returns.
`ReadFile` is the file system, `range` the iteration order of the response
headers.  `Write` is taken to accept the whole response. -/
def processClient (ReadFile : FileSystem) (range : RangeOrder) (connection : Conn)
    (root_direcotry : GoString) : Exec Conn :=
  -- defer connection.Close()
  match readAndDecodeHTTPFirstLine connection with
  | .error f => .error f
  | .ok ((path, err), connection) =>
    if err ≠ none then .ok connection.Close
    else
      match readAndDecodeHTTPHeaders connection with
      | .error f => .error f
      | .ok ((requestHeaders, err), connection) =>
        match requestHeaders.get (str "Host") with
        | none => .ok connection.Close
        | some host =>
          if err ≠ none then .ok connection.Close
          else
            let filePath := Join [root_direcotry, path]
            let (content, err) := ReadFile filePath
            let response := encodeResponse range (decideResponse path host content err)
            .ok (connection.Write response).Close


/-! ## Definitions used to state the properties -/

/-- A file system whose only file is `/srv/www/index.html`, with contents `hi`. -/
def exampleFS : FileSystem := fun name =>
  if name = str "/srv/www/index.html" then (str "hi", none)
  else ([], some (str "open " ++ name ++ str ": no such file or directory"))

/-- A fresh connection on which the peer sends `request` and then closes. -/
def exampleConn (request : String) : Conn :=
  { input := str request, failure := str "EOF", output := [], closed := false }

/-- What `readLineFromConnection` has in `data` after reading the bytes `s` from the
connection: the `string(b)` of every byte, one after the other (line 136). -/
def accumulated (s : GoString) : GoString := (s.map byteString).flatten

/-- The `(key, value)` pair lines 156-162 decode a header line to (for a line
without a colon, which decodes to no pair, the empty pair). -/
def decodedPair (line : GoString) : GoString × GoString :=
  match decodeHeaderLine line with
  | .ok (.ok kv) => kv
  | _ => ([], [])

/-- The header block of a request: every line followed by CRLF. -/
def headerLines (lines : List GoString) : GoString :=
  (lines.map (fun l => l ++ CRLF)).flatten

/-- Inserting `(key, value)` pairs into a map one after the other. -/
def insertAll (m : GoMap) (pairs : List (GoString × GoString)) : GoMap :=
  pairs.foldl (fun m kv => m.set kv.1 kv.2) m

/-- The number a string of decimal digits denotes. -/
def decimalValue (s : GoString) : Nat := s.foldl (fun acc b => acc * 10 + (b.val - 48)) 0

/-- Every byte is printable ASCII (0x20 to 0x7E; so neither CR nor LF). -/
def printable (s : GoString) : Bool := s.all (fun b => decide (0x20 ≤ b.val ∧ b.val ≤ 0x7E))

/-- No leading and no trailing white space: the first and the last byte, if any, are
not ASCII white space. -/
def trimmed (s : GoString) : Bool :=
  (match s.head? with
    | some b => !asciiSpace b
    | none => true)
  && (match s.getLast? with
    | some b => !asciiSpace b
    | none => true)

/-- The line `key: value` that `encodeHTTPHeaders` writes for an entry (without CRLF). -/
def headerLine (kv : GoString × GoString) : GoString := kv.1 ++ str ": " ++ kv.2

/-- The status line of a response, without its CRLF. -/
def statusLine (r : Response) : GoString :=
  str "HTTP/1.1 " ++ Itoa r.statusCode ++ str " " ++ r.statusMessage

/-- A path is under a root directory when it is the root or starts with the root
followed by a separator (the root `/` already ends with one). -/
def underRoot (root p : GoString) : Bool :=
  decide (p = root) || (if root = [47] then root.isPrefixOf p else (root ++ [47]).isPrefixOf p)

/-- The `/`-separated segments joined again: `a/b/c`. -/
def joinSegs : List GoString → GoString
  | [] => []
  | [s] => s
  | s :: t => s ++ 47 :: joinSegs t

/-- The clean absolute path with the given segments: `/` alone, or `/a/b/c`. -/
def rootOf (segs : List GoString) : GoString := 47 :: joinSegs segs

/-- A segment that names a directory entry: not empty, without separator, and
neither `.` nor `..`. -/
def regularSeg (s : GoString) : Bool :=
  decide (s ≠ [] ∧ (47 : Byte) ∉ s ∧ s ≠ str "." ∧ s ≠ str "..")

/-- What a segment of the path does to the segments of the name built so far, read
off the cases of the loop of `filepath.Clean` on a rooted path: an empty segment
and `.` leave them as they are, `..` removes the last one (none at the root
slash), every other segment is added. -/
def stepSeg (stack : List GoString) (seg : GoString) : List GoString :=
  if seg = [] ∨ seg = str "." then stack
  else if seg = str ".." then stack.dropLast
  else stack ++ [seg]

/-- No `..` of the segments climbs above the starting directory, `depth` being the
number of segments below it so far. -/
def staysUnder : Nat → List GoString → Bool
  | _, [] => true
  | depth, seg :: rest =>
    if seg = [] ∨ seg = str "." then staysUnder depth rest
    else if seg = str ".." then decide (0 < depth) && staysUnder (depth - 1) rest
    else staysUnder (depth + 1) rest

/-- The default case of the loop of `filepath.Clean` on a rooted path: add a slash
unless the output is the root slash alone, then copy the element. -/
def pushSeg (out seg : GoString) : GoString :=
  (if out.length ≠ 1 then out ++ [47] else out) ++ seg

/-- A file system whose only file, `/srv/x`, is outside the root `/srv/www`. -/
def outsideFS : FileSystem := fun name =>
  if name = str "/srv/x" then (str "secret", none)
  else ([], some (str "open " ++ name ++ str ": no such file or directory"))

/-! ## The conversion `string(b)` of a byte -/

/-- `string(b)` is `b` itself for an ASCII byte; otherwise it is two bytes, both at
least 0x80. -/
theorem byteString_cases (b : Byte) :
    (b.val < 0x80 ∧ byteString b = [b])
    ∨ (0x80 ≤ b.val ∧ (byteString b).length = 2 ∧ ∀ x ∈ byteString b, 0x80 ≤ x.val) := by
  unfold byteString
  by_cases h : b.val < 0x80
  · left; exact ⟨h, by rw [if_pos h]⟩
  · right
    rw [if_neg h]
    refine ⟨by omega, rfl, ?_⟩
    have hk : b.val >>> 6 = 2 ∨ b.val >>> 6 = 3 := by
      rw [Nat.shiftRight_eq_div_pow]
      have := b.isLt
      omega
    have hm : b.val &&& 0x3F < 64 := by
      have := @Nat.and_le_right b.val 0x3F
      omega
    intro x hx
    simp only [List.mem_cons, List.mem_singleton, List.not_mem_nil, or_false] at hx
    rcases hx with e | e
    · rw [e]
      rcases hk with k | k <;> rw [k] <;> decide
    · rw [e]
      generalize b.val &&& 0x3F = m at hm
      interval_cases m <;> decide

theorem byteString_ascii (b : Byte) (h : b.val < 0x80) : byteString b = [b] := by
  unfold byteString
  rw [if_pos h]

theorem byteString_ne_nil (b : Byte) : byteString b ≠ [] := by
  rcases byteString_cases b with ⟨_, h⟩ | ⟨_, h, _⟩
  · rw [h]; simp
  · intro e; rw [e] at h; simp at h

/-- An ASCII byte occurs in `string(b)` only as `b` itself. -/
theorem mem_byteString (c b : Byte) (hc : c.val < 0x80) : c ∈ byteString b ↔ b = c := by
  rcases byteString_cases b with ⟨_, h⟩ | ⟨hb, _, h⟩
  · rw [h]
    simp only [List.mem_singleton]
    exact eq_comm
  · constructor
    · intro hm
      have := h c hm
      omega
    · intro e
      rw [e] at hb
      omega

theorem byteString_getLast (c b : Byte) (hc : c.val < 0x80) :
    (byteString b).getLast? = some c ↔ b = c := by
  rcases byteString_cases b with ⟨_, h⟩ | ⟨hb, _, h⟩
  · rw [h]
    simp
  · constructor
    · intro hl
      have := h c (List.mem_of_getLast?_eq_some hl)
      omega
    · intro e
      rw [e] at hb
      omega

theorem byteString_head (c b : Byte) (hc : c.val < 0x80) :
    (byteString b).head? = some c ↔ b = c := by
  rcases byteString_cases b with ⟨_, h⟩ | ⟨hb, _, h⟩
  · rw [h]
    simp
  · constructor
    · intro hl
      have := h c (List.mem_of_mem_head? hl)
      omega
    · intro e
      rw [e] at hb
      omega

/-! ## The accumulated line -/

theorem accumulated_nil : accumulated [] = [] := rfl

theorem accumulated_cons (b : Byte) (s : GoString) :
    accumulated (b :: s) = byteString b ++ accumulated s := by
  simp [accumulated]

theorem accumulated_append (s t : GoString) :
    accumulated (s ++ t) = accumulated s ++ accumulated t := by
  simp [accumulated]

theorem accumulated_snoc (s : GoString) (b : Byte) :
    accumulated (s ++ [b]) = accumulated s ++ byteString b := by
  simp [accumulated]

/-- On ASCII bytes the accumulated line is the bytes read. -/
theorem accumulated_ascii (s : GoString) (h : ∀ b ∈ s, b.val < 0x80) : accumulated s = s := by
  induction s with
  | nil => rfl
  | cons b t ih =>
    rw [accumulated_cons, byteString_ascii b (h b (List.mem_cons_self _ _)),
      ih (fun x hx => h x (List.mem_cons_of_mem _ hx))]
    rfl

theorem accumulated_eq_nil (s : GoString) : accumulated s = [] ↔ s = [] := by
  cases s with
  | nil => simp [accumulated_nil]
  | cons b t =>
    rw [accumulated_cons]
    simp [byteString_ne_nil]

/-- An ASCII byte is in the accumulated line exactly when it was read. -/
theorem mem_accumulated (c : Byte) (hc : c.val < 0x80) (s : GoString) :
    c ∈ accumulated s ↔ c ∈ s := by
  induction s with
  | nil => simp [accumulated_nil]
  | cons b t ih =>
    rw [accumulated_cons, List.mem_append, mem_byteString c b hc, ih, List.mem_cons]
    constructor
    · rintro (h | h)
      · exact Or.inl h.symm
      · exact Or.inr h
    · rintro (h | h)
      · exact Or.inl h.symm
      · exact Or.inr h

theorem accumulated_getLast (c : Byte) (hc : c.val < 0x80) (s : GoString) :
    (accumulated s).getLast? = some c ↔ s.getLast? = some c := by
  rcases List.eq_nil_or_concat s with e | ⟨t, b, e⟩
  · rw [e]; simp [accumulated_nil]
  · rw [e, List.concat_eq_append, accumulated_snoc]
    have h1 : (accumulated t ++ byteString b).getLast? = (byteString b).getLast? := by
      rw [List.getLast?_append]
      cases hl : (byteString b).getLast? with
      | none => exact absurd (List.getLast?_eq_none_iff.mp hl) (byteString_ne_nil b)
      | some x => rfl
    have h2 : (t ++ [b]).getLast? = some b := by simp
    rw [h1, h2, byteString_getLast c b hc]
    simp

theorem accumulated_head (c : Byte) (hc : c.val < 0x80) (s : GoString) :
    (accumulated s).head? = some c ↔ s.head? = some c := by
  cases s with
  | nil => simp [accumulated_nil]
  | cons b t =>
    rw [accumulated_cons, List.head?_append_of_ne_nil _ (byteString_ne_nil b),
      byteString_head c b hc]
    simp

theorem HasSuffix_iff (s suffix : GoString) : HasSuffix s suffix = true ↔ suffix <:+ s := by
  unfold HasSuffix
  rw [List.suffix_iff_eq_drop]
  constructor
  · intro h
    simp only [Bool.and_eq_true, decide_eq_true_eq] at h
    exact h.2.symm
  · intro h
    simp only [Bool.and_eq_true, decide_eq_true_eq]
    refine ⟨?_, h.symm⟩
    have := congrArg List.length h
    simp only [List.length_drop] at this
    omega

theorem sliceTo_append_two (data : GoString) (a b : Byte) :
    sliceTo (data ++ [a] ++ [b]) (((data ++ [a] ++ [b]).length : Int) - 2) = .ok data := by
  unfold sliceTo
  have h1 : (((data ++ [a] ++ [b]).length : Int) - 2) = (data.length : Int) := by
    simp only [List.length_append, List.length_singleton]; push_cast; ring
  rw [h1]
  simp

theorem CRLF_infix_append (a b : GoString) (h : CRLF <:+: a ++ b) :
    CRLF <:+: a ∨ CRLF <:+: b ∨ (a.getLast? = some 13 ∧ b.head? = some 10) := by
  induction a with
  | nil => exact Or.inr (Or.inl (by simpa using h))
  | cons x a' ih =>
    rw [List.cons_append] at h
    rcases List.infix_cons_iff.mp h with hp | hi
    · obtain ⟨u, hu⟩ := hp
      simp only [CRLF, List.cons_append, List.nil_append, List.cons.injEq] at hu
      obtain ⟨hx, hrest⟩ := hu
      cases a' with
      | nil =>
        right; right
        simp only [List.nil_append] at hrest
        exact ⟨by simp [hx], by rw [← hrest]; rfl⟩
      | cons y a'' =>
        left
        simp only [List.cons_append, List.cons.injEq] at hrest
        exact ⟨[], a'', by simp [CRLF, hx, hrest.1]⟩
    · rcases ih hi with h1 | h1 | ⟨h1, h2⟩
      · exact Or.inl (h1.trans (List.suffix_cons x a').isInfix)
      · exact Or.inr (Or.inl h1)
      · right; right
        refine ⟨?_, h2⟩
        cases a' with
        | nil => simp at h1
        | cons y a'' => rw [List.getLast?_cons_cons]; exact h1

theorem exists_first_CRLF :
    ∀ l : GoString, CRLF <:+: l →
      ∃ a b, l = a ++ CRLF ++ b ∧ ¬ CRLF <:+: a
        ∧ ∀ a' b' : GoString, l = a' ++ CRLF ++ b' → a.length ≤ a'.length := by
  intro l
  induction l with
  | nil =>
    intro h
    have := List.IsInfix.length_le h
    simp [CRLF] at this
  | cons x t ih =>
    intro h
    by_cases hp : CRLF <+: x :: t
    · obtain ⟨b, hb⟩ := hp
      exact ⟨[], b, by simpa using hb.symm, by decide, fun a' b' _ => Nat.zero_le _⟩
    · have ht : CRLF <:+: t := (List.infix_cons_iff.mp h).resolve_left hp
      obtain ⟨a, b, e, hfree, hmin⟩ := ih ht
      refine ⟨x :: a, b, by rw [e]; simp, ?_, ?_⟩
      · intro hx
        rcases List.infix_cons_iff.mp hx with h1 | h1
        · apply hp
          obtain ⟨u, hu⟩ := h1
          refine ⟨u ++ CRLF ++ b, ?_⟩
          rw [e]
          have : x :: (a ++ CRLF ++ b) = (x :: a) ++ CRLF ++ b := by simp
          rw [this, ← hu]
          simp
        · exact hfree h1
      · intro a' b' e'
        cases a' with
        | nil => exact absurd ⟨b', by simpa using e'.symm⟩ hp
        | cons y a'' =>
          simp only [List.cons_append, List.cons.injEq] at e'
          have := hmin a'' b' e'.2
          simp only [List.length_cons]
          omega


/-! ## CRLF in the accumulated line -/

theorem suffix_CRLF_iff (y : GoString) :
    CRLF <:+ y ↔ ∃ t, y = t ++ [10] ∧ t.getLast? = some 13 := by
  constructor
  · rintro ⟨u, hu⟩
    exact ⟨u ++ [13], by rw [← hu]; simp [CRLF], by simp⟩
  · rintro ⟨t, e, hl⟩
    rcases List.eq_nil_or_concat t with h | ⟨u, b, h⟩
    · rw [h] at hl; simp at hl
    · rw [h, List.concat_eq_append] at hl
      have hb : (u ++ [b]).getLast? = some b := by simp
      rw [hb] at hl
      simp only [Option.some.injEq] at hl
      exact ⟨u, by rw [e, h, List.concat_eq_append, hl]; simp [CRLF]⟩

/-- The accumulated line ends with CRLF exactly when the bytes read do. -/
theorem accumulated_suffix_CRLF (x : GoString) : CRLF <:+ accumulated x ↔ CRLF <:+ x := by
  rw [suffix_CRLF_iff, suffix_CRLF_iff]
  constructor
  · rintro ⟨t', e, hl⟩
    have h10 : (accumulated x).getLast? = some 10 := by rw [e]; simp
    rw [accumulated_getLast 10 (by decide)] at h10
    rcases List.eq_nil_or_concat x with h | ⟨t, b, h⟩
    · rw [h] at h10; simp at h10
    · rw [h, List.concat_eq_append] at h10
      have hb : (t ++ [b]).getLast? = some b := by simp
      rw [hb] at h10
      simp only [Option.some.injEq] at h10
      subst h10
      rw [List.concat_eq_append] at h
      refine ⟨t, h, ?_⟩
      rw [h, accumulated_snoc, byteString_ascii 10 (by decide)] at e
      have := List.append_cancel_right e
      rw [← accumulated_getLast 13 (by decide), this]
      exact hl
  · rintro ⟨t, e, hl⟩
    refine ⟨accumulated t, by rw [e, accumulated_snoc, byteString_ascii 10 (by decide)], ?_⟩
    rw [accumulated_getLast 13 (by decide)]
    exact hl

theorem HasSuffix_accumulated (x : GoString) :
    HasSuffix (accumulated x) CRLF = HasSuffix x CRLF := by
  rw [Bool.eq_iff_iff, HasSuffix_iff, HasSuffix_iff]
  exact accumulated_suffix_CRLF x

/-- Accumulating does not create a CRLF. -/
theorem accumulated_no_CRLF (x : GoString) (h : ¬ CRLF <:+: x) : ¬ CRLF <:+: accumulated x := by
  induction x with
  | nil => simpa [accumulated_nil] using h
  | cons b t ih =>
    rw [accumulated_cons]
    intro hi
    rcases CRLF_infix_append _ _ hi with h1 | h1 | ⟨h1, h2⟩
    · -- inside `string(b)`: both bytes would be ASCII
      have h13 : (13 : Byte) ∈ byteString b := h1.subset (by simp [CRLF])
      have h10 : (10 : Byte) ∈ byteString b := h1.subset (by simp [CRLF])
      rw [mem_byteString 13 b (by decide)] at h13
      rw [mem_byteString 10 b (by decide)] at h10
      rw [h13] at h10
      exact absurd h10 (by decide)
    · exact ih (fun hx => h (hx.trans (List.suffix_cons b t).isInfix)) h1
    · rw [byteString_getLast 13 b (by decide)] at h1
      rw [accumulated_head 10 (by decide)] at h2
      apply h
      cases t with
      | nil => simp at h2
      | cons c t' =>
        simp only [List.head?_cons, Option.some.injEq] at h2
        exact ⟨[], t', by rw [h1, h2]; simp [CRLF]⟩

/-! ## The line reader -/

theorem not_HasSuffix_of_no_CRLF (pre : GoString) (b : Byte) (s : GoString)
    (h : ¬ CRLF <:+: pre ++ b :: s) :
    HasSuffix (accumulated pre ++ byteString b) CRLF = false := by
  rw [← accumulated_snoc, HasSuffix_accumulated, Bool.eq_false_iff]
  intro hs
  rw [HasSuffix_iff] at hs
  apply h
  obtain ⟨t, ht⟩ := hs
  exact ⟨t, s, by rw [ht]; simp⟩

theorem readLineFromConnection_loop_line (c : Conn) (rest : GoString) :
    ∀ (s pre : GoString), ¬ CRLF <:+: pre ++ s →
      readLineFromConnection.loop c (accumulated pre) (s ++ CRLF ++ rest)
        = .ok ((accumulated (pre ++ s), none), { c with input := rest }) := by
  intro s
  induction s with
  | nil =>
    intro pre h
    have e : ([] : GoString) ++ CRLF ++ rest = 13 :: 10 :: rest := rfl
    have h1 : HasSuffix (accumulated pre ++ byteString 13) CRLF = false := by
      rw [← accumulated_snoc, HasSuffix_accumulated, Bool.eq_false_iff]
      intro hs
      rw [HasSuffix_iff, suffix_CRLF_iff] at hs
      obtain ⟨t, ht, _⟩ := hs
      have := congrArg List.getLast? ht
      simp at this
    have h2 : HasSuffix (accumulated pre ++ byteString 13 ++ byteString 10) CRLF = true := by
      rw [← accumulated_snoc, ← accumulated_snoc, HasSuffix_accumulated, HasSuffix_iff]
      exact ⟨pre, by simp [CRLF]⟩
    rw [e, readLineFromConnection.loop]
    simp only [h1, Bool.false_eq_true, if_false]
    rw [readLineFromConnection.loop]
    simp only [h2, if_true]
    rw [byteString_ascii 13 (by decide), byteString_ascii 10 (by decide), sliceTo_append_two]
    simp
  | cons b s ih =>
    intro pre h
    have e : (b :: s) ++ CRLF ++ rest = b :: (s ++ CRLF ++ rest) := rfl
    rw [e, readLineFromConnection.loop]
    simp only [not_HasSuffix_of_no_CRLF pre b s h, Bool.false_eq_true, if_false]
    have h2 : ¬ CRLF <:+: (pre ++ [b]) ++ s := by simpa using h
    rw [← accumulated_snoc, ih (pre ++ [b]) h2]
    simp

theorem readLineFromConnection_loop_fail (c : Conn) :
    ∀ (s pre : GoString), ¬ CRLF <:+: pre ++ s →
      readLineFromConnection.loop c (accumulated pre) s
        = .ok (([], some (str "Could not read new data from connection: '" ++ c.failure
            ++ str "'")), { c with input := [] }) := by
  intro s
  induction s with
  | nil => intro pre _; rw [readLineFromConnection.loop]
  | cons b s ih =>
    intro pre h
    rw [readLineFromConnection.loop]
    simp only [not_HasSuffix_of_no_CRLF pre b s h, Bool.false_eq_true, if_false]
    have h2 : ¬ CRLF <:+: (pre ++ [b]) ++ s := by simpa using h
    rw [← accumulated_snoc]
    exact ih (pre ++ [b]) h2

/-- On a source delivering `s`, then CR LF, then `rest`, where `s` holds no CRLF,
`readLineFromConnection` returns the accumulated `s` and leaves `rest`. -/
theorem readLineFromConnection_of_input (connection : Conn) (s rest : GoString)
    (hs : ¬ CRLF <:+: s) (hin : connection.input = s ++ CRLF ++ rest) :
    readLineFromConnection connection
      = .ok ((accumulated s, none), { connection with input := rest }) := by
  unfold readLineFromConnection
  rw [hin]
  have := readLineFromConnection_loop_line connection rest s [] (by simpa using hs)
  simpa [accumulated_nil] using this

/-- C7, on the code: line 136 appends `string(buffer[0])`, the UTF-8 encoding of the
code point of the byte, so a byte from 0x80 on is returned as two bytes: on the
source delivering 0xE9, CR, LF the line returned is C3 A9, not the byte read.  In
general the line returned for `s` CRLF `rest` is the accumulated `s`, which is `s`
itself when every byte of `s` is ASCII. -/
theorem readLineFromConnection_reencodes_bytes :
    readLineFromConnection
        { input := [0xE9, 13, 10], failure := str "EOF", output := [], closed := false }
      = .ok (([0xC3, 0xA9], none),
          { input := [], failure := str "EOF", output := [], closed := false })
    ∧ ([0xC3, 0xA9] : GoString) ≠ [0xE9]
    ∧ (∀ (connection : Conn) (s rest : GoString), ¬ CRLF <:+: s →
        connection.input = s ++ CRLF ++ rest →
        readLineFromConnection connection
          = .ok ((accumulated s, none), { connection with input := rest }))
    ∧ (∀ s : GoString, (∀ b ∈ s, b.val < 0x80) → accumulated s = s)
    ∧ readLineFromConnection (exampleConn "Host: x\r\nrest")
        = .ok ((str "Host: x", none), exampleConn "rest") :=
  ⟨by decide, by decide, readLineFromConnection_of_input, accumulated_ascii, by decide⟩

/-- C8: on a source whose remaining bytes contain no CRLF before it closes or fails,
`readLineFromConnection` returns no line (the empty string) and the transport read
error, whose text wraps the text of the failure of `Read`. -/
theorem readLineFromConnection_transport_error (connection : Conn)
    (h : ¬ CRLF <:+: connection.input) :
    readLineFromConnection connection
      = .ok (([], some (str "Could not read new data from connection: '" ++ connection.failure
          ++ str "'")), { connection with input := [] }) := by
  unfold readLineFromConnection
  exact readLineFromConnection_loop_fail connection connection.input [] (by simpa using h)

theorem readLineFromConnection_transport_error_witness :
    readLineFromConnection
        { input := str "abc", failure := str "EOF", output := [], closed := false }
      = .ok (([], some (str "Could not read new data from connection: 'EOF'")),
          { input := [], failure := str "EOF", output := [], closed := false }) :=
  readLineFromConnection_transport_error
    { input := str "abc", failure := str "EOF", output := [], closed := false } (by decide)


/-! ## Splitting -/

theorem IndexByte_append_cons (c : Byte) (r : GoString) :
    ∀ a : GoString, c ∉ a → IndexByte (a ++ c :: r) c = some a.length := by
  intro a
  induction a with
  | nil => intro _; simp [IndexByte]
  | cons b a ih =>
    intro h
    have hb : b ≠ c := fun e => h (by simp [e])
    have ha : c ∉ a := fun e => h (by simp [e])
    simp [IndexByte, hb, ih ha]

theorem IndexByte_eq_none (c : Byte) : ∀ a : GoString, c ∉ a → IndexByte a c = none := by
  intro a
  induction a with
  | nil => intro _; rfl
  | cons b a ih =>
    intro h
    have hb : b ≠ c := fun e => h (by simp [e])
    have ha : c ∉ a := fun e => h (by simp [e])
    simp [IndexByte, hb, ih ha]

theorem genSplit_loop_cut (c : Byte) (k : Nat) (a r : GoString) (h : c ∉ a) :
    genSplit.loop c 0 (k + 1) (a ++ c :: r) = a :: genSplit.loop c 0 k r := by
  rw [genSplit.loop, IndexByte_append_cons c r a h]
  simp

theorem genSplit_loop_last (c : Byte) (k : Nat) (a : GoString) (h : c ∉ a) :
    genSplit.loop c 0 k a = [a] := by
  cases k with
  | zero => rfl
  | succ k => rw [genSplit.loop, IndexByte_eq_none c a h]

theorem Split_eq_loop (s : GoString) (c : Byte) :
    Split s c = genSplit.loop c 0 (Count s c) s := by
  have hle : Count s c ≤ s.length := List.count_le_length c s
  unfold Split genSplit
  have h1 : ¬ ((-1 : Int) = 0) := by decide
  have h2 : (-1 : Int) < 0 := by decide
  have h3 : ¬ (((Count s c : Int) + 1) > (s.length : Int) + 1) := by omega
  simp only [h1, h2, h3, if_true, if_false]
  congr 1
  omega

theorem Split_request_line (p : GoString) (hp : (32 : Byte) ∉ p) :
    Split (str "GET " ++ p ++ str " HTTP/1.1") 32 = [str "GET", p, str "HTTP/1.1"] := by
  have e : str "GET " ++ p ++ str " HTTP/1.1"
      = str "GET" ++ 32 :: (p ++ 32 :: str "HTTP/1.1") := rfl
  have hc : Count (str "GET" ++ 32 :: (p ++ 32 :: str "HTTP/1.1")) 32 = 2 := by
    unfold Count
    rw [List.count_append, List.count_cons, List.count_append, List.count_cons,
      List.count_eq_zero_of_not_mem hp]
    decide
  rw [e, Split_eq_loop, hc, genSplit_loop_cut 32 1 (str "GET") _ (by decide),
    genSplit_loop_cut 32 0 p _ hp, genSplit_loop_last 32 0 _ (by decide)]

/-! ## The request line -/

/-- C1: when the line reader returns `line`, `readAndDecodeHTTPFirstLine` returns
(it does not panic); it succeeds exactly when the split of `line` on single spaces
has exactly three tokens, the first `GET` and the third `HTTP/1.1`; on success it
returns the second token verbatim; and for a path `p` without a space the line
`"GET " + p + " HTTP/1.1"` decodes to `p` with no error. -/
theorem readAndDecodeHTTPFirstLine_spec (connection connection' : Conn) (line : GoString)
    (hline : readLineFromConnection connection = .ok ((line, none), connection')) :
    (∃ r, readAndDecodeHTTPFirstLine connection = .ok r)
    ∧ ((∃ path c, readAndDecodeHTTPFirstLine connection = .ok ((path, none), c))
        ↔ ((Split line 32).length = 3 ∧ (Split line 32)[0]? = some (str "GET")
            ∧ (Split line 32)[2]? = some (str "HTTP/1.1")))
    ∧ (∀ path c, readAndDecodeHTTPFirstLine connection = .ok ((path, none), c) →
        (Split line 32)[1]? = some path ∧ c = connection')
    ∧ (∀ p : GoString, (32 : Byte) ∉ p → line = str "GET " ++ p ++ str " HTTP/1.1" →
        readAndDecodeHTTPFirstLine connection = .ok ((p, none), connection')) := by
  have key : ∀ l : List GoString, Split line 32 = l →
      (∃ r, readAndDecodeHTTPFirstLine connection = .ok r)
      ∧ ((∃ path c, readAndDecodeHTTPFirstLine connection = .ok ((path, none), c))
          ↔ (l.length = 3 ∧ l[0]? = some (str "GET") ∧ l[2]? = some (str "HTTP/1.1")))
      ∧ (∀ path c, readAndDecodeHTTPFirstLine connection = .ok ((path, none), c) →
          l[1]? = some path ∧ c = connection') := by
    intro l hl
    unfold readAndDecodeHTTPFirstLine
    rw [hline]
    simp only [hl]
    rcases l with _ | ⟨a, _ | ⟨b, _ | ⟨c, _ | ⟨d, l⟩⟩⟩⟩
    · simp
    · simp
    · simp
    · by_cases ha : a = str "GET"
      · by_cases hc : c = str "HTTP/1.1"
        · simp [index, ha, hc]
        · simp [index, ha, hc]
      · simp [index, ha]
    · simp
  obtain ⟨h1, h2, h3⟩ := key _ rfl
  refine ⟨h1, h2, h3, ?_⟩
  intro p hp hl
  have hs := Split_request_line p hp
  rw [← hl] at hs
  unfold readAndDecodeHTTPFirstLine
  rw [hline]
  simp [hs, index]

theorem readAndDecodeHTTPFirstLine_spec_witness :
    (∃ r, readAndDecodeHTTPFirstLine
        { input := str "GET /a?b=%20 HTTP/1.1\r\n", failure := [], output := [], closed := false }
          = .ok r)
    ∧ ((∃ path c, readAndDecodeHTTPFirstLine
        { input := str "GET /a?b=%20 HTTP/1.1\r\n", failure := [], output := [], closed := false }
          = .ok ((path, none), c))
        ↔ ((Split (str "GET /a?b=%20 HTTP/1.1") 32).length = 3
            ∧ (Split (str "GET /a?b=%20 HTTP/1.1") 32)[0]? = some (str "GET")
            ∧ (Split (str "GET /a?b=%20 HTTP/1.1") 32)[2]? = some (str "HTTP/1.1")))
    ∧ (∀ path c, readAndDecodeHTTPFirstLine
        { input := str "GET /a?b=%20 HTTP/1.1\r\n", failure := [], output := [], closed := false }
          = .ok ((path, none), c) →
        (Split (str "GET /a?b=%20 HTTP/1.1") 32)[1]? = some path
          ∧ c = { input := [], failure := [], output := [], closed := false })
    ∧ (∀ p : GoString, (32 : Byte) ∉ p →
        str "GET /a?b=%20 HTTP/1.1" = str "GET " ++ p ++ str " HTTP/1.1" →
        readAndDecodeHTTPFirstLine
          { input := str "GET /a?b=%20 HTTP/1.1\r\n", failure := [], output := [], closed := false }
          = .ok ((p, none), { input := [], failure := [], output := [], closed := false })) :=
  readAndDecodeHTTPFirstLine_spec
    { input := str "GET /a?b=%20 HTTP/1.1\r\n", failure := [], output := [], closed := false }
    { input := [], failure := [], output := [], closed := false }
    (str "GET /a?b=%20 HTTP/1.1") (by decide)

/-- C9: when the line reader returns a line whose split on single spaces has a number
of tokens different from three, `readAndDecodeHTTPFirstLine` fails with the
malformed-request-line error ("More than 3 parts in first line" for more than
three tokens, "Less than 3 parts in first line" for fewer), whatever the tokens. -/
theorem readAndDecodeHTTPFirstLine_malformed (connection connection' : Conn) (line : GoString)
    (hline : readLineFromConnection connection = .ok ((line, none), connection'))
    (hparts : (Split line 32).length ≠ 3) :
    readAndDecodeHTTPFirstLine connection
      = .ok (([], some (if (Split line 32).length > 3 then str "More than 3 parts in first line"
          else str "Less than 3 parts in first line")), connection') := by
  unfold readAndDecodeHTTPFirstLine
  rw [hline]
  simp only
  by_cases h : (Split line 32).length > 3
  · simp [h]
  · have h2 : (Split line 32).length < 3 := by omega
    simp [h, h2]

theorem readAndDecodeHTTPFirstLine_malformed_witness :
    readAndDecodeHTTPFirstLine
        { input := str "GET  / HTTP/1.1\r\n", failure := [], output := [], closed := false }
      = .ok (([], some (if (Split (str "GET  / HTTP/1.1") 32).length > 3
          then str "More than 3 parts in first line"
          else str "Less than 3 parts in first line")),
          { input := [], failure := [], output := [], closed := false }) :=
  readAndDecodeHTTPFirstLine_malformed
    { input := str "GET  / HTTP/1.1\r\n", failure := [], output := [], closed := false }
    { input := [], failure := [], output := [], closed := false }
    (str "GET  / HTTP/1.1") (by decide) (by decide)

/-- C10: when the line reader returns a line of exactly three space-separated tokens
whose first token is not exactly `GET`, `readAndDecodeHTTPFirstLine` fails with the
unsupported-method error, "Unhandled method '<token>'", whatever the path and the
version tokens are. -/
theorem readAndDecodeHTTPFirstLine_unsupported_method (connection connection' : Conn)
    (line method path version : GoString)
    (hline : readLineFromConnection connection = .ok ((line, none), connection'))
    (hparts : Split line 32 = [method, path, version]) (hmethod : method ≠ str "GET") :
    readAndDecodeHTTPFirstLine connection
      = .ok (([], some (str "Unhandled method '" ++ method ++ str "'")), connection') := by
  unfold readAndDecodeHTTPFirstLine
  rw [hline]
  simp [hparts, index, hmethod]

theorem readAndDecodeHTTPFirstLine_unsupported_method_witness :
    readAndDecodeHTTPFirstLine
        { input := str "get / HTTP/2\r\n", failure := [], output := [], closed := false }
      = .ok (([], some (str "Unhandled method '" ++ str "get" ++ str "'")),
          { input := [], failure := [], output := [], closed := false }) :=
  readAndDecodeHTTPFirstLine_unsupported_method
    { input := str "get / HTTP/2\r\n", failure := [], output := [], closed := false }
    { input := [], failure := [], output := [], closed := false }
    (str "get / HTTP/2") (str "get") (str "/") (str "HTTP/2") (by decide) (by decide) (by decide)


/-! ## Decimal numbers -/

theorem digitChar_byte (m : Nat) (h : m < 10) :
    ((Fin.ofNat (Nat.digitChar m).toNat : Byte)).val - 48 = m := by
  interval_cases m <;> decide

theorem toDigitsCore_value :
    ∀ (f n : Nat) (ds : List Char), n < f →
      ((Nat.toDigitsCore 10 f n ds).map (fun c => (Fin.ofNat c.toNat : Byte))).foldl
          (fun acc b => acc * 10 + (b.val - 48)) 0
        = (ds.map (fun c => (Fin.ofNat c.toNat : Byte))).foldl
          (fun acc b => acc * 10 + (b.val - 48)) n := by
  intro f
  induction f with
  | zero => intro n ds h; omega
  | succ k ih =>
    intro n ds h
    rw [Nat.toDigitsCore]
    by_cases h0 : n / 10 = 0
    · simp only [h0, if_true, List.map_cons, List.foldl_cons]
      have hn : n % 10 = n := by omega
      rw [hn, digitChar_byte n (by omega)]
      simp
    · simp only [h0, if_false]
      rw [ih (n / 10) _ (by omega)]
      simp only [List.map_cons, List.foldl_cons]
      rw [digitChar_byte (n % 10) (Nat.mod_lt _ (by decide))]
      congr 1
      omega

/-- `Itoa` of a natural number is its decimal representation: read back as a
decimal number it gives the number. -/
theorem decimalValue_Itoa (n : Nat) : decimalValue (Itoa (n : Int)) = n := by
  unfold decimalValue Itoa
  have h : ¬ ((n : Int) < 0) := by omega
  rw [if_neg h]
  simp only [Int.toNat_ofNat, Nat.toDigits]
  rw [toDigitsCore_value (n + 1) n [] (by omega)]
  rfl

/-! ## The handler -/

theorem processClient_eq (ReadFile : FileSystem) (range : RangeOrder)
    (connection c1 c2 : Conn) (root_direcotry path host : GoString) (requestHeaders : GoMap)
    (hfirst : readAndDecodeHTTPFirstLine connection = .ok ((path, none), c1))
    (hheaders : readAndDecodeHTTPHeaders c1 = .ok ((requestHeaders, none), c2))
    (hhost : requestHeaders.get (str "Host") = some host) :
    processClient ReadFile range connection root_direcotry
      = .ok ((c2.Write (encodeResponse range (decideResponse path host
          (ReadFile (Join [root_direcotry, path])).1
          (ReadFile (Join [root_direcotry, path])).2))).Close) := by
  unfold processClient
  rw [hfirst]
  simp only [ne_eq, not_true_eq_false, if_false]
  rw [hheaders]
  simp only [hhost, ne_eq, not_true_eq_false, if_false]

/-- C2: for a request whose request line and headers decode without error, with a
`Host` header, a decoded path other than `/` and a file read that succeeds with
contents `content`, `processClient` writes the response with status 200 `OK`,
body exactly `content`, and the headers `Content-Length`, whose value is the
decimal representation `Itoa(len(content))` of the byte length (read back as a
decimal number it gives `len(content)`), and `Host`; then closes the connection. -/
theorem processClient_ok (ReadFile : FileSystem) (range : RangeOrder)
    (connection c1 c2 : Conn) (root_direcotry path host content : GoString)
    (requestHeaders : GoMap)
    (hfirst : readAndDecodeHTTPFirstLine connection = .ok ((path, none), c1))
    (hheaders : readAndDecodeHTTPHeaders c1 = .ok ((requestHeaders, none), c2))
    (hhost : requestHeaders.get (str "Host") = some host)
    (hpath : path ≠ str "/")
    (hread : ReadFile (Join [root_direcotry, path]) = (content, none)) :
    processClient ReadFile range connection root_direcotry
        = .ok ((c2.Write (encodeResponse range (decideResponse path host content none))).Close)
    ∧ decideResponse path host content none
        = { statusCode := 200, statusMessage := str "OK",
            responseHeaders := [(str "Content-Length", Itoa content.length), (str "Host", host)],
            body := content }
    ∧ (decideResponse path host content none).responseHeaders.get (str "Content-Length")
        = some (Itoa content.length)
    ∧ decimalValue (Itoa content.length) = content.length
    ∧ encodeResponse range (decideResponse path host content none)
        = str "HTTP/1.1 200 OK\r\n"
          ++ encodeHTTPHeaders range
              [(str "Content-Length", Itoa content.length), (str "Host", host)]
          ++ str "\r\n" ++ content := by
  have hd : decideResponse path host content none
      = { statusCode := 200, statusMessage := str "OK",
          responseHeaders := [(str "Content-Length", Itoa content.length), (str "Host", host)],
          body := content } := by
    unfold decideResponse
    simp only [hpath, if_false, ne_eq, not_true_eq_false]
    have hk : ¬ (str "Content-Length" = str "Host") := by decide
    simp [GoMap.make, GoMap.set, hk]
  refine ⟨?_, hd, ?_, decimalValue_Itoa content.length, ?_⟩
  · have := processClient_eq ReadFile range connection c1 c2 root_direcotry path host
      requestHeaders hfirst hheaders hhost
    rw [hread] at this
    exact this
  · rw [hd]
    simp [GoMap.get]
  · rw [hd]
    unfold encodeResponse
    have h200 : Itoa 200 = str "200" := by decide
    simp only [h200]
    simp [str]


theorem processClient_ok_witness :
    processClient exampleFS id (exampleConn "GET /index.html HTTP/1.1\r\nHost: x\r\n\r\n")
        (str "/srv/www")
      = .ok { input := [], failure := str "EOF",
              output := str "HTTP/1.1 200 OK\r\nContent-Length: 2\r\nHost: x\r\n\r\nhi",
              closed := true } :=
  (processClient_ok exampleFS id (exampleConn "GET /index.html HTTP/1.1\r\nHost: x\r\n\r\n")
    (exampleConn "Host: x\r\n\r\n") (exampleConn "") (str "/srv/www") (str "/index.html")
    (str "x") (str "hi") [(str "Host", str "x")]
    (by decide) (by decide) (by decide) (by decide) (by decide)).1

/-- C3: for a request whose request line and headers decode without error, with a
`Host` header, a decoded path other than `/` and a file read that fails,
`processClient` writes the response with status 404 `Not Found`, body exactly
"The requested page not found", and response headers that hold `Host` only, so no
`Content-Length` key; then closes the connection. -/
theorem processClient_not_found (ReadFile : FileSystem) (range : RangeOrder)
    (connection c1 c2 : Conn) (root_direcotry path host content e : GoString)
    (requestHeaders : GoMap)
    (hfirst : readAndDecodeHTTPFirstLine connection = .ok ((path, none), c1))
    (hheaders : readAndDecodeHTTPHeaders c1 = .ok ((requestHeaders, none), c2))
    (hhost : requestHeaders.get (str "Host") = some host)
    (hpath : path ≠ str "/")
    (hread : ReadFile (Join [root_direcotry, path]) = (content, some e)) :
    processClient ReadFile range connection root_direcotry
        = .ok ((c2.Write (encodeResponse range (decideResponse path host content (some e)))).Close)
    ∧ decideResponse path host content (some e)
        = { statusCode := 404, statusMessage := str "Not Found",
            responseHeaders := [(str "Host", host)],
            body := str "The requested page not found" }
    ∧ (decideResponse path host content (some e)).responseHeaders.get (str "Content-Length")
        = none
    ∧ encodeResponse range (decideResponse path host content (some e))
        = str "HTTP/1.1 404 Not Found\r\n" ++ encodeHTTPHeaders range [(str "Host", host)]
          ++ str "\r\n" ++ str "The requested page not found" := by
  have hd : decideResponse path host content (some e)
      = { statusCode := 404, statusMessage := str "Not Found",
          responseHeaders := [(str "Host", host)],
          body := str "The requested page not found" } := by
    unfold decideResponse
    simp only [hpath, if_false, ne_eq]
    simp [GoMap.make, GoMap.set, NOT_FOUND_BODY]
  refine ⟨?_, hd, ?_, ?_⟩
  · have := processClient_eq ReadFile range connection c1 c2 root_direcotry path host
      requestHeaders hfirst hheaders hhost
    rw [hread] at this
    exact this
  · rw [hd]
    have hk : ¬ (str "Host" = str "Content-Length") := by decide
    simp [GoMap.get, hk]
  · rw [hd]
    unfold encodeResponse
    have h404 : Itoa 404 = str "404" := by decide
    simp only [h404]
    simp [str]

theorem processClient_not_found_witness :
    processClient exampleFS id (exampleConn "GET /missing.txt HTTP/1.1\r\nHost: x\r\n\r\n")
        (str "/srv/www")
      = .ok { input := [], failure := str "EOF",
              output := str "HTTP/1.1 404 Not Found\r\nHost: x\r\n\r\nThe requested page not found",
              closed := true } :=
  (processClient_not_found exampleFS id
    (exampleConn "GET /missing.txt HTTP/1.1\r\nHost: x\r\n\r\n")
    (exampleConn "Host: x\r\n\r\n") (exampleConn "") (str "/srv/www") (str "/missing.txt")
    (str "x") [] (str "open /srv/www/missing.txt: no such file or directory")
    [(str "Host", str "x")]
    (by decide) (by decide) (by decide) (by decide) (by decide)).1

/-- C4: for a request whose decoded path is exactly `/` and whose headers decode
without error with `Host` value `host`, `processClient` writes the response with
status 301 `Moved Permanently`, the headers `Location: index.html` and
`Host: host` and an empty body, whatever the file read returned; then closes the
connection. -/
theorem processClient_moved (ReadFile : FileSystem) (range : RangeOrder)
    (connection c1 c2 : Conn) (root_direcotry host : GoString) (requestHeaders : GoMap)
    (hfirst : readAndDecodeHTTPFirstLine connection = .ok ((str "/", none), c1))
    (hheaders : readAndDecodeHTTPHeaders c1 = .ok ((requestHeaders, none), c2))
    (hhost : requestHeaders.get (str "Host") = some host) :
    (∀ (content : GoString) (err : error),
      decideResponse (str "/") host content err
        = { statusCode := 301, statusMessage := str "Moved Permanently",
            responseHeaders := [(str "Location", str "index.html"), (str "Host", host)],
            body := [] })
    ∧ processClient ReadFile range connection root_direcotry
        = .ok ((c2.Write (str "HTTP/1.1 301 Moved Permanently\r\n"
            ++ encodeHTTPHeaders range [(str "Location", str "index.html"), (str "Host", host)]
            ++ str "\r\n")).Close) := by
  have hd : ∀ (content : GoString) (err : error),
      decideResponse (str "/") host content err
        = { statusCode := 301, statusMessage := str "Moved Permanently",
            responseHeaders := [(str "Location", str "index.html"), (str "Host", host)],
            body := [] } := by
    intro content err
    unfold decideResponse
    have hk : ¬ (str "Location" = str "Host") := by decide
    simp [GoMap.make, GoMap.set, hk]
  refine ⟨hd, ?_⟩
  rw [processClient_eq ReadFile range connection c1 c2 root_direcotry (str "/") host
    requestHeaders hfirst hheaders hhost, hd]
  unfold encodeResponse
  have h301 : Itoa 301 = str "301" := by decide
  simp only [h301]
  simp [str]

theorem processClient_moved_witness :
    (∀ (content : GoString) (err : error),
      decideResponse (str "/") (str "x") content err
        = { statusCode := 301, statusMessage := str "Moved Permanently",
            responseHeaders := [(str "Location", str "index.html"), (str "Host", str "x")],
            body := [] })
    ∧ processClient exampleFS id (exampleConn "GET / HTTP/1.1\r\nHost: x\r\n\r\n")
        (str "/srv/www")
      = .ok (((exampleConn "").Write (str "HTTP/1.1 301 Moved Permanently\r\n"
            ++ encodeHTTPHeaders id [(str "Location", str "index.html"), (str "Host", str "x")]
            ++ str "\r\n")).Close) :=
  processClient_moved exampleFS id (exampleConn "GET / HTTP/1.1\r\nHost: x\r\n\r\n")
    (exampleConn "Host: x\r\n\r\n") (exampleConn "") (str "/srv/www") (str "x")
    [(str "Host", str "x")] (by decide) (by decide) (by decide)


/-! ## Runes and trimming -/

theorem first_cases (b : Byte) :
    first b = 0xF0 ∨ first b = 0xF1 ∨ first b = 0x02 ∨ first b = 0x13 ∨ first b = 0x03
      ∨ first b = 0x23 ∨ first b = 0x34 ∨ first b = 0x04 ∨ first b = 0x44 := by
  unfold first
  split_ifs <;> simp

theorem acceptRanges_first_lo (b : Byte) (h : ¬ first b ≥ 0xF0) :
    0x80 ≤ (acceptRanges (first b >>> 4)).1 := by
  rcases first_cases b with e | e | e | e | e | e | e | e | e <;> rw [e] at h ⊢ <;>
    first
      | decide
      | exact absurd (by decide) h

/-- The shape of what `DecodeRuneInString` returns on a non-empty string: width 1,
or width `k > 1` with `k - 1` continuation bytes (all at least 0x80) after the first. -/
theorem DecodeRuneInString_width (s0 : Byte) (t : GoString) :
    (DecodeRuneInString (s0 :: t)).2 = 1
    ∨ ((DecodeRuneInString (s0 :: t)).2 = 2 ∧ ∃ s1 t', t = s1 :: t' ∧ 0x80 ≤ s1.val)
    ∨ ((DecodeRuneInString (s0 :: t)).2 = 3
        ∧ ∃ s1 s2 t', t = s1 :: s2 :: t' ∧ 0x80 ≤ s1.val ∧ 0x80 ≤ s2.val)
    ∨ ((DecodeRuneInString (s0 :: t)).2 = 4
        ∧ ∃ s1 s2 s3 t', t = s1 :: s2 :: s3 :: t' ∧ 0x80 ≤ s1.val ∧ 0x80 ≤ s2.val
            ∧ 0x80 ≤ s3.val) := by
  unfold DecodeRuneInString
  dsimp only
  by_cases hx : first s0 ≥ 0xF0
  · left; rw [if_pos hx]
  · rw [if_neg hx]
    have hlo := acceptRanges_first_lo s0 hx
    by_cases hn : (s0 :: t).length < first s0 &&& 7
    · left; rw [if_pos hn]
    · rw [if_neg hn]
      cases t with
      | nil => left; rfl
      | cons s1 t =>
        dsimp only
        by_cases h1 : s1.val < (acceptRanges (first s0 >>> 4)).1
            ∨ (acceptRanges (first s0 >>> 4)).2 < s1.val
        · left; rw [if_pos h1]
        · rw [if_neg h1]
          have h1' : 0x80 ≤ s1.val := by
            by_contra hc
            exact h1 (Or.inl (by omega))
          by_cases hz2 : first s0 &&& 7 ≤ 2
          · right; left; rw [if_pos hz2]
            exact ⟨rfl, s1, t, rfl, h1'⟩
          · rw [if_neg hz2]
            cases t with
            | nil => left; rfl
            | cons s2 t =>
              dsimp only
              by_cases h2 : s2.val < 0x80 ∨ 0xBF < s2.val
              · left; rw [if_pos h2]
              · rw [if_neg h2]
                have h2' : 0x80 ≤ s2.val := by
                  by_contra hc
                  exact h2 (Or.inl (by omega))
                by_cases hz3 : first s0 &&& 7 ≤ 3
                · right; right; left; rw [if_pos hz3]
                  exact ⟨rfl, s1, s2, t, rfl, h1', h2'⟩
                · rw [if_neg hz3]
                  cases t with
                  | nil => left; rfl
                  | cons s3 t =>
                    dsimp only
                    by_cases h3 : s3.val < 0x80 ∨ 0xBF < s3.val
                    · left; rw [if_pos h3]
                    · rw [if_neg h3]
                      have h3' : 0x80 ≤ s3.val := by
                        by_contra hc
                        exact h3 (Or.inl (by omega))
                      right; right; right
                      exact ⟨rfl, s1, s2, s3, t, rfl, h1', h2', h3'⟩


theorem snoc_colon_cons (s t : GoString) (s1 : Byte) (h : s ++ [58] = s1 :: t)
    (h1 : 0x80 ≤ s1.val) : ∃ s', s = s1 :: s' ∧ t = s' ++ [58] := by
  cases s with
  | nil =>
    simp only [List.nil_append, List.cons.injEq] at h
    rw [← h.1] at h1
    exact absurd h1 (by decide)
  | cons a s' =>
    simp only [List.cons_append, List.cons.injEq] at h
    exact ⟨s', by rw [h.1], h.2.symm⟩

theorem IsSpace_colon : IsSpace 58 = false := by decide

theorem DecodeRuneInString_ascii (b : Byte) (t : GoString) (h : b.val < 0x80) :
    DecodeRuneInString (b :: t) = (b.val, 1) := by
  unfold DecodeRuneInString
  have hf : first b = 0xF0 := by
    unfold first
    rw [if_pos h]
  simp only [hf]
  rfl

theorem indexFunc_loop_snoc_colon :
    ∀ (fuel : Nat) (s : GoString) (i : Nat), s.length < fuel →
      ∃ j, indexFunc.loop IsSpace false fuel i (s ++ [58]) = some (i + j) ∧ j ≤ s.length := by
  intro fuel
  induction fuel with
  | zero => intro s i h; omega
  | succ k ih =>
    intro s i h
    cases s with
    | nil =>
      refine ⟨0, ?_, le_refl _⟩
      simp only [List.nil_append, indexFunc.loop]
      rw [DecodeRuneInString_ascii 58 [] (by decide)]
      have hc : IsSpace (58 : Byte).val = false := by decide
      simp [hc]
    | cons a s' =>
      simp only [List.cons_append, indexFunc.loop]
      by_cases hf : IsSpace (DecodeRuneInString (a :: (s' ++ [58]))).1 = false
      · exact ⟨0, by simp [hf], Nat.zero_le _⟩
      · simp only [hf, if_false]
        simp only [List.length_cons] at h
        rcases DecodeRuneInString_width a (s' ++ [58]) with w | ⟨w, s1, t', e, h1⟩
            | ⟨w, s1, s2, t', e, h1, h2⟩ | ⟨w, s1, s2, s3, t', e, h1, h2, h3⟩
        · rw [w]
          obtain ⟨j, hj, hle⟩ := ih s' (i + 1) (by omega)
          refine ⟨j + 1, ?_, by simp only [List.length_cons]; omega⟩
          simp only [List.drop_succ_cons, List.drop_zero]
          rw [hj]; simp only [Bool.true_eq_false, if_false]; congr 1; omega
        · rw [w]
          obtain ⟨s'', e1, e2⟩ := snoc_colon_cons s' t' s1 e h1
          subst e1
          obtain ⟨j, hj, hle⟩ := ih s'' (i + 2) (by simp only [List.length_cons] at h; omega)
          refine ⟨j + 2, ?_, by simp only [List.length_cons]; omega⟩
          simp only [List.cons_append, List.drop_succ_cons, List.drop_zero]
          rw [hj]; simp only [Bool.true_eq_false, if_false]; congr 1; omega
        · rw [w]
          obtain ⟨s'', e1, e2⟩ := snoc_colon_cons s' (s2 :: t') s1 e h1
          subst e1
          obtain ⟨s3', e3, e4⟩ := snoc_colon_cons s'' t' s2 e2.symm h2
          subst e3
          obtain ⟨j, hj, hle⟩ := ih s3' (i + 3) (by simp only [List.length_cons] at h; omega)
          refine ⟨j + 3, ?_, by simp only [List.length_cons]; omega⟩
          simp only [List.cons_append, List.drop_succ_cons, List.drop_zero]
          rw [hj]; simp only [Bool.true_eq_false, if_false]; congr 1; omega
        · rw [w]
          obtain ⟨s'', e1, e2⟩ := snoc_colon_cons s' (s2 :: s3 :: t') s1 e h1
          subst e1
          obtain ⟨s3', e3, e4⟩ := snoc_colon_cons s'' (s3 :: t') s2 e2.symm h2
          subst e3
          obtain ⟨s4', e5, e6⟩ := snoc_colon_cons s3' t' s3 e4.symm h3
          subst e5
          obtain ⟨j, hj, hle⟩ := ih s4' (i + 4) (by simp only [List.length_cons] at h; omega)
          refine ⟨j + 4, ?_, by simp only [List.length_cons]; omega⟩
          simp only [List.cons_append, List.drop_succ_cons, List.drop_zero]
          rw [hj]; simp only [Bool.true_eq_false, if_false]; congr 1; omega


theorem TrimLeftFunc_snoc_colon (s : GoString) :
    ∃ y, TrimLeftFunc (s ++ [58]) IsSpace = y ++ [58] ∧ y <:+ s := by
  obtain ⟨j, hj, hle⟩ := indexFunc_loop_snoc_colon (s ++ [58]).length s 0 (by simp)
  refine ⟨s.drop j, ?_, List.drop_suffix j s⟩
  unfold TrimLeftFunc indexFunc
  rw [hj]
  simp only [Nat.zero_add]
  rw [List.drop_append_of_le_length hle]

theorem DecodeLastRuneInString_snoc_colon (y : GoString) :
    DecodeLastRuneInString (y ++ [58]) = (58, 1) := by
  unfold DecodeLastRuneInString
  have hlen : (y ++ [58]).length = y.length + 1 := by simp
  have hget : (y ++ [58]).getD (((y ++ [58]).length : Int) - 1).toNat 0 = 58 := by
    rw [hlen]
    have : (((y.length + 1 : Nat) : Int) - 1).toNat = y.length := by omega
    rw [this]
    simp [List.getD_eq_getElem?_getD]
  simp only [hget]
  have h58 : (58 : Byte).val < RuneSelf := by decide
  rw [hlen, if_pos h58, if_neg (by omega)]
  rfl

theorem TrimRightFunc_snoc_colon (y : GoString) :
    TrimRightFunc (y ++ [58]) IsSpace = y ++ [58] := by
  have hlen : (y ++ [58]).length = y.length + 1 := by simp
  have hl : lastIndexFunc (y ++ [58]) IsSpace false = some y.length := by
    unfold lastIndexFunc
    rw [hlen, lastIndexFunc.loop]
    have ht : (y ++ [58]).take (y.length + 1) = y ++ [58] := by
      rw [← hlen]; exact List.take_length _
    rw [ht, DecodeLastRuneInString_snoc_colon]
    simp [IsSpace_colon]
  unfold TrimRightFunc
  rw [hl]
  have hget : (y ++ [58]).getD y.length 0 = 58 := by
    simp [List.getD_eq_getElem?_getD]
  simp only [hget]
  have : ¬ ((58 : Byte).val ≥ RuneSelf) := by decide
  rw [if_neg this, ← hlen]
  exact List.take_length _

theorem TrimSpace_stop_colon (r : GoString) : TrimSpace.stop (58 :: r) = (58 :: r).reverse := by
  rw [TrimSpace.stop]
  have h1 : ¬ ((58 : Byte).val ≥ RuneSelf) := by decide
  have h2 : asciiSpace 58 = false := by decide
  simp [h1, h2]

/-- `strings.TrimSpace` keeps a final colon: nothing is trimmed on the right of a
string that ends with `:`, and what is left is a suffix of the string. -/
theorem TrimSpace_snoc_colon (x : GoString) :
    ∃ y, TrimSpace (x ++ [58]) = y ++ [58] ∧ y <:+ x := by
  unfold TrimSpace
  induction x with
  | nil =>
    refine ⟨[], ?_, List.suffix_refl _⟩
    simp only [List.nil_append]
    rw [TrimSpace.start]
    have h1 : ¬ ((58 : Byte).val ≥ RuneSelf) := by decide
    have h2 : asciiSpace 58 = false := by decide
    simp only [h1, h2, if_false, Bool.false_eq_true]
    exact TrimSpace_stop_colon []
  | cons c t ih =>
    simp only [List.cons_append]
    rw [TrimSpace.start]
    by_cases h1 : c.val ≥ RuneSelf
    · rw [if_pos h1]
      unfold TrimFunc
      obtain ⟨y, hy, hsuf⟩ := TrimLeftFunc_snoc_colon (c :: t)
      rw [List.cons_append] at hy
      rw [hy, TrimRightFunc_snoc_colon]
      exact ⟨y, rfl, hsuf⟩
    · rw [if_neg h1]
      by_cases h2 : asciiSpace c = true
      · rw [if_pos h2]
        obtain ⟨y, hy, hsuf⟩ := ih
        exact ⟨y, hy, hsuf.trans (List.suffix_cons c t)⟩
      · rw [if_neg h2]
        have hr : (c :: (t ++ [58])).reverse = 58 :: (c :: t).reverse := by simp
        rw [hr, TrimSpace_stop_colon]
        refine ⟨c :: t, by simp, List.suffix_refl _⟩

theorem SplitAfterN_colon (a r : GoString) (ha : (58 : Byte) ∉ a) :
    SplitAfterN (a ++ 58 :: r) 58 2 = [a ++ [58], r] := by
  unfold SplitAfterN genSplit
  have h1 : ¬ ((2 : Int) = 0) := by decide
  have h2 : ¬ ((2 : Int) < 0) := by decide
  have h3 : ¬ ((2 : Int) > ((a ++ 58 :: r).length : Int) + 1) := by
    simp only [List.length_append, List.length_cons]; omega
  simp only [h1, h2, h3, if_false]
  have h4 : ((2 : Int) - 1).toNat = 1 := by decide
  rw [h4, genSplit.loop, IndexByte_append_cons 58 r a ha]
  have e : a ++ 58 :: r = (a ++ [58]) ++ r := by simp
  have hl : a.length + 1 = (a ++ [58]).length := by simp
  simp only [genSplit.loop]
  rw [e, hl, List.take_left, List.drop_left]

theorem SplitAfterN_no_colon (line : GoString) (h : (58 : Byte) ∉ line) :
    SplitAfterN line 58 2 = [line] := by
  unfold SplitAfterN genSplit
  have h1 : ¬ ((2 : Int) = 0) := by decide
  simp only [h1, if_false]
  generalize ((if (if (2 : Int) < 0 then (Count line 58 : Int) + 1 else 2) > (line.length : Int) + 1
    then (line.length : Int) + 1 else (if (2 : Int) < 0 then (Count line 58 : Int) + 1 else 2)) - 1).toNat = k
  cases k with
  | zero => rfl
  | succ k => rw [genSplit.loop, IndexByte_eq_none 58 line h]

/-- What a header line with a colon decodes to (lines 156-162): the key is the
trimmed first part, which still ends with the colon, without that colon; the value
is the trimmed rest.  No slice is out of range. -/
theorem decodeHeaderLine_colon (a r : GoString) (ha : (58 : Byte) ∉ a) :
    decodeHeaderLine (a ++ 58 :: r)
      = .ok (.ok ((TrimSpace (a ++ [58])).dropLast, TrimSpace r)) := by
  unfold decodeHeaderLine
  rw [SplitAfterN_colon a r ha]
  obtain ⟨y, hy, _⟩ := TrimSpace_snoc_colon a
  have hs : sliceTo (TrimSpace (a ++ [58])) (((TrimSpace (a ++ [58])).length : Int) - 1)
      = .ok (TrimSpace (a ++ [58])).dropLast := by
    rw [hy]
    unfold sliceTo
    have e : (((y ++ [58]).length : Int) - 1) = (y.length : Int) := by
      simp only [List.length_append, List.length_singleton]; push_cast; ring
    rw [e]
    simp
  simp [index, hs]


/-! ## The header block -/

theorem GoMap_get_set (m : GoMap) (k v k' : GoString) :
    (m.set k v).get k' = if k = k' then some v else m.get k' := by
  induction m with
  | nil => simp [GoMap.set, GoMap.get]
  | cons e m ih =>
    obtain ⟨a, b⟩ := e
    by_cases h : a = k
    · subst h
      simp only [GoMap.set, if_true, GoMap.get]
      by_cases h2 : a = k' <;> simp [h2]
    · simp only [GoMap.set, if_neg h, GoMap.get, ih]
      by_cases h2 : a = k'
      · subst h2
        simp [h, Ne.symm h]
      · simp [h2]

theorem insertAll_get (pairs : List (GoString × GoString)) :
    ∀ (m : GoMap) (key : GoString),
      (insertAll m pairs).get key
        = match pairs.reverse.find? (fun kv => kv.1 = key) with
          | some kv => some kv.2
          | none => m.get key := by
  induction pairs with
  | nil => intro m key; simp [insertAll]
  | cons p ps ih =>
    intro m key
    have e : insertAll m (p :: ps) = insertAll (m.set p.1 p.2) ps := rfl
    rw [e, ih, GoMap_get_set]
    simp only [List.reverse_cons, List.find?_append]
    cases h : List.find? (fun kv => decide (kv.1 = key)) ps.reverse with
    | some kv => simp
    | none =>
      by_cases hk : p.1 = key
      · simp [hk]
      · simp [hk]

theorem decodeHeaderLine_of_colon (l : GoString) (h : (58 : Byte) ∈ l) :
    decodeHeaderLine l = .ok (.ok (decodedPair l)) := by
  obtain ⟨a, r, e, ha⟩ := List.eq_append_cons_of_mem h
  subst e
  unfold decodedPair
  rw [decodeHeaderLine_colon a r ha]

theorem readAndDecodeHTTPHeaders_loop_lines (rest : GoString) :
    ∀ (lines : List GoString) (fuel : Nat) (m : GoMap) (c : Conn),
      lines.length < fuel → (∀ l ∈ lines, (58 : Byte) ∈ l) → (∀ l ∈ lines, ¬ CRLF <:+: l) →
      c.input = headerLines lines ++ CRLF ++ rest →
      readAndDecodeHTTPHeaders.loop fuel m c
        = .ok ((insertAll m (lines.map (fun l => decodedPair (accumulated l))), none),
            { c with input := rest }) := by
  intro lines
  induction lines with
  | nil =>
    intro fuel m c hf _ _ hin
    cases fuel with
    | zero => simp at hf
    | succ k =>
      rw [readAndDecodeHTTPHeaders.loop,
        readLineFromConnection_of_input c [] rest (by decide) (by simpa [headerLines] using hin)]
      simp [insertAll, accumulated_nil]
  | cons l ls ih =>
    intro fuel m c hf hcolon hcrlf hin
    cases fuel with
    | zero => simp at hf
    | succ k =>
      have hl : (58 : Byte) ∈ accumulated l :=
        (mem_accumulated 58 (by decide) l).mpr (hcolon l (List.mem_cons_self _ _))
      have hne : accumulated l ≠ [] := by
        intro e; rw [e] at hl; simp at hl
      have hin' : c.input = l ++ CRLF ++ (headerLines ls ++ CRLF ++ rest) := by
        rw [hin]; simp [headerLines]
      rw [readAndDecodeHTTPHeaders.loop,
        readLineFromConnection_of_input c l _ (hcrlf l (List.mem_cons_self _ _)) hin']
      simp only [hne, if_false, decodeHeaderLine_of_colon _ hl]
      rw [ih k _ _ (by simpa using hf) (fun x hx => hcolon x (List.mem_cons_of_mem _ hx))
        (fun x hx => hcrlf x (List.mem_cons_of_mem _ hx)) rfl]
      rfl

theorem headerLines_length (lines : List GoString) : lines.length ≤ (headerLines lines).length := by
  induction lines with
  | nil => simp [headerLines]
  | cons l ls ih =>
    have : headerLines (l :: ls) = l ++ CRLF ++ headerLines ls := by simp [headerLines]
    rw [this]
    simp only [List.length_append, List.length_cons, CRLF]
    omega

/-- C5: on a header block made of lines that each contain a colon (and no CRLF),
followed by an empty line, `readAndDecodeHTTPHeaders` decodes every line as the
line reader returns it (the accumulated line), returns without error the map
obtained by inserting the decoded `(key, value)` pairs in order, and leaves what
follows the empty line unread; so a key's stored value is the one from the last
line carrying that key. -/
theorem readAndDecodeHTTPHeaders_last_wins (connection : Conn) (lines : List GoString)
    (rest : GoString)
    (hcolon : ∀ l ∈ lines, (58 : Byte) ∈ l) (hcrlf : ∀ l ∈ lines, ¬ CRLF <:+: l)
    (hin : connection.input = headerLines lines ++ CRLF ++ rest) :
    (∀ l ∈ lines, decodeHeaderLine (accumulated l) = .ok (.ok (decodedPair (accumulated l))))
    ∧ readAndDecodeHTTPHeaders connection
        = .ok ((insertAll GoMap.make (lines.map (fun l => decodedPair (accumulated l))), none),
            { connection with input := rest })
    ∧ ∀ key : GoString,
        (insertAll GoMap.make (lines.map (fun l => decodedPair (accumulated l)))).get key
          = ((lines.map (fun l => decodedPair (accumulated l))).reverse.find?
              (fun kv => kv.1 = key)).map (fun kv => kv.2) := by
  refine ⟨fun l hl => decodeHeaderLine_of_colon _
    ((mem_accumulated 58 (by decide) l).mpr (hcolon l hl)), ?_, ?_⟩
  · unfold readAndDecodeHTTPHeaders
    apply readAndDecodeHTTPHeaders_loop_lines rest lines _ _ _ _ hcolon hcrlf hin
    have := headerLines_length lines
    rw [hin]
    simp only [List.length_append]
    omega
  · intro key
    rw [insertAll_get]
    cases List.find? (fun kv => decide (kv.1 = key))
      (lines.map (fun l => decodedPair (accumulated l))).reverse with
    | some kv => rfl
    | none => rfl

theorem readAndDecodeHTTPHeaders_last_wins_witness :
    readAndDecodeHTTPHeaders (exampleConn "A: 1\r\nA: 2\r\n\r\n")
      = .ok (([(str "A", str "2")], none), exampleConn "") :=
  (readAndDecodeHTTPHeaders_last_wins (exampleConn "A: 1\r\nA: 2\r\n\r\n")
    [str "A: 1", str "A: 2"] [] (by decide) (by decide) (by decide)).2.1


/-- C6, evaluated on the header line `Host : x`: the stored key is `Host ` with the
space before the colon, not the trimmed `Host`, so the map returned for the block
`Host : x` has no key `Host`; the value `x` is trimmed on both sides. -/
theorem decodeHeaderLine_key_keeps_trailing_space :
    decodeHeaderLine (str "Host : x") = .ok (.ok (str "Host ", str "x"))
    ∧ TrimSpace (str "Host ") = str "Host"
    ∧ readAndDecodeHTTPHeaders (exampleConn "Host : x\r\n\r\n")
        = .ok (([(str "Host ", str "x")], none), exampleConn "")
    ∧ GoMap.get [(str "Host ", str "x")] (str "Host") = none := by
  decide


/-! ## The first CRLF of a stream -/

/-- What `readLineFromConnection` does on every connection: with no CRLF left it
returns the read error; otherwise it returns the bytes before the first CRLF, as
accumulated by line 136, and leaves the bytes after it. -/
theorem readLineFromConnection_cases (c : Conn) :
    (¬ CRLF <:+: c.input
      ∧ readLineFromConnection c
          = .ok (([], some (str "Could not read new data from connection: '" ++ c.failure
              ++ str "'")), { c with input := [] }))
    ∨ (∃ a b, c.input = a ++ CRLF ++ b ∧ ¬ CRLF <:+: a
        ∧ (∀ a' b' : GoString, c.input = a' ++ CRLF ++ b' → a.length ≤ a'.length)
        ∧ readLineFromConnection c = .ok ((accumulated a, none), { c with input := b })) := by
  by_cases h : CRLF <:+: c.input
  · right
    obtain ⟨a, b, e, hfree, hmin⟩ := exists_first_CRLF c.input h
    exact ⟨a, b, e, hfree, hmin, readLineFromConnection_of_input c a b hfree e⟩
  · left
    refine ⟨h, ?_⟩
    unfold readLineFromConnection
    exact readLineFromConnection_loop_fail c c.input [] (by simpa using h)

theorem readLineFromConnection_total (c : Conn) : ∃ r, readLineFromConnection c = .ok r := by
  rcases readLineFromConnection_cases c with ⟨_, h⟩ | ⟨a, b, _, _, _, h⟩
  · exact ⟨_, h⟩
  · exact ⟨_, h⟩

theorem readLineFromConnection_ok_inv (c c' : Conn) (line : GoString)
    (h : readLineFromConnection c = .ok ((line, none), c')) :
    ∃ s : GoString, line = accumulated s ∧ c.input = s ++ CRLF ++ c'.input ∧ ¬ CRLF <:+: s
      ∧ (∀ a' b' : GoString, c.input = a' ++ CRLF ++ b' → s.length ≤ a'.length)
      ∧ c' = { c with input := c'.input } ∧ ¬ CRLF <:+: line := by
  rcases readLineFromConnection_cases c with ⟨_, h2⟩ | ⟨a, b, e, hfree, hmin, h2⟩
  · rw [h2] at h
    simp at h
  · rw [h2] at h
    simp only [Except.ok.injEq, Prod.mk.injEq, and_true] at h
    obtain ⟨h1, h3⟩ := h
    subst h1
    subst h3
    exact ⟨a, rfl, e, hfree, hmin, rfl, accumulated_no_CRLF a hfree⟩

/-- `readLineFromConnection` only consumes input: the other fields of the
connection are unchanged, and the input left is no longer than before. -/
theorem readLineFromConnection_frame (c c' : Conn) (r : GoString × error)
    (h : readLineFromConnection c = .ok (r, c')) :
    c'.output = c.output ∧ c'.failure = c.failure ∧ c'.closed = c.closed
      ∧ c'.input.length ≤ c.input.length := by
  rcases readLineFromConnection_cases c with ⟨_, h2⟩ | ⟨a, b, e, _, _, h2⟩
  · rw [h2] at h
    simp only [Except.ok.injEq, Prod.mk.injEq] at h
    rw [← h.2]
    simp
  · rw [h2] at h
    simp only [Except.ok.injEq, Prod.mk.injEq] at h
    rw [← h.2, e]
    simp only [List.length_append, true_and]
    omega

/-- C18: when `readLineFromConnection` succeeds it has consumed exactly the bytes `s`
up to the first CRLF of the source and that CRLF: the bytes left are those after
it, the other fields of the connection are untouched, no CRLF of the source
starts before the end of `s`, and the line returned, which is the accumulated
`s` (`s` itself on ASCII bytes), holds no CRLF; so a second successful call
consumes and returns the next CRLF-terminated line. -/
theorem readLineFromConnection_consumes_first_line (connection c1 : Conn) (line : GoString)
    (h : readLineFromConnection connection = .ok ((line, none), c1)) :
    ∃ s : GoString,
      connection.input = s ++ CRLF ++ c1.input
      ∧ c1 = { connection with input := c1.input }
      ∧ ¬ CRLF <:+: s
      ∧ (∀ a b : GoString, connection.input = a ++ CRLF ++ b → s.length ≤ a.length)
      ∧ line = accumulated s
      ∧ ((∀ b ∈ s, b.val < 0x80) → line = s)
      ∧ ¬ CRLF <:+: line
      ∧ (∀ (line2 : GoString) (c2 : Conn),
          readLineFromConnection c1 = .ok ((line2, none), c2) →
            ∃ s2 : GoString,
              connection.input = s ++ CRLF ++ s2 ++ CRLF ++ c2.input
              ∧ ¬ CRLF <:+: s2 ∧ line2 = accumulated s2 ∧ ¬ CRLF <:+: line2) := by
  obtain ⟨s, hl, e, hfree, hmin, hc, hline⟩ := readLineFromConnection_ok_inv connection c1 line h
  refine ⟨s, e, hc, hfree, hmin, hl, fun hs => by rw [hl, accumulated_ascii s hs], hline, ?_⟩
  intro line2 c2 h2
  obtain ⟨s2, hl2, e2, hfree2, _, _, hline2⟩ := readLineFromConnection_ok_inv c1 c2 line2 h2
  refine ⟨s2, ?_, hfree2, hl2, hline2⟩
  rw [e, e2]
  simp

theorem readLineFromConnection_consumes_first_line_witness :
    ∃ s : GoString,
      (exampleConn "a\r\nb\r\nc").input = s ++ CRLF ++ (exampleConn "b\r\nc").input
      ∧ exampleConn "b\r\nc"
          = { exampleConn "a\r\nb\r\nc" with input := (exampleConn "b\r\nc").input }
      ∧ ¬ CRLF <:+: s
      ∧ (∀ a b : GoString, (exampleConn "a\r\nb\r\nc").input = a ++ CRLF ++ b →
          s.length ≤ a.length)
      ∧ str "a" = accumulated s
      ∧ ((∀ b ∈ s, b.val < 0x80) → str "a" = s)
      ∧ ¬ CRLF <:+: str "a"
      ∧ (∀ (line2 : GoString) (c2 : Conn),
          readLineFromConnection (exampleConn "b\r\nc") = .ok ((line2, none), c2) →
            ∃ s2 : GoString,
              (exampleConn "a\r\nb\r\nc").input = s ++ CRLF ++ s2 ++ CRLF ++ c2.input
              ∧ ¬ CRLF <:+: s2 ∧ line2 = accumulated s2 ∧ ¬ CRLF <:+: line2) :=
  readLineFromConnection_consumes_first_line (exampleConn "a\r\nb\r\nc") (exampleConn "b\r\nc")
    (str "a") (by decide)

/-! ## The header loop on every input -/

theorem decodeHeaderLine_no_colon (line : GoString) (h : (58 : Byte) ∉ line) :
    decodeHeaderLine line
      = .ok (.error (str "Less than two parts in header line '" ++ line ++ str "'")) := by
  unfold decodeHeaderLine
  rw [SplitAfterN_no_colon line h]
  simp

theorem readAndDecodeHTTPHeaders_loop_invariant (P : GoMap → Prop)
    (hstep : ∀ (m : GoMap) (line : GoString), P m → ¬ CRLF <:+: line → (58 : Byte) ∈ line →
      P (m.set (decodedPair line).1 (decodedPair line).2)) :
    ∀ (fuel : Nat) (m : GoMap) (c : Conn), c.input.length < fuel → P m →
      ∃ m' e c', readAndDecodeHTTPHeaders.loop fuel m c = .ok ((m', e), c') ∧ P m'
        ∧ c'.output = c.output ∧ c'.failure = c.failure ∧ c'.closed = c.closed := by
  intro fuel
  induction fuel with
  | zero => intro m c h; omega
  | succ k ih =>
    intro m c hlen hP
    rw [readAndDecodeHTTPHeaders.loop]
    rcases readLineFromConnection_cases c with ⟨_, h⟩ | ⟨a, b, e, hfree, _, h⟩
    · rw [h]
      exact ⟨m, none, { c with input := [] }, by simp, hP, rfl, rfl, rfl⟩
    · rw [h]
      by_cases ha : accumulated a = []
      · exact ⟨m, none, { c with input := b }, by simp [ha], hP, rfl, rfl, rfl⟩
      · simp only [ha, if_false]
        by_cases hc : (58 : Byte) ∈ accumulated a
        · rw [decodeHeaderLine_of_colon (accumulated a) hc]
          simp only
          have hb : ({ c with input := b } : Conn).input.length < k := by
            rw [e] at hlen
            simp only [List.length_append, CRLF, List.length_cons, List.length_nil] at hlen
            simp only
            omega
          obtain ⟨m', e', c', h1, h2, h3, h4, h5⟩ :=
            ih (m.set (decodedPair (accumulated a)).1 (decodedPair (accumulated a)).2)
              { c with input := b } hb
              (hstep m (accumulated a) hP (accumulated_no_CRLF a hfree) hc)
          exact ⟨m', e', c', h1, h2, h3, h4, h5⟩
        · rw [decodeHeaderLine_no_colon (accumulated a) hc]
          exact ⟨m, _, _, rfl, hP, rfl, rfl, rfl⟩

/-- `readAndDecodeHTTPHeaders` returns on every connection (no panic, and the
budget of the loop suffices) and only consumes input. -/
theorem readAndDecodeHTTPHeaders_total (c : Conn) :
    ∃ m e c', readAndDecodeHTTPHeaders c = .ok ((m, e), c')
      ∧ c'.output = c.output ∧ c'.failure = c.failure ∧ c'.closed = c.closed := by
  obtain ⟨m, e, c', h, _, h3, h4, h5⟩ :=
    readAndDecodeHTTPHeaders_loop_invariant (fun _ => True) (fun _ _ _ _ _ => trivial)
      (c.input.length + 1) GoMap.make c (Nat.lt_succ_self _) trivial
  exact ⟨m, e, c', h, h3, h4, h5⟩

theorem readAndDecodeHTTPHeaders_loop_lines_then (tail : GoString) :
    ∀ (lines : List GoString) (fuel : Nat) (m : GoMap) (c : Conn),
      (∀ l ∈ lines, (58 : Byte) ∈ l) → (∀ l ∈ lines, ¬ CRLF <:+: l) →
      c.input = headerLines lines ++ tail →
      readAndDecodeHTTPHeaders.loop (fuel + lines.length) m c
        = readAndDecodeHTTPHeaders.loop fuel
            (insertAll m (lines.map (fun l => decodedPair (accumulated l))))
            { c with input := tail } := by
  intro lines
  induction lines with
  | nil =>
    intro fuel m c _ _ hin
    have hc : c = { c with input := tail } := by
      cases c
      simp only [headerLines, List.map_nil, List.flatten_nil, List.nil_append] at hin
      simp [hin]
    rw [← hc]
    rfl
  | cons l ls ih =>
    intro fuel m c hcolon hcrlf hin
    have hl : (58 : Byte) ∈ accumulated l :=
      (mem_accumulated 58 (by decide) l).mpr (hcolon l (List.mem_cons_self _ _))
    have hne : accumulated l ≠ [] := by
      intro e; rw [e] at hl; simp at hl
    have hin' : c.input = l ++ CRLF ++ (headerLines ls ++ tail) := by
      rw [hin]; simp [headerLines]
    have hf : fuel + (l :: ls).length = (fuel + ls.length) + 1 := by
      simp only [List.length_cons]; omega
    rw [hf, readAndDecodeHTTPHeaders.loop,
      readLineFromConnection_of_input c l _ (hcrlf l (List.mem_cons_self _ _)) hin']
    simp only [hne, if_false, decodeHeaderLine_of_colon (accumulated l) hl]
    rw [ih fuel _ _ (fun x hx => hcolon x (List.mem_cons_of_mem _ hx))
      (fun x hx => hcrlf x (List.mem_cons_of_mem _ hx)) rfl]
    rfl

theorem readAndDecodeHTTPHeaders_lines_then (c : Conn) (lines : List GoString) (tail : GoString)
    (hcolon : ∀ l ∈ lines, (58 : Byte) ∈ l) (hcrlf : ∀ l ∈ lines, ¬ CRLF <:+: l)
    (hin : c.input = headerLines lines ++ tail) :
    readAndDecodeHTTPHeaders c
      = readAndDecodeHTTPHeaders.loop (c.input.length + 1 - lines.length)
          (insertAll GoMap.make (lines.map (fun l => decodedPair (accumulated l))))
          { c with input := tail }
      ∧ 1 ≤ c.input.length + 1 - lines.length := by
  have hlen : lines.length ≤ c.input.length := by
    have := headerLines_length lines
    rw [hin]
    simp only [List.length_append]
    omega
  refine ⟨?_, by omega⟩
  unfold readAndDecodeHTTPHeaders
  have hf : c.input.length + 1 = (c.input.length + 1 - lines.length) + lines.length := by omega
  rw [hf, readAndDecodeHTTPHeaders_loop_lines_then tail lines _ _ c hcolon hcrlf hin]
  congr 1
  omega

/-- C13: when, after header lines that each contain a colon, `readAndDecodeHTTPHeaders`
reads a non-empty line that contains no colon (the bytes `bad` of the source, read
as the line `accumulated bad`), it returns the malformed-header-line error
"Less than two parts in header line '<line>'" quoting the line as read (with the
headers decoded so far), leaving what follows that line unread; on ASCII bytes the
line read is `bad` itself. -/
theorem readAndDecodeHTTPHeaders_malformed_line (connection : Conn) (lines : List GoString)
    (bad rest : GoString)
    (hcolon : ∀ l ∈ lines, (58 : Byte) ∈ l) (hcrlf : ∀ l ∈ lines, ¬ CRLF <:+: l)
    (hbad : bad ≠ []) (hnocolon : (58 : Byte) ∉ bad) (hbadcrlf : ¬ CRLF <:+: bad)
    (hin : connection.input = headerLines lines ++ (bad ++ CRLF ++ rest)) :
    readAndDecodeHTTPHeaders connection
      = .ok ((insertAll GoMap.make (lines.map (fun l => decodedPair (accumulated l))),
            some (str "Less than two parts in header line '" ++ accumulated bad ++ str "'")),
          { connection with input := rest })
    ∧ ((∀ b ∈ bad, b.val < 0x80) → accumulated bad = bad) := by
  refine ⟨?_, accumulated_ascii bad⟩
  obtain ⟨h, hk⟩ := readAndDecodeHTTPHeaders_lines_then connection lines _ hcolon hcrlf hin
  rw [h]
  obtain ⟨k, hk'⟩ : ∃ k, connection.input.length + 1 - lines.length = k + 1 :=
    ⟨connection.input.length + 1 - lines.length - 1, by omega⟩
  have hbad' : accumulated bad ≠ [] := fun e => hbad ((accumulated_eq_nil bad).mp e)
  have hnocolon' : (58 : Byte) ∉ accumulated bad :=
    fun e => hnocolon ((mem_accumulated 58 (by decide) bad).mp e)
  rw [hk', readAndDecodeHTTPHeaders.loop,
    readLineFromConnection_of_input { connection with input := bad ++ CRLF ++ rest } bad rest
      hbadcrlf rfl]
  simp only [hbad', if_false, decodeHeaderLine_no_colon (accumulated bad) hnocolon']

theorem readAndDecodeHTTPHeaders_malformed_line_witness :
    readAndDecodeHTTPHeaders (exampleConn "Host: x\r\nbad line\r\nrest")
      = .ok ((insertAll GoMap.make
              ([str "Host: x"].map (fun l => decodedPair (accumulated l))),
            some (str "Less than two parts in header line '"
              ++ accumulated (str "bad line") ++ str "'")),
          { exampleConn "Host: x\r\nbad line\r\nrest" with input := str "rest" })
    ∧ ((∀ b ∈ str "bad line", b.val < 0x80) → accumulated (str "bad line") = str "bad line") :=
  readAndDecodeHTTPHeaders_malformed_line (exampleConn "Host: x\r\nbad line\r\nrest")
    [str "Host: x"] (str "bad line") (str "rest") (by decide) (by decide) (by decide)
    (by decide) (by decide) (by decide)

theorem readAndDecodeHTTPHeaders_truncated (c : Conn) (lines : List GoString) (tail : GoString)
    (hcolon : ∀ l ∈ lines, (58 : Byte) ∈ l) (hcrlf : ∀ l ∈ lines, ¬ CRLF <:+: l)
    (htail : ¬ CRLF <:+: tail) (hin : c.input = headerLines lines ++ tail) :
    readAndDecodeHTTPHeaders c
      = .ok ((insertAll GoMap.make (lines.map (fun l => decodedPair (accumulated l))), none),
          { c with input := [] }) := by
  obtain ⟨h, hk⟩ := readAndDecodeHTTPHeaders_lines_then c lines _ hcolon hcrlf hin
  rw [h]
  obtain ⟨k, hk'⟩ : ∃ k, c.input.length + 1 - lines.length = k + 1 :=
    ⟨c.input.length + 1 - lines.length - 1, by omega⟩
  rw [hk', readAndDecodeHTTPHeaders.loop]
  rcases readLineFromConnection_cases { c with input := tail } with ⟨_, h2⟩ | ⟨a, b, e, _, _, _⟩
  · rw [h2]
    simp
  · exact absurd ⟨a, b, by simpa using e.symm⟩ htail

/-- C12, on the code: a failed line read ends the header loop as the empty line
does (line 150 tests `line == ""` before line 153 tests `err`), so the result is
the headers read so far (each decoded from its line as read, `accumulated l`) with
a `nil` error, for every truncated header block; for instance on `Host: x` CRLF
followed by the end of the stream. -/
theorem readAndDecodeHTTPHeaders_read_error_is_success :
    (∀ (c : Conn) (lines : List GoString) (tail : GoString),
      (∀ l ∈ lines, (58 : Byte) ∈ l) → (∀ l ∈ lines, ¬ CRLF <:+: l) → ¬ CRLF <:+: tail →
      c.input = headerLines lines ++ tail →
      readAndDecodeHTTPHeaders c
        = .ok ((insertAll GoMap.make (lines.map (fun l => decodedPair (accumulated l))), none),
            { c with input := [] }))
    ∧ readLineFromConnection (exampleConn "")
        = .ok (([], some (str "Could not read new data from connection: 'EOF'")), exampleConn "")
    ∧ readAndDecodeHTTPHeaders (exampleConn "Host: x\r\n")
        = .ok (([(str "Host", str "x")], none), exampleConn "") :=
  ⟨readAndDecodeHTTPHeaders_truncated, by decide, by decide⟩


/-! ## More on splitting -/

theorem IndexByte_some (c : Byte) :
    ∀ (s : GoString) (m : Nat), IndexByte s c = some m →
      ∃ a r, s = a ++ c :: r ∧ c ∉ a ∧ a.length = m := by
  intro s
  induction s with
  | nil => intro m h; simp [IndexByte] at h
  | cons b t ih =>
    intro m h
    by_cases hb : b = c
    · subst hb
      simp only [IndexByte, if_true, Option.some.injEq] at h
      exact ⟨[], t, rfl, by simp, by simpa using h⟩
    · simp only [IndexByte, if_neg hb, Option.map_eq_some'] at h
      obtain ⟨m', hm', e⟩ := h
      obtain ⟨a, r, e1, ha, hl⟩ := ih m' hm'
      refine ⟨b :: a, r, by rw [e1]; rfl, ?_, by simp [hl, e]⟩
      intro hmem
      rcases List.mem_cons.mp hmem with h1 | h1
      · exact hb h1.symm
      · exact ha h1

theorem IndexByte_none (c : Byte) : ∀ s : GoString, IndexByte s c = none → c ∉ s := by
  intro s
  induction s with
  | nil => intro _; simp
  | cons b t ih =>
    intro h
    by_cases hb : b = c
    · simp [IndexByte, hb] at h
    · simp only [IndexByte, if_neg hb, Option.map_eq_none'] at h
      intro hmem
      rcases List.mem_cons.mp hmem with h1 | h1
      · exact hb h1.symm
      · exact ih h h1

/-- The parts of a split on `c` do not contain `c` (when every `c` was cut at),
and joined with `c` they give the string back. -/
theorem genSplit_loop_parts (c : Byte) :
    ∀ (k : Nat) (s : GoString),
      [c].intercalate (genSplit.loop c 0 k s) = s
      ∧ (Count s c ≤ k → ∀ tok ∈ genSplit.loop c 0 k s, c ∉ tok) := by
  intro k
  induction k with
  | zero =>
    intro s
    refine ⟨by simp [genSplit.loop, List.intercalate], ?_⟩
    intro h tok htok
    simp only [genSplit.loop, List.mem_singleton] at htok
    subst htok
    unfold Count at h
    exact List.count_eq_zero.mp (by omega)
  | succ k ih =>
    intro s
    rw [genSplit.loop]
    cases hi : IndexByte s c with
    | none =>
      refine ⟨by simp [List.intercalate], ?_⟩
      intro _ tok htok
      simp only [List.mem_singleton] at htok
      subst htok
      exact IndexByte_none c _ hi
    | some m =>
      obtain ⟨a, r, e, ha, hl⟩ := IndexByte_some c s m hi
      subst e
      subst hl
      have ht : List.take (a.length + 0) (a ++ c :: r) = a := by simp
      have hd : List.drop (a.length + 1) (a ++ c :: r) = r := by
        have : a ++ c :: r = (a ++ [c]) ++ r := by simp
        rw [this]
        have hl : a.length + 1 = (a ++ [c]).length := by simp
        rw [hl, List.drop_left]
      simp only [ht, hd]
      obtain ⟨ih1, ih2⟩ := ih r
      constructor
      · cases hloop : genSplit.loop c 0 k r with
        | nil =>
          rw [hloop] at ih1
          simp only [List.intercalate, List.intersperse_nil, List.flatten_nil] at ih1
          subst ih1
          cases k <;> simp [genSplit.loop] at hloop
          split at hloop <;> simp at hloop
        | cons x xs =>
          rw [hloop] at ih1
          rw [← ih1]
          simp [List.intercalate]
      · intro hcount tok htok
        rcases List.mem_cons.mp htok with h1 | h1
        · rw [h1]; exact ha
        · apply ih2 _ tok h1
          unfold Count at hcount ⊢
          rw [List.count_append, List.count_cons_self] at hcount
          omega

theorem Split_parts (s : GoString) (c : Byte) :
    [c].intercalate (Split s c) = s ∧ ∀ tok ∈ Split s c, c ∉ tok := by
  rw [Split_eq_loop]
  exact ⟨(genSplit_loop_parts c _ s).1, (genSplit_loop_parts c _ s).2 (le_refl _)⟩

/-! ## The request line, continued -/

theorem readAndDecodeHTTPFirstLine_tokens (c c1 c' : Conn) (line path : GoString)
    (hline : readLineFromConnection c = .ok ((line, none), c1))
    (h : readAndDecodeHTTPFirstLine c = .ok ((path, none), c')) :
    Split line 32 = [str "GET", path, str "HTTP/1.1"] ∧ c' = c1 := by
  unfold readAndDecodeHTTPFirstLine at h
  rw [hline] at h
  simp only at h
  rcases hs : Split line 32 with _ | ⟨t0, _ | ⟨t1, _ | ⟨t2, _ | ⟨t3, l⟩⟩⟩⟩ <;> rw [hs] at h
  · simp at h
  · simp at h
  · simp at h
  · by_cases ha : t0 = str "GET"
    · by_cases hc : t2 = str "HTTP/1.1"
      · simp [index, ha, hc] at h
        simp [ha, hc, h.1, h.2]
      · simp [index, ha, hc] at h
    · simp [index, ha] at h
  · simp at h

/-- What a successful `readAndDecodeHTTPFirstLine` has read. -/
theorem readAndDecodeHTTPFirstLine_ok_inv (c c' : Conn) (path : GoString)
    (h : readAndDecodeHTTPFirstLine c = .ok ((path, none), c')) :
    readLineFromConnection c = .ok ((str "GET " ++ path ++ str " HTTP/1.1", none), c')
      ∧ (32 : Byte) ∉ path := by
  rcases readLineFromConnection_cases c with ⟨_, h2⟩ | ⟨wire, b, _, _, _, h2⟩
  · unfold readAndDecodeHTTPFirstLine at h
    rw [h2] at h
    simp at h
  · generalize accumulated wire = line at h2
    obtain ⟨hs, hc⟩ := readAndDecodeHTTPFirstLine_tokens c _ c' line path h2 h
    obtain ⟨hj, hno⟩ := Split_parts line 32
    rw [hs] at hj hno
    refine ⟨?_, hno path (by simp)⟩
    rw [h2, hc]
    have : str "GET " ++ path ++ str " HTTP/1.1" = line := by
      rw [← hj]
      simp only [List.intercalate, List.intersperse, List.flatten, List.append_nil,
        List.append_assoc]
      rfl
    rw [this]


theorem readAndDecodeHTTPFirstLine_frame (c c' : Conn) (r : GoString × error)
    (h : readAndDecodeHTTPFirstLine c = .ok (r, c')) :
    c'.output = c.output ∧ c'.failure = c.failure ∧ c'.closed = c.closed := by
  obtain ⟨⟨⟨line, err⟩, c1⟩, h1⟩ := readLineFromConnection_total c
  obtain ⟨f1, f2, f3, _⟩ := readLineFromConnection_frame c c1 _ h1
  have hc : c' = c1 := by
    unfold readAndDecodeHTTPFirstLine at h
    rw [h1] at h
    simp only at h
    cases err with
    | some e => simp at h; exact h.2.symm
    | none =>
      simp only at h
      rcases hs : Split line 32 with _ | ⟨t0, _ | ⟨t1, _ | ⟨t2, _ | ⟨t3, l⟩⟩⟩⟩ <;> rw [hs] at h
      · simp at h; exact h.2.symm
      · simp at h; exact h.2.symm
      · simp at h; exact h.2.symm
      · by_cases ha : t0 = str "GET"
        · by_cases hv : t2 = str "HTTP/1.1"
          · simp [index, ha, hv] at h; exact h.2.symm
          · simp [index, ha, hv] at h; exact h.2.symm
        · simp [index, ha] at h; exact h.2.symm
      · simp at h; exact h.2.symm
  rw [hc]
  exact ⟨f1, f2, f3⟩

/-- C17, as amended: a path that `readAndDecodeHTTPFirstLine` returns without error
is the second token of the request line `GET <path> HTTP/1.1` that was read (the
line `readLineFromConnection` returned for the bytes `s` before the first CRLF
of the source), so it holds no space and no CRLF. -/
theorem readAndDecodeHTTPFirstLine_path_token (connection c : Conn) (path : GoString)
    (h : readAndDecodeHTTPFirstLine connection = .ok ((path, none), c)) :
    readLineFromConnection connection
        = .ok ((str "GET " ++ path ++ str " HTTP/1.1", none), c)
      ∧ (∃ s : GoString, connection.input = s ++ CRLF ++ c.input ∧ ¬ CRLF <:+: s
          ∧ accumulated s = str "GET " ++ path ++ str " HTTP/1.1")
      ∧ (32 : Byte) ∉ path ∧ ¬ CRLF <:+: path := by
  obtain ⟨hline, hsp⟩ := readAndDecodeHTTPFirstLine_ok_inv connection c path h
  obtain ⟨s, hl, e, hfree, _, _, hno⟩ := readLineFromConnection_ok_inv connection c _ hline
  refine ⟨hline, ⟨s, e, hfree, hl.symm⟩, hsp, ?_⟩
  intro hp
  apply hno
  exact hp.trans ⟨str "GET ", str " HTTP/1.1", rfl⟩

theorem readAndDecodeHTTPFirstLine_path_token_witness :
    readLineFromConnection (exampleConn "GET /a/b HTTP/1.1\r\nrest")
        = .ok ((str "GET " ++ str "/a/b" ++ str " HTTP/1.1", none), exampleConn "rest")
      ∧ (∃ s : GoString,
          (exampleConn "GET /a/b HTTP/1.1\r\nrest").input = s ++ CRLF ++ (exampleConn "rest").input
          ∧ ¬ CRLF <:+: s
          ∧ accumulated s = str "GET " ++ str "/a/b" ++ str " HTTP/1.1")
      ∧ (32 : Byte) ∉ str "/a/b" ∧ ¬ CRLF <:+: str "/a/b" :=
  readAndDecodeHTTPFirstLine_path_token (exampleConn "GET /a/b HTTP/1.1\r\nrest")
    (exampleConn "rest") (str "/a/b") (by decide)

/-- C17, as stated, fails: the request line `GET x HTTP/1.1` decodes without error to
the path `x`, which does not begin with `/`, and `GET  HTTP/1.1` (two spaces) to the
empty path. -/
theorem readAndDecodeHTTPFirstLine_path_not_rooted :
    readAndDecodeHTTPFirstLine (exampleConn "GET x HTTP/1.1\r\n")
        = .ok ((str "x", none), exampleConn "")
    ∧ readAndDecodeHTTPFirstLine (exampleConn "GET  HTTP/1.1\r\n")
        = .ok (([], none), exampleConn "")
    ∧ ¬ (∀ (connection c : Conn) (path : GoString),
          readAndDecodeHTTPFirstLine connection = .ok ((path, none), c) →
            path ≠ [] ∧ path.head? = some 47) := by
  refine ⟨by decide, by decide, ?_⟩
  intro hall
  have := hall (exampleConn "GET  HTTP/1.1\r\n") (exampleConn "") [] (by decide)
  exact this.1 rfl

/-! ## The handler, continued -/

/-- C11: for a request whose request line decodes without error and whose header
block decodes to a map without the key `Host`, `processClient` returns having
written nothing: the output of the connection is what it was, and the connection
is closed. -/
theorem processClient_no_host (ReadFile : FileSystem) (range : RangeOrder)
    (connection c1 c2 : Conn) (root_direcotry path : GoString) (requestHeaders : GoMap)
    (err : error)
    (hfirst : readAndDecodeHTTPFirstLine connection = .ok ((path, none), c1))
    (hheaders : readAndDecodeHTTPHeaders c1 = .ok ((requestHeaders, err), c2))
    (hhost : requestHeaders.get (str "Host") = none) :
    processClient ReadFile range connection root_direcotry = .ok c2.Close
      ∧ c2.Close.output = connection.output ∧ c2.Close.closed = true := by
  obtain ⟨f1, _, _⟩ := readAndDecodeHTTPFirstLine_frame connection c1 _ hfirst
  obtain ⟨m, e, c', h, g1, _, _⟩ := readAndDecodeHTTPHeaders_total c1
  rw [hheaders] at h
  simp only [Except.ok.injEq, Prod.mk.injEq] at h
  refine ⟨?_, ?_, rfl⟩
  · unfold processClient
    rw [hfirst]
    simp only [ne_eq, not_true_eq_false, if_false]
    rw [hheaders]
    simp only [hhost]
  · rw [h.2]
    simp only [Conn.Close]
    rw [g1, f1]

theorem processClient_no_host_witness :
    processClient exampleFS id (exampleConn "GET /index.html HTTP/1.1\r\nhost: x\r\n\r\n")
        (str "/srv/www") = .ok (exampleConn "").Close
      ∧ (exampleConn "").Close.output
          = (exampleConn "GET /index.html HTTP/1.1\r\nhost: x\r\n\r\n").output
      ∧ (exampleConn "").Close.closed = true :=
  processClient_no_host exampleFS id (exampleConn "GET /index.html HTTP/1.1\r\nhost: x\r\n\r\n")
    (exampleConn "host: x\r\n\r\n") (exampleConn "") (str "/srv/www") (str "/index.html")
    [(str "host", str "x")] none (by decide) (by decide) (by decide)

/-- C20: for a line with a colon the split has two parts, the trimmed first part
still ends with the colon, so it has length at least 1 and the slice
`key[:len(key)-1]` is in range: the line decodes without panic; and
`readAndDecodeHTTPHeaders` returns on every connection, never faulting on an
index or a slice. -/
theorem readAndDecodeHTTPHeaders_no_panic (line : GoString) (hcolon : (58 : Byte) ∈ line) :
    (∃ part0 part1 key,
        SplitAfterN line 58 2 = [part0, part1]
        ∧ TrimSpace part0 = key ++ [58]
        ∧ 1 ≤ (TrimSpace part0).length
        ∧ sliceTo (TrimSpace part0) (((TrimSpace part0).length : Int) - 1) = .ok key
        ∧ decodeHeaderLine line = .ok (.ok (key, TrimSpace part1)))
    ∧ ∀ connection : Conn, ∃ r, readAndDecodeHTTPHeaders connection = .ok r := by
  constructor
  · obtain ⟨a, r, e, ha⟩ := List.eq_append_cons_of_mem hcolon
    subst e
    obtain ⟨y, hy, _⟩ := TrimSpace_snoc_colon a
    refine ⟨a ++ [58], r, y, SplitAfterN_colon a r ha, hy, by rw [hy]; simp, ?_, ?_⟩
    · rw [hy]
      unfold sliceTo
      have e : (((y ++ [58]).length : Int) - 1) = (y.length : Int) := by
        simp only [List.length_append, List.length_singleton]; push_cast; ring
      rw [e]
      simp
    · rw [decodeHeaderLine_colon a r ha, hy]
      simp
  · intro connection
    obtain ⟨m, e, c', h, _⟩ := readAndDecodeHTTPHeaders_total connection
    exact ⟨_, h⟩

theorem readAndDecodeHTTPHeaders_no_panic_witness :
    (∃ part0 part1 key,
        SplitAfterN (str "  :v") 58 2 = [part0, part1]
        ∧ TrimSpace part0 = key ++ [58]
        ∧ 1 ≤ (TrimSpace part0).length
        ∧ sliceTo (TrimSpace part0) (((TrimSpace part0).length : Int) - 1) = .ok key
        ∧ decodeHeaderLine (str "  :v") = .ok (.ok (key, TrimSpace part1)))
    ∧ ∀ connection : Conn, ∃ r, readAndDecodeHTTPHeaders connection = .ok r :=
  readAndDecodeHTTPHeaders_no_panic (str "  :v") (by decide)


theorem foldl_append_lines (f : GoString × GoString → GoString) :
    ∀ (l : List (GoString × GoString)) (init : GoString),
      l.foldl (fun result kv => result ++ f kv) init = init ++ (l.map f).flatten := by
  intro l
  induction l with
  | nil => intro init; simp
  | cons x xs ih => intro init; simp [ih]

/-- `encodeHTTPHeaders` is the concatenation of one line `key: value` CRLF for every
entry visited. -/
theorem encodeHTTPHeaders_eq (range : RangeOrder) (headers : GoMap) :
    encodeHTTPHeaders range headers
      = ((range headers).map (fun kv => kv.1 ++ str ": " ++ kv.2 ++ CRLF)).flatten := by
  unfold encodeHTTPHeaders
  have h := foldl_append_lines (fun kv => kv.1 ++ str ": " ++ kv.2 ++ CRLF) (range headers) []
  simp only [List.nil_append] at h
  rw [← h]
  congr 1
  funext result kv
  simp only [List.append_assoc]
  rfl

/-- The two ways `processClient` returns: without writing, or after writing the
response to a decoded request. -/
theorem processClient_cases (ReadFile : FileSystem) (range : RangeOrder)
    (connection c' : Conn) (root_direcotry : GoString)
    (h : processClient ReadFile range connection root_direcotry = .ok c') :
    (c'.output = connection.output ∧ c'.closed = true)
    ∨ ∃ path c1 requestHeaders c2 host,
        readAndDecodeHTTPFirstLine connection = .ok ((path, none), c1)
        ∧ readAndDecodeHTTPHeaders c1 = .ok ((requestHeaders, none), c2)
        ∧ requestHeaders.get (str "Host") = some host
        ∧ c2.output = connection.output
        ∧ c' = (c2.Write (encodeResponse range (decideResponse path host
            (ReadFile (Join [root_direcotry, path])).1
            (ReadFile (Join [root_direcotry, path])).2))).Close := by
  unfold processClient at h
  cases h1 : readAndDecodeHTTPFirstLine connection with
  | error f => rw [h1] at h; simp at h
  | ok r1 =>
    obtain ⟨⟨path, err⟩, c1⟩ := r1
    obtain ⟨f1, _, _⟩ := readAndDecodeHTTPFirstLine_frame connection c1 _ h1
    rw [h1] at h
    simp only at h
    cases err with
    | some e =>
      simp only [ne_eq, reduceCtorEq, not_false_eq_true, if_true, Except.ok.injEq] at h
      left
      rw [← h]
      exact ⟨f1, rfl⟩
    | none =>
      simp only [ne_eq, not_true_eq_false, if_false] at h
      obtain ⟨m, e, c2, h2, g1, _, _⟩ := readAndDecodeHTTPHeaders_total c1
      rw [h2] at h
      simp only at h
      cases hh : m.get (str "Host") with
      | none =>
        rw [hh] at h
        simp only [Except.ok.injEq] at h
        left
        rw [← h]
        exact ⟨by simp only [Conn.Close]; rw [g1, f1], rfl⟩
      | some host =>
        rw [hh] at h
        simp only at h
        cases e with
        | some e' =>
          simp only [ne_eq, reduceCtorEq, not_false_eq_true, if_true, Except.ok.injEq] at h
          left
          rw [← h]
          exact ⟨by simp only [Conn.Close]; rw [g1, f1], rfl⟩
        | none =>
          simp only [ne_eq, not_true_eq_false, if_false, Except.ok.injEq] at h
          right
          exact ⟨path, c1, m, c2, host, rfl, h2, hh, by rw [g1, f1], h.symm⟩

/-- C15: the bytes `processClient` writes, when it writes, are in order the status
line `HTTP/1.1 <code> <message>` CRLF, one line `key: value` CRLF for every entry of
the response header map, each once, in the order of the iteration, then CRLF, then
the body unchanged; here the response is the one chosen for the decoded request. -/
theorem processClient_response_format (ReadFile : FileSystem) (range : RangeOrder)
    (connection c' : Conn) (root_direcotry : GoString) (hrange : range.Valid)
    (h : processClient ReadFile range connection root_direcotry = .ok c') :
    c'.output = connection.output
    ∨ ∃ (path host : GoString) (c1 : Conn) (r : Response) (order : List (GoString × GoString)),
        readAndDecodeHTTPFirstLine connection = .ok ((path, none), c1)
        ∧ r = decideResponse path host (ReadFile (Join [root_direcotry, path])).1
              (ReadFile (Join [root_direcotry, path])).2
        ∧ order.Perm r.responseHeaders
        ∧ c'.output = connection.output
            ++ (str "HTTP/1.1 " ++ Itoa r.statusCode ++ str " " ++ r.statusMessage ++ CRLF
              ++ (order.map (fun kv => kv.1 ++ str ": " ++ kv.2 ++ CRLF)).flatten
              ++ CRLF ++ r.body) := by
  rcases processClient_cases ReadFile range connection c' root_direcotry h with
    ⟨h1, _⟩ | ⟨path, c1, m, c2, host, h1, h2, h3, h4, h5⟩
  · exact Or.inl h1
  · right
    refine ⟨path, host, c1, _, range (decideResponse path host
        (ReadFile (Join [root_direcotry, path])).1
        (ReadFile (Join [root_direcotry, path])).2).responseHeaders, h1, rfl, hrange _, ?_⟩
    rw [h5]
    simp only [Conn.Close, Conn.Write, h4, encodeResponse, encodeHTTPHeaders_eq]
    rfl

theorem processClient_response_format_witness :
    (((exampleConn "").Write
        (str "HTTP/1.1 301 Moved Permanently\r\nLocation: index.html\r\nHost: x\r\n\r\n")).Close).output
      = (exampleConn "GET / HTTP/1.1\r\nHost: x\r\n\r\n").output
    ∨ ∃ (path host : GoString) (c1 : Conn) (r : Response) (order : List (GoString × GoString)),
        readAndDecodeHTTPFirstLine (exampleConn "GET / HTTP/1.1\r\nHost: x\r\n\r\n")
          = .ok ((path, none), c1)
        ∧ r = decideResponse path host (exampleFS (Join [str "/srv/www", path])).1
              (exampleFS (Join [str "/srv/www", path])).2
        ∧ order.Perm r.responseHeaders
        ∧ (((exampleConn "").Write
            (str "HTTP/1.1 301 Moved Permanently\r\nLocation: index.html\r\nHost: x\r\n\r\n")).Close).output
          = (exampleConn "GET / HTTP/1.1\r\nHost: x\r\n\r\n").output
            ++ (str "HTTP/1.1 " ++ Itoa r.statusCode ++ str " " ++ r.statusMessage ++ CRLF
              ++ (order.map (fun kv => kv.1 ++ str ": " ++ kv.2 ++ CRLF)).flatten
              ++ CRLF ++ r.body) :=
  processClient_response_format exampleFS id (exampleConn "GET / HTTP/1.1\r\nHost: x\r\n\r\n")
    (((exampleConn "").Write
      (str "HTTP/1.1 301 Moved Permanently\r\nLocation: index.html\r\nHost: x\r\n\r\n")).Close)
    (str "/srv/www") (fun m => List.Perm.refl m) (by decide)

/-! ## Round trip of the header block -/

theorem TrimSpace_stop_id (c : Byte) (r : GoString) (h1 : c.val < 0x80)
    (h2 : asciiSpace c = false) : TrimSpace.stop (c :: r) = (c :: r).reverse := by
  rw [TrimSpace.stop]
  have : ¬ (c.val ≥ RuneSelf) := by unfold RuneSelf; omega
  simp [this, h2]

/-- `strings.TrimSpace` leaves a string alone whose first and last bytes are ASCII
and not white space. -/
theorem TrimSpace_id (c d : Byte) (t : GoString) (hc1 : c.val < 0x80)
    (hc2 : asciiSpace c = false) (hd1 : d.val < 0x80) (hd2 : asciiSpace d = false)
    (hlast : (c :: t).getLast? = some d) : TrimSpace (c :: t) = c :: t := by
  unfold TrimSpace
  rw [TrimSpace.start]
  have : ¬ (c.val ≥ RuneSelf) := by unfold RuneSelf; omega
  simp only [this, hc2, if_false, Bool.false_eq_true]
  obtain ⟨r, hr⟩ : ∃ r, (c :: t).reverse = d :: r := by
    have : (c :: t).getLast? = (c :: t).reverse.head? := List.getLast?_eq_head?_reverse
    rw [hlast] at this
    cases hrev : (c :: t).reverse with
    | nil => rw [hrev] at this; simp at this
    | cons x r =>
      rw [hrev] at this
      simp only [List.head?_cons, Option.some.injEq] at this
      exact ⟨r, by rw [this]⟩
  rw [hr, TrimSpace_stop_id d r hd1 hd2, ← hr, List.reverse_reverse]

theorem printable_mem (s : GoString) (h : printable s = true) (b : Byte) (hb : b ∈ s) :
    0x20 ≤ b.val ∧ b.val ≤ 0x7E := by
  unfold printable at h
  rw [List.all_eq_true] at h
  simpa using h b hb

theorem TrimSpace_of_trimmed (s : GoString) (hp : printable s = true) (ht : trimmed s = true) :
    TrimSpace s = s := by
  cases s with
  | nil => rfl
  | cons c t =>
    unfold trimmed at ht
    simp only [List.head?_cons, Bool.and_eq_true, Bool.not_eq_true'] at ht
    obtain ⟨hc, hl⟩ := ht
    cases hlast : (c :: t).getLast? with
    | none => simp at hlast
    | some d =>
      rw [hlast] at hl
      simp only [Bool.not_eq_true'] at hl
      have hcm := printable_mem _ hp c (List.mem_cons_self _ _)
      have hdm := printable_mem _ hp d (List.mem_of_getLast?_eq_some hlast)
      exact TrimSpace_id c d t (by omega) hc (by omega) hl hlast


theorem not_CRLF_of_not_mem (s : GoString) (h : (13 : Byte) ∉ s) : ¬ CRLF <:+: s := by
  intro hi
  exact h (hi.subset (by simp [CRLF]))

theorem printable_not_mem (s : GoString) (h : printable s = true) (b : Byte)
    (hb : b.val < 0x20) : b ∉ s := by
  intro hm
  have := printable_mem s h b hm
  omega

theorem headerLine_colon (kv : GoString × GoString) : (58 : Byte) ∈ headerLine kv := by
  unfold headerLine
  simp [str]
  right; left; rfl

theorem headerLine_no_CRLF (kv : GoString × GoString) (hk : printable kv.1 = true)
    (hv : printable kv.2 = true) : ¬ CRLF <:+: headerLine kv := by
  apply not_CRLF_of_not_mem
  unfold headerLine
  intro hm
  rcases List.mem_append.mp hm with h1 | h1
  · rcases List.mem_append.mp h1 with h2 | h2
    · exact printable_not_mem _ hk 13 (by decide) h2
    · revert h2; decide
  · exact printable_not_mem _ hv 13 (by decide) h1

/-- A line `key: value` of printable bytes is read back byte for byte. -/
theorem accumulated_headerLine (kv : GoString × GoString) (hk : printable kv.1 = true)
    (hv : printable kv.2 = true) : accumulated (headerLine kv) = headerLine kv := by
  apply accumulated_ascii
  intro b hb
  unfold headerLine at hb
  unfold printable at hk hv
  rw [List.all_eq_true] at hk hv
  rcases List.mem_append.mp hb with h1 | h1
  · rcases List.mem_append.mp h1 with h2 | h2
    · have := hk b h2
      simp only [decide_eq_true_eq] at this
      omega
    · have h3 : str ": " = [58, 32] := rfl
      rw [h3] at h2
      simp only [List.mem_cons, List.mem_singleton, List.mem_nil_iff, or_false] at h2
      rcases h2 with h2 | h2 <;> rw [h2] <;> decide
  · have := hv b h1
    simp only [decide_eq_true_eq] at this
    omega

/-- A line `key: value` written by the encoder decodes to `(key, value)` when the key
holds no colon and key and value are printable and trimmed. -/
theorem decodedPair_headerLine (kv : GoString × GoString) (hcolon : (58 : Byte) ∉ kv.1)
    (hk : printable kv.1 = true) (hkt : trimmed kv.1 = true)
    (hv : printable kv.2 = true) (hvt : trimmed kv.2 = true) :
    decodedPair (headerLine kv) = kv := by
  obtain ⟨k, v⟩ := kv
  simp only at hcolon hk hkt hv hvt
  have e : headerLine (k, v) = k ++ 58 :: (32 :: v) := by
    unfold headerLine
    simp only [List.append_assoc]
    rfl
  unfold decodedPair
  rw [e, decodeHeaderLine_colon k (32 :: v) hcolon]
  have h1 : TrimSpace (k ++ [58]) = k ++ [58] := by
    cases k with
    | nil => decide
    | cons c t =>
      have hp := printable_mem _ hk c (List.mem_cons_self _ _)
      unfold trimmed at hkt
      simp only [List.head?_cons, Bool.and_eq_true, Bool.not_eq_true'] at hkt
      have h58a : (58 : Byte).val < 0x80 := by decide
      have h58b : asciiSpace 58 = false := by decide
      have hlast : (c :: (t ++ [58])).getLast? = some 58 := by
        have : c :: (t ++ [58]) = (c :: t) ++ [58] := rfl
        rw [this, List.getLast?_append]
        rfl
      rw [List.cons_append]
      exact TrimSpace_id c 58 (t ++ [58]) (by omega) hkt.1 h58a h58b hlast
  have h2 : TrimSpace (32 :: v) = v := by
    have : TrimSpace (32 :: v) = TrimSpace v := by
      unfold TrimSpace
      rw [TrimSpace.start]
      have h32 : ¬ ((32 : Byte).val ≥ RuneSelf) := by decide
      have hs : asciiSpace 32 = true := by decide
      simp [h32, hs]
    rw [this, TrimSpace_of_trimmed v hv hvt]
  simp only [h1, h2, List.dropLast_concat]

/-! ## Maps as lists of entries with distinct keys -/

theorem GoMap_set_new (m : GoMap) (k v : GoString) (h : k ∉ m.map Prod.fst) :
    m.set k v = m ++ [(k, v)] := by
  induction m with
  | nil => rfl
  | cons e m ih =>
    obtain ⟨a, b⟩ := e
    simp only [List.map_cons, List.mem_cons, not_or] at h
    simp only [GoMap.set, if_neg (Ne.symm h.1), ih h.2, List.cons_append]

theorem insertAll_distinct (pairs : List (GoString × GoString)) :
    ∀ m : GoMap, ((m ++ pairs).map Prod.fst).Nodup → insertAll m pairs = m ++ pairs := by
  induction pairs with
  | nil => intro m _; simp [insertAll]
  | cons p ps ih =>
    intro m h
    have e : insertAll m (p :: ps) = insertAll (m.set p.1 p.2) ps := rfl
    have hp : p.1 ∉ m.map Prod.fst := by
      simp only [List.map_append, List.map_cons] at h
      have := (List.nodup_append.mp h).2.2
      intro hm
      exact this hm (List.mem_cons_self _ _)
    rw [e, GoMap_set_new m p.1 p.2 hp, ih]
    · simp
    · simpa using h

theorem GoMap_get_eq_some_iff (m : GoMap) (h : (m.map Prod.fst).Nodup) (k v : GoString) :
    m.get k = some v ↔ (k, v) ∈ m := by
  induction m with
  | nil => simp [GoMap.get]
  | cons e m ih =>
    obtain ⟨a, b⟩ := e
    simp only [List.map_cons, List.nodup_cons] at h
    by_cases ha : a = k
    · subst ha
      simp only [GoMap.get, if_true, Option.some.injEq, List.mem_cons, Prod.mk.injEq, true_and]
      constructor
      · intro hb; exact Or.inl hb.symm
      · intro hb
        rcases hb with hb | hb
        · exact hb.symm
        · exact absurd (List.mem_map_of_mem Prod.fst hb) h.1
    · simp only [GoMap.get, if_neg ha, ih h.2, List.mem_cons, Prod.mk.injEq]
      constructor
      · intro hb; exact Or.inr hb
      · intro hb
        rcases hb with hb | hb
        · exact absurd hb.1.symm ha
        · exact hb

theorem GoMap_get_perm (m m' : GoMap) (hp : m'.Perm m) (h : (m.map Prod.fst).Nodup)
    (k : GoString) : m'.get k = m.get k := by
  have h' : (m'.map Prod.fst).Nodup := (hp.map Prod.fst).nodup_iff.mpr h
  apply Option.ext
  intro v
  simp only [Option.mem_def]
  rw [GoMap_get_eq_some_iff m' h', GoMap_get_eq_some_iff m h]
  exact hp.mem_iff

theorem encodeHTTPHeaders_headerLines (range : RangeOrder) (headers : GoMap) :
    encodeHTTPHeaders range headers = headerLines ((range headers).map headerLine) := by
  rw [encodeHTTPHeaders_eq]
  unfold headerLines
  rw [List.map_map]
  rfl

/-- C14: for a header map (entries with distinct keys) whose keys and values are
printable ASCII (so without CR or LF), whose keys hold no colon and whose keys and
values have no leading or trailing white space, and for every iteration order of
the encoder, `readAndDecodeHTTPHeaders` on the bytes `encodeHTTPHeaders(h)` followed
by CRLF returns with no error a map with exactly the entries of `h`: the same
entries, and the same value for every key. -/
theorem readAndDecodeHTTPHeaders_encodeHTTPHeaders (range : RangeOrder) (connection : Conn)
    (h : GoMap) (rest : GoString)
    (hrange : (range h).Perm h)
    (hkeys : (h.map Prod.fst).Nodup)
    (hprint : ∀ kv ∈ h, printable kv.1 = true ∧ printable kv.2 = true)
    (hcolon : ∀ kv ∈ h, (58 : Byte) ∉ kv.1)
    (htrim : ∀ kv ∈ h, trimmed kv.1 = true ∧ trimmed kv.2 = true)
    (hin : connection.input = encodeHTTPHeaders range h ++ CRLF ++ rest) :
    readAndDecodeHTTPHeaders connection
        = .ok ((range h, none), { connection with input := rest })
      ∧ (range h).Perm h
      ∧ ∀ key : GoString, GoMap.get (range h) key = h.get key := by
  refine ⟨?_, hrange, GoMap_get_perm h (range h) hrange hkeys⟩
  have hmem : ∀ kv ∈ range h, kv ∈ h := fun kv hkv => hrange.mem_iff.mp hkv
  have hlines : ∀ l ∈ (range h).map headerLine, (58 : Byte) ∈ l := by
    intro l hl
    obtain ⟨kv, _, e⟩ := List.mem_map.mp hl
    rw [← e]
    exact headerLine_colon kv
  have hfree : ∀ l ∈ (range h).map headerLine, ¬ CRLF <:+: l := by
    intro l hl
    obtain ⟨kv, hkv, e⟩ := List.mem_map.mp hl
    rw [← e]
    exact headerLine_no_CRLF kv (hprint kv (hmem kv hkv)).1 (hprint kv (hmem kv hkv)).2
  rw [encodeHTTPHeaders_headerLines] at hin
  have hfuel : ((range h).map headerLine).length < connection.input.length + 1 := by
    have := headerLines_length ((range h).map headerLine)
    rw [hin]
    simp only [List.length_append]
    omega
  unfold readAndDecodeHTTPHeaders
  rw [readAndDecodeHTTPHeaders_loop_lines rest _ _ _ connection hfuel hlines hfree hin]
  have hpairs : ((range h).map headerLine).map (fun l => decodedPair (accumulated l))
      = range h := by
    rw [List.map_map]
    conv_rhs => rw [← List.map_id (range h)]
    apply List.map_congr_left
    intro kv hkv
    have hm := hmem kv hkv
    simp only [Function.comp_apply, id_eq]
    rw [accumulated_headerLine kv (hprint kv hm).1 (hprint kv hm).2]
    exact decodedPair_headerLine kv (hcolon kv hm) (hprint kv hm).1 (htrim kv hm).1
      (hprint kv hm).2 (htrim kv hm).2
  rw [hpairs, insertAll_distinct (range h) GoMap.make]
  · rfl
  · simp only [GoMap.make, List.nil_append]
    exact (hrange.map Prod.fst).nodup_iff.mpr hkeys

theorem readAndDecodeHTTPHeaders_encodeHTTPHeaders_witness :
    readAndDecodeHTTPHeaders
        (exampleConn "Host: example.org\r\nContent-Length: 2\r\n\r\nhi")
        = .ok ((List.reverse [(str "Content-Length", str "2"), (str "Host", str "example.org")],
            none),
          { exampleConn "Host: example.org\r\nContent-Length: 2\r\n\r\nhi" with
            input := str "hi" })
      ∧ (List.reverse [(str "Content-Length", str "2"), (str "Host", str "example.org")]).Perm
          [(str "Content-Length", str "2"), (str "Host", str "example.org")]
      ∧ ∀ key : GoString,
          GoMap.get
              (List.reverse [(str "Content-Length", str "2"), (str "Host", str "example.org")]) key
            = GoMap.get [(str "Content-Length", str "2"), (str "Host", str "example.org")] key :=
  readAndDecodeHTTPHeaders_encodeHTTPHeaders List.reverse
    (exampleConn "Host: example.org\r\nContent-Length: 2\r\n\r\nhi")
    [(str "Content-Length", str "2"), (str "Host", str "example.org")] (str "hi")
    (List.reverse_perm _) (by decide) (by decide) (by decide) (by decide) (by decide)



/-! ## Where a CRLF can be -/

theorem headerLine_CRLF_free (kv : GoString × GoString) (hk : ¬ CRLF <:+: kv.1)
    (hv : ¬ CRLF <:+: kv.2) : ¬ CRLF <:+: headerLine kv := by
  unfold headerLine
  intro h
  rcases CRLF_infix_append _ _ h with h1 | h1 | ⟨h1, _⟩
  · rcases CRLF_infix_append _ _ h1 with h2 | h2 | ⟨_, h2⟩
    · exact hk h2
    · revert h2; decide
    · revert h2; decide
  · exact hv h1
  · rw [List.getLast?_append] at h1
    have h32 : (str ": ").getLast? = some 32 := by decide
    rw [h32] at h1
    simp only [Option.or_some, Option.some.injEq] at h1
    exact absurd h1 (by decide)

/-! ## Trimming gives a part of the string -/

theorem TrimLeftFunc_suffix (s : GoString) (f : Nat → Bool) : TrimLeftFunc s f <:+ s := by
  unfold TrimLeftFunc
  split
  · exact List.nil_suffix
  · exact List.drop_suffix _ _

theorem TrimRightFunc_pre (s : GoString) (f : Nat → Bool) : TrimRightFunc s f <+: s := by
  unfold TrimRightFunc
  split
  · split
    · exact List.take_prefix _ _
    · exact List.take_prefix _ _
  · exact List.take_prefix _ _

theorem TrimSpace_stop_part : ∀ r : GoString, TrimSpace.stop r <+: r.reverse := by
  intro r
  induction r with
  | nil => simp [TrimSpace.stop]
  | cons c r ih =>
    rw [TrimSpace.stop]
    split
    · exact TrimRightFunc_pre _ _
    · split
      · rw [List.reverse_cons]
        exact ih.trans (List.prefix_append _ _)
      · exact List.prefix_refl _

theorem TrimSpace_part (s : GoString) : TrimSpace s <:+: s := by
  unfold TrimSpace
  induction s with
  | nil => simp [TrimSpace.start, TrimSpace.stop]
  | cons c t ih =>
    rw [TrimSpace.start]
    split
    · unfold TrimFunc
      exact (TrimRightFunc_pre _ _).isInfix.trans (TrimLeftFunc_suffix _ _).isInfix
    · split
      · exact ih.trans (List.suffix_cons c t).isInfix
      · have := TrimSpace_stop_part (c :: t).reverse
        rw [List.reverse_reverse] at this
        exact this.isInfix

/-! ## The values of decoded headers hold no CRLF -/

theorem decodedPair_value_part (line : GoString) (h : (58 : Byte) ∈ line) :
    (decodedPair line).2 <:+: line := by
  obtain ⟨a, r, e, ha⟩ := List.eq_append_cons_of_mem h
  subst e
  unfold decodedPair
  rw [decodeHeaderLine_colon a r ha]
  simp only
  exact (TrimSpace_part r).trans
    ((List.suffix_cons 58 r).trans (List.suffix_append a (58 :: r))).isInfix

theorem GoMap_mem_set (m : GoMap) (k v : GoString) (e : GoString × GoString)
    (h : e ∈ m.set k v) : e ∈ m ∨ e = (k, v) := by
  induction m with
  | nil =>
    simp only [GoMap.set, List.mem_singleton] at h
    exact Or.inr h
  | cons x m ih =>
    obtain ⟨a, b⟩ := x
    by_cases hk : a = k
    · simp only [GoMap.set, if_pos hk, List.mem_cons] at h
      rcases h with h | h
      · exact Or.inr h
      · exact Or.inl (List.mem_cons_of_mem _ h)
    · simp only [GoMap.set, if_neg hk, List.mem_cons] at h
      rcases h with h | h
      · exact Or.inl (by rw [h]; exact List.mem_cons_self _ _)
      · rcases ih h with h2 | h2
        · exact Or.inl (List.mem_cons_of_mem _ h2)
        · exact Or.inr h2

theorem GoMap_get_mem (m : GoMap) (k v : GoString) (h : m.get k = some v) : (k, v) ∈ m := by
  induction m with
  | nil => simp [GoMap.get] at h
  | cons x m ih =>
    obtain ⟨a, b⟩ := x
    by_cases hk : a = k
    · simp only [GoMap.get, if_pos hk, Option.some.injEq] at h
      rw [hk, h]
      exact List.mem_cons_self _ _
    · simp only [GoMap.get, if_neg hk] at h
      exact List.mem_cons_of_mem _ (ih h)

/-- Every value in the map returned by `readAndDecodeHTTPHeaders` is a trimmed part
of a line that was read, so it holds no CRLF. -/
theorem readAndDecodeHTTPHeaders_values (c c' : Conn) (m : GoMap) (e : error)
    (h : readAndDecodeHTTPHeaders c = .ok ((m, e), c')) :
    ∀ kv ∈ m, ¬ CRLF <:+: kv.2 := by
  obtain ⟨m', e', c'', h1, h2, _⟩ :=
    readAndDecodeHTTPHeaders_loop_invariant (fun m => ∀ kv ∈ m, ¬ CRLF <:+: kv.2)
      (fun m line hm hfree hcolon kv hkv => by
        rcases GoMap_mem_set m _ _ kv hkv with h | h
        · exact hm kv h
        · rw [h]
          exact fun hi => hfree (hi.trans (decodedPair_value_part line hcolon)))
      (c.input.length + 1) GoMap.make c (Nat.lt_succ_self _)
      (fun kv hkv => by simp [GoMap.make] at hkv)
  unfold readAndDecodeHTTPHeaders at h
  rw [h1] at h
  simp only [Except.ok.injEq, Prod.mk.injEq] at h
  rw [← h.1.1]
  exact h2


/-! ## The first blank line of a block of lines -/

theorem CRLF_free_line_first (l a t t' : GoString) (hfree : ¬ CRLF <:+: l)
    (e : l ++ (CRLF ++ t) = a ++ (CRLF ++ t')) :
    ∃ a', a = l ++ a' ∧ CRLF ++ t = a' ++ (CRLF ++ t') := by
  rcases List.append_eq_append_iff.mp e with ⟨a', ha, hrest⟩ | ⟨c', hl, hrest⟩
  · exact ⟨a', ha, hrest⟩
  · rcases c' with _ | ⟨x, _ | ⟨y, c''⟩⟩
    · exact ⟨[], by simpa using hl.symm, by simpa using hrest.symm⟩
    · exfalso
      simp only [CRLF, List.cons_append, List.nil_append, List.cons.injEq] at hrest
      exact absurd hrest.2.1 (by decide)
    · exfalso
      simp only [CRLF, List.cons_append, List.nil_append, List.cons.injEq] at hrest
      apply hfree
      rw [hl, ← hrest.1, ← hrest.2.1]
      exact ⟨a, c'', by simp [CRLF]⟩

theorem CRLF_free_line_start (l t t' : GoString) (hne : l ≠ []) (hfree : ¬ CRLF <:+: l) :
    l ++ (CRLF ++ t) ≠ CRLF ++ t' := by
  intro e
  obtain ⟨a', ha, _⟩ := CRLF_free_line_first l [] t t' hfree (by simpa using e)
  have := congrArg List.length ha
  simp only [List.length_nil, List.length_append] at this
  exact hne (List.length_eq_zero.mp (by omega))

/-- In a block of non-empty lines without CRLF, each followed by CRLF, and then
CRLF and a body, no CRLF CRLF starts before the CRLF that ends the last line. -/
theorem headerLines_first_blank (body : GoString) :
    ∀ lines : List GoString, (∀ l ∈ lines, l ≠ []) → (∀ l ∈ lines, ¬ CRLF <:+: l) →
      ∀ a b : GoString, headerLines lines ++ (CRLF ++ body) = a ++ (CRLF ++ (CRLF ++ b)) →
        (headerLines lines).length ≤ a.length + 2 := by
  intro lines
  induction lines with
  | nil => intro _ _ a b _; simp [headerLines]
  | cons l ls ih =>
    intro hne hfree a b e
    have hl : headerLines (l :: ls) = l ++ (CRLF ++ headerLines ls) := by
      simp [headerLines]
    rw [hl] at e ⊢
    have e' : l ++ (CRLF ++ (headerLines ls ++ (CRLF ++ body))) = a ++ (CRLF ++ (CRLF ++ b)) := by
      simpa using e
    obtain ⟨a', ha, hrest⟩ :=
      CRLF_free_line_first l a _ _ (hfree l (List.mem_cons_self _ _)) e'
    subst ha
    rcases a' with _ | ⟨x, _ | ⟨y, a''⟩⟩
    · -- the blank line follows `l` at once: `l` is the last line
      cases ls with
      | nil => simp [headerLines, CRLF]
      | cons l2 ls2 =>
        exfalso
        have h2 : headerLines (l2 :: ls2) = l2 ++ (CRLF ++ headerLines ls2) := by
          simp [headerLines]
        rw [h2] at hrest
        simp only [CRLF, List.nil_append, List.cons_append, List.cons.injEq, true_and,
          List.append_assoc] at hrest
        exact CRLF_free_line_start l2 _ b (hne l2 (by simp)) (hfree l2 (by simp))
          (by simpa [CRLF] using hrest)
    · exfalso
      simp only [CRLF, List.cons_append, List.nil_append, List.cons.injEq] at hrest
      exact absurd hrest.2.1 (by decide)
    · simp only [CRLF, List.cons_append, List.nil_append, List.cons.injEq] at hrest
      have := ih (fun x hx => hne x (List.mem_cons_of_mem _ hx))
        (fun x hx => hfree x (List.mem_cons_of_mem _ hx)) a'' b
        (by simpa [CRLF] using hrest.2.2)
      simp only [List.length_append, List.length_cons, CRLF, List.length_nil] at this ⊢
      omega


/-! ## Response framing -/

theorem toDigitsCore_digits :
    ∀ (f n : Nat) (ds : List Char) (c : Char), c ∈ Nat.toDigitsCore 10 f n ds →
      c ∈ ds ∨ ∃ m, m < 10 ∧ c = Nat.digitChar m := by
  intro f
  induction f with
  | zero => intro n ds c h; simp [Nat.toDigitsCore] at h; exact Or.inl h
  | succ k ih =>
    intro n ds c h
    rw [Nat.toDigitsCore] at h
    have hm : n % 10 < 10 := Nat.mod_lt _ (by decide)
    split at h
    · rcases List.mem_cons.mp h with h1 | h1
      · exact Or.inr ⟨n % 10, hm, h1⟩
      · exact Or.inl h1
    · rcases ih _ _ c h with h1 | h1
      · rcases List.mem_cons.mp h1 with h2 | h2
        · exact Or.inr ⟨n % 10, hm, h2⟩
        · exact Or.inl h2
      · exact Or.inr h1

theorem Itoa_no_CR (n : Nat) : (13 : Byte) ∉ Itoa (n : Int) := by
  unfold Itoa
  have h : ¬ ((n : Int) < 0) := by omega
  rw [if_neg h]
  intro hm
  obtain ⟨c, hc, e⟩ := List.mem_map.mp hm
  simp only [Int.toNat_ofNat, Nat.toDigits] at hc
  rcases toDigitsCore_digits _ _ _ c hc with h1 | ⟨m, hm10, h1⟩
  · simp at h1
  · rw [h1] at e
    revert e
    interval_cases m <;> decide

theorem encodeResponse_lines (range : RangeOrder) (r : Response) :
    encodeResponse range r
      = headerLines (statusLine r :: (range r.responseHeaders).map headerLine)
          ++ (CRLF ++ r.body) := by
  unfold encodeResponse
  rw [encodeHTTPHeaders_headerLines]
  have : headerLines (statusLine r :: (range r.responseHeaders).map headerLine)
      = statusLine r ++ CRLF ++ headerLines ((range r.responseHeaders).map headerLine) := by
    simp [headerLines]
  rw [this]
  unfold statusLine
  simp only [List.append_assoc]
  rfl

/-- The three responses of lines 78-94. -/
theorem decideResponse_cases (path host content : GoString) (err : error) :
    decideResponse path host content err
        = { statusCode := 301, statusMessage := str "Moved Permanently",
            responseHeaders := [(str "Location", str "index.html"), (str "Host", host)],
            body := [] }
    ∨ decideResponse path host content err
        = { statusCode := 404, statusMessage := str "Not Found",
            responseHeaders := [(str "Host", host)], body := NOT_FOUND_BODY }
    ∨ decideResponse path host content err
        = { statusCode := 200, statusMessage := str "OK",
            responseHeaders := [(str "Content-Length", Itoa content.length), (str "Host", host)],
            body := content } := by
  unfold decideResponse
  have hk1 : ¬ (str "Location" = str "Host") := by decide
  have hk2 : ¬ (str "Content-Length" = str "Host") := by decide
  by_cases hp : path = str "/"
  · left
    simp [hp, GoMap.make, GoMap.set, hk1]
  · by_cases he : err = none
    · right; right
      simp [hp, he, GoMap.make, GoMap.set, hk2]
    · right; left
      simp [hp, he, GoMap.make, GoMap.set]

theorem statusLine_mk (code : Int) (msg : GoString) (hdrs : GoMap) (body : GoString) :
    statusLine { statusCode := code, statusMessage := msg, responseHeaders := hdrs, body := body }
      = str "HTTP/1.1 " ++ Itoa code ++ str " " ++ msg := rfl

theorem decideResponse_lines (path host content : GoString) (err : error)
    (hhost : ¬ CRLF <:+: host) :
    statusLine (decideResponse path host content err) ≠ []
    ∧ ¬ CRLF <:+: statusLine (decideResponse path host content err)
    ∧ ∀ kv ∈ (decideResponse path host content err).responseHeaders,
        ¬ CRLF <:+: kv.1 ∧ ¬ CRLF <:+: kv.2 := by
  have hH : ¬ CRLF <:+: str "Host" := by decide
  rcases decideResponse_cases path host content err with h | h | h <;> rw [h]
  · rw [statusLine_mk]
    refine ⟨by decide, by decide, ?_⟩
    intro kv hkv
    simp only [List.mem_cons, List.mem_singleton, List.not_mem_nil, or_false] at hkv
    rcases hkv with e | e <;> rw [e]
    · exact ⟨by decide, by decide⟩
    · exact ⟨hH, hhost⟩
  · rw [statusLine_mk]
    refine ⟨by decide, by decide, ?_⟩
    intro kv hkv
    simp only [List.mem_cons, List.mem_singleton, List.not_mem_nil, or_false] at hkv
    rw [hkv]
    exact ⟨hH, hhost⟩
  · rw [statusLine_mk]
    refine ⟨by decide, by decide, ?_⟩
    intro kv hkv
    simp only [List.mem_cons, List.mem_singleton, List.not_mem_nil, or_false] at hkv
    have hCL : ¬ CRLF <:+: str "Content-Length" := by decide
    rcases hkv with e | e <;> rw [e]
    · exact ⟨hCL, not_CRLF_of_not_mem _ (Itoa_no_CR _)⟩
    · exact ⟨hH, hhost⟩

theorem headerLines_concat (init : List GoString) (last : GoString) :
    headerLines (init ++ [last]) = headerLines init ++ last ++ CRLF := by
  simp [headerLines]

/-- The response to a request whose `Host` value holds no CRLF has its first
CRLF CRLF right before the body. -/
theorem encodeResponse_framing (range : RangeOrder) (hrange : range.Valid)
    (path host content : GoString) (err : error) (hhost : ¬ CRLF <:+: host) :
    (∃ head, encodeResponse range (decideResponse path host content err)
        = head ++ CRLF ++ CRLF ++ (decideResponse path host content err).body)
    ∧ ∀ a b : GoString,
        encodeResponse range (decideResponse path host content err) = a ++ CRLF ++ CRLF ++ b →
        (∀ a' b' : GoString,
          encodeResponse range (decideResponse path host content err)
            = a' ++ CRLF ++ CRLF ++ b' → a.length ≤ a'.length) →
        b = (decideResponse path host content err).body := by
  obtain ⟨hs1, hs2, hh⟩ := decideResponse_lines path host content err hhost
  generalize decideResponse path host content err = r at hs1 hs2 hh ⊢
  have hmem : ∀ kv ∈ range r.responseHeaders, kv ∈ r.responseHeaders :=
    fun kv hkv => (hrange r.responseHeaders).mem_iff.mp hkv
  have hne : ∀ l ∈ statusLine r :: (range r.responseHeaders).map headerLine, l ≠ [] := by
    intro l hl
    rcases List.mem_cons.mp hl with h1 | h1
    · rw [h1]; exact hs1
    · obtain ⟨kv, _, e⟩ := List.mem_map.mp h1
      intro hnil
      have := headerLine_colon kv
      rw [e, hnil] at this
      simp at this
  have hfree : ∀ l ∈ statusLine r :: (range r.responseHeaders).map headerLine,
      ¬ CRLF <:+: l := by
    intro l hl
    rcases List.mem_cons.mp hl with h1 | h1
    · rw [h1]; exact hs2
    · obtain ⟨kv, hkv, e⟩ := List.mem_map.mp h1
      rw [← e]
      exact headerLine_CRLF_free kv (hh kv (hmem kv hkv)).1 (hh kv (hmem kv hkv)).2
  obtain ⟨init, last, hlast⟩ : ∃ init last,
      statusLine r :: (range r.responseHeaders).map headerLine = init ++ [last] := by
    rcases List.eq_nil_or_concat (statusLine r :: (range r.responseHeaders).map headerLine) with
      h | ⟨init, last, h⟩
    · simp at h
    · exact ⟨init, last, by rw [h, List.concat_eq_append]⟩
  have hresp : encodeResponse range r = (headerLines init ++ last) ++ CRLF ++ CRLF ++ r.body := by
    rw [encodeResponse_lines, hlast, headerLines_concat]
    simp
  refine ⟨⟨headerLines init ++ last, hresp⟩, ?_⟩
  intro a b e hmin
  have h1 : a.length ≤ (headerLines init ++ last).length := hmin _ _ hresp
  have h2 : (headerLines init ++ last).length ≤ a.length := by
    have := headerLines_first_blank r.body _ hne hfree a b
      (by rw [← encodeResponse_lines, e]; simp)
    rw [hlast, headerLines_concat] at this
    simp only [List.length_append, CRLF, List.length_cons, List.length_nil] at this ⊢
    omega
  rw [hresp] at e
  have e' : (headerLines init ++ last) ++ (CRLF ++ CRLF ++ r.body) = a ++ (CRLF ++ CRLF ++ b) := by
    simpa using e
  have := (List.append_inj e' (by omega)).2
  exact (List.append_cancel_left this).symm


/-- C19: in the response `processClient` writes for a decoded request, the echoed
`Host` value holds no CRLF, and the first CRLF CRLF of the response bytes is the
end of the header block: the bytes after it are exactly the body, which is nothing
for 301, the fixed not-found text for 404 and the file contents for 200, whatever
bytes the `Host` value and the file contents hold. -/
theorem processClient_response_framing (ReadFile : FileSystem) (range : RangeOrder)
    (connection c1 c2 : Conn) (root_direcotry path host content : GoString) (err : error)
    (requestHeaders : GoMap) (hrange : range.Valid)
    (hfirst : readAndDecodeHTTPFirstLine connection = .ok ((path, none), c1))
    (hheaders : readAndDecodeHTTPHeaders c1 = .ok ((requestHeaders, none), c2))
    (hhost : requestHeaders.get (str "Host") = some host)
    (hread : ReadFile (Join [root_direcotry, path]) = (content, err)) :
    processClient ReadFile range connection root_direcotry
        = .ok ((c2.Write (encodeResponse range (decideResponse path host content err))).Close)
    ∧ ¬ CRLF <:+: host
    ∧ (∃ head, encodeResponse range (decideResponse path host content err)
        = head ++ CRLF ++ CRLF ++ (decideResponse path host content err).body)
    ∧ (∀ a b : GoString,
        encodeResponse range (decideResponse path host content err) = a ++ CRLF ++ CRLF ++ b →
        (∀ a' b' : GoString,
          encodeResponse range (decideResponse path host content err)
            = a' ++ CRLF ++ CRLF ++ b' → a.length ≤ a'.length) →
        b = (decideResponse path host content err).body)
    ∧ (decideResponse path host content err).body
        = (if path = str "/" then [] else if err ≠ none then NOT_FOUND_BODY else content) := by
  have hh : ¬ CRLF <:+: host :=
    readAndDecodeHTTPHeaders_values c1 c2 requestHeaders none hheaders (str "Host", host)
      (GoMap_get_mem _ _ _ hhost)
  obtain ⟨h1, h2⟩ := encodeResponse_framing range hrange path host content err hh
  refine ⟨?_, hh, h1, h2, ?_⟩
  · have := processClient_eq ReadFile range connection c1 c2 root_direcotry path host
      requestHeaders hfirst hheaders hhost
    rw [hread] at this
    exact this
  · unfold decideResponse
    by_cases hp : path = str "/"
    · simp [hp]
    · by_cases he : err = none
      · simp [hp, he]
      · simp [hp, he]

theorem processClient_response_framing_witness :
    processClient exampleFS List.reverse
        (exampleConn "GET /index.html HTTP/1.1\r\nHost: x\r\n\r\n") (str "/srv/www")
        = .ok (((exampleConn "").Write (encodeResponse List.reverse
            (decideResponse (str "/index.html") (str "x") (str "hi") none))).Close)
    ∧ ¬ CRLF <:+: str "x"
    ∧ (∃ head, encodeResponse List.reverse
          (decideResponse (str "/index.html") (str "x") (str "hi") none)
        = head ++ CRLF ++ CRLF
          ++ (decideResponse (str "/index.html") (str "x") (str "hi") none).body)
    ∧ (∀ a b : GoString,
        encodeResponse List.reverse (decideResponse (str "/index.html") (str "x") (str "hi") none)
          = a ++ CRLF ++ CRLF ++ b →
        (∀ a' b' : GoString,
          encodeResponse List.reverse
              (decideResponse (str "/index.html") (str "x") (str "hi") none)
            = a' ++ CRLF ++ CRLF ++ b' → a.length ≤ a'.length) →
        b = (decideResponse (str "/index.html") (str "x") (str "hi") none).body)
    ∧ (decideResponse (str "/index.html") (str "x") (str "hi") none).body
        = (if str "/index.html" = str "/" then []
            else if (none : error) ≠ none then NOT_FOUND_BODY else str "hi") :=
  processClient_response_framing exampleFS List.reverse
    (exampleConn "GET /index.html HTTP/1.1\r\nHost: x\r\n\r\n") (exampleConn "Host: x\r\n\r\n")
    (exampleConn "") (str "/srv/www") (str "/index.html") (str "x") (str "hi") none
    [(str "Host", str "x")] (fun m => List.reverse_perm m) (by decide) (by decide) (by decide)
    (by decide)

/-! ## `filepath.Clean` on rooted paths -/

theorem getD_of_drop (path : GoString) (r i : Nat) :
    path.getD (r + i) 0 = (path.drop r).getD i 0 := by
  simp [List.getD_eq_getElem?_getD, List.getElem?_drop]

theorem drop_cons_facts (path : GoString) (r : Nat) (c : Byte) (t : GoString)
    (h : path.drop r = c :: t) :
    r < path.length ∧ path.getD r 0 = c ∧ path.drop (r + 1) = t
      ∧ (r + 1 = path.length ↔ t = []) := by
  have hlen : (path.drop r).length = path.length - r := List.length_drop r path
  rw [h] at hlen
  simp only [List.length_cons] at hlen
  have h1 : r < path.length := by omega
  have h2 : path.getD r 0 = c := by
    have := getD_of_drop path r 0
    rw [h] at this
    simpa using this
  have h3 : path.drop (r + 1) = t := by
    have : path.drop (r + 1) = (path.drop r).drop 1 := by
      rw [List.drop_drop]
    rw [this, h]
    rfl
  refine ⟨h1, h2, h3, ?_⟩
  constructor
  · intro e
    apply List.eq_nil_of_length_eq_zero
    omega
  · intro e
    rw [e] at hlen
    simp only [List.length_nil] at hlen
    omega


theorem Clean_loop_end (path : GoString) (rooted : Bool) (fuel r : Nat) (out : GoString)
    (dotdot : Nat) (h : path.drop r = []) :
    Clean.loop path rooted fuel r out dotdot = out := by
  have hr : ¬ r < path.length := by
    have := List.drop_eq_nil_iff.mp h
    omega
  cases fuel with
  | zero => rfl
  | succ k =>
    rw [Clean.loop]
    dsimp only
    rw [if_neg hr]

theorem Clean_loop_sep (path : GoString) (rooted : Bool) (k r : Nat) (out : GoString)
    (dotdot : Nat) (t : GoString) (h : path.drop r = 47 :: t) :
    Clean.loop path rooted (k + 1) r out dotdot = Clean.loop path rooted k (r + 1) out dotdot := by
  obtain ⟨h1, h2, _, _⟩ := drop_cons_facts path r 47 t h
  rw [Clean.loop]
  dsimp only
  rw [if_pos h1, h2, if_pos (by decide)]

theorem Clean_loop_dot (path : GoString) (rooted : Bool) (k r : Nat) (out : GoString)
    (dotdot : Nat) (t : GoString) (h : path.drop r = 46 :: t)
    (ht : t = [] ∨ ∃ t', t = 47 :: t') :
    Clean.loop path rooted (k + 1) r out dotdot = Clean.loop path rooted k (r + 1) out dotdot := by
  obtain ⟨h1, h2, h3, h4⟩ := drop_cons_facts path r 46 t h
  rw [Clean.loop]
  dsimp only
  rw [if_pos h1, h2, if_neg (by decide)]
  have hc : (46 : Byte) = 46 ∧ (r + 1 = path.length
      ∨ isPathSeparator (path.getD (r + 1) 0) = true) := by
    refine ⟨rfl, ?_⟩
    rcases ht with e | ⟨t', e⟩
    · exact Or.inl (h4.mpr e)
    · right
      rw [e] at h3
      rw [(drop_cons_facts path (r + 1) 47 t' h3).2.1]
      decide
  rw [if_pos hc]

theorem takeWhile_segment (seg t : GoString) (hseg : (47 : Byte) ∉ seg)
    (ht : t = [] ∨ ∃ t', t = 47 :: t') :
    (seg ++ t).takeWhile (fun c => !isPathSeparator c) = seg := by
  induction seg with
  | nil =>
    rcases ht with e | ⟨t', e⟩
    · rw [e]; rfl
    · rw [e]; rfl
  | cons c s ih =>
    have hc : c ≠ 47 := fun e => hseg (by simp [e])
    have hs : (47 : Byte) ∉ s := fun e => hseg (List.mem_cons_of_mem _ e)
    have : (!isPathSeparator c) = true := by simp [isPathSeparator, hc]
    rw [List.cons_append, List.takeWhile_cons, this]
    simp only [if_true]
    rw [ih hs]

theorem Clean_loop_regular (path : GoString) (k r : Nat) (out : GoString) (dotdot : Nat)
    (seg t : GoString) (h : path.drop r = seg ++ t) (hseg : regularSeg seg = true)
    (ht : t = [] ∨ ∃ t', t = 47 :: t') :
    Clean.loop path true (k + 1) r out dotdot
      = Clean.loop path true k (r + seg.length) (pushSeg out seg) dotdot := by
  unfold regularSeg at hseg
  simp only [decide_eq_true_eq] at hseg
  obtain ⟨hne, hsep, hdot, hdotdot⟩ := hseg
  cases seg with
  | nil => exact absurd rfl hne
  | cons c s =>
    have hc : c ≠ 47 := fun e => hsep (by simp [e])
    have hs : (47 : Byte) ∉ s := fun e => hsep (List.mem_cons_of_mem _ e)
    rw [List.cons_append] at h
    obtain ⟨h1, h2, h3, h4⟩ := drop_cons_facts path r c (s ++ t) h
    rw [Clean.loop]
    dsimp only
    rw [if_pos h1, h2]
    have c1 : ¬ (isPathSeparator c = true) := by simp [isPathSeparator, hc]
    rw [if_neg c1]
    -- the element is neither `.` nor `..`
    have c2 : ¬ (c = 46 ∧ (r + 1 = path.length
        ∨ isPathSeparator (path.getD (r + 1) 0) = true)) := by
      rintro ⟨e, hor⟩
      cases s with
      | nil => exact hdot (by rw [e]; rfl)
      | cons d s' =>
        rw [List.cons_append] at h3
        have hd : d ≠ 47 := fun e' => hs (by simp [e'])
        rcases hor with h5 | h5
        · have := h4.mp h5
          simp at this
        · rw [(drop_cons_facts path (r + 1) d (s' ++ t) h3).2.1] at h5
          simp [isPathSeparator, hd] at h5
    rw [if_neg c2]
    have c3 : ¬ (c = 46 ∧ path.getD (r + 1) 0 = 46 ∧ (r + 2 = path.length
        ∨ isPathSeparator (path.getD (r + 2) 0) = true)) := by
      rintro ⟨e, e2, hor⟩
      cases s with
      | nil =>
        simp only [List.nil_append] at h3
        rcases ht with e' | ⟨t', e'⟩
        · have := h4.mpr (by simp [e'])
          have hg : path.getD (r + 1) 0 = 0 := by
            rw [List.getD_eq_getElem?_getD, List.getElem?_eq_none (by omega)]
            rfl
          rw [hg] at e2
          exact absurd e2 (by decide)
        · rw [e'] at h3
          rw [(drop_cons_facts path (r + 1) 47 t' h3).2.1] at e2
          exact absurd e2 (by decide)
      | cons d s' =>
        rw [List.cons_append] at h3
        obtain ⟨_, g2, g3, g4⟩ := drop_cons_facts path (r + 1) d (s' ++ t) h3
        rw [g2] at e2
        cases s' with
        | nil => exact hdotdot (by rw [e, e2]; rfl)
        | cons x s'' =>
          rw [List.cons_append] at g3
          have hx : x ≠ 47 := fun e' => hs (by simp [e'])
          rcases hor with h5 | h5
          · have := g4.mp h5
            simp at this
          · rw [(drop_cons_facts path (r + 1 + 1) x (s'' ++ t) g3).2.1] at h5
            simp [isPathSeparator, hx] at h5
    rw [if_neg c3]
    have htw : (path.drop r).takeWhile (fun c => !isPathSeparator c) = c :: s := by
      rw [h, ← List.cons_append]
      exact takeWhile_segment (c :: s) t hsep ht
    rw [htw]
    have hout : (if (true = true ∧ out.length ≠ 1) ∨ (true = false ∧ out.length ≠ 0)
        then out ++ [47] else out) ++ (c :: s) = pushSeg out (c :: s) := by
      unfold pushSeg
      by_cases hl : out.length ≠ 1
      · simp [hl]
      · simp [hl]
    rw [hout]


theorem joinSegs_cons (s0 : GoString) (segs : List GoString) :
    joinSegs (s0 :: segs) = s0 ++ joinSegs ([] :: segs) := by
  cases segs with
  | nil => simp [joinSegs]
  | cons x xs => simp [joinSegs]

theorem joinSegs_nil_cons (segs : List GoString) :
    joinSegs ([] :: segs) = [] ∧ segs = [] ∨ ∃ x xs, segs = x :: xs
      ∧ joinSegs ([] :: segs) = 47 :: joinSegs segs := by
  cases segs with
  | nil => exact Or.inl ⟨rfl, rfl⟩
  | cons x xs => exact Or.inr ⟨x, xs, rfl, rfl⟩

theorem joinSegs_tail_shape (segs : List GoString) :
    joinSegs ([] :: segs) = [] ∨ ∃ t', joinSegs ([] :: segs) = 47 :: t' := by
  rcases joinSegs_nil_cons segs with ⟨h, _⟩ | ⟨x, xs, _, h⟩
  · exact Or.inl h
  · exact Or.inr ⟨_, h⟩

theorem joinSegs_flatten (x : GoString) (xs : List GoString) :
    joinSegs (x :: xs) = x ++ (xs.map (fun s => 47 :: s)).flatten := by
  induction xs generalizing x with
  | nil => simp [joinSegs]
  | cons y ys ih =>
    have : joinSegs (x :: y :: ys) = x ++ 47 :: joinSegs (y :: ys) := rfl
    rw [this, ih y]
    simp

theorem joinSegs_append (xs ys : List GoString) (hx : xs ≠ []) (hy : ys ≠ []) :
    joinSegs (xs ++ ys) = joinSegs xs ++ 47 :: joinSegs ys := by
  cases xs with
  | nil => exact absurd rfl hx
  | cons x xs' =>
    cases ys with
    | nil => exact absurd rfl hy
    | cons y ys' =>
      rw [List.cons_append, joinSegs_flatten, joinSegs_flatten x xs', joinSegs_flatten y ys']
      simp

theorem joinSegs_eq_intercalate (segs : List GoString) :
    joinSegs segs = [47].intercalate segs := by
  cases segs with
  | nil => rfl
  | cons x xs =>
    rw [joinSegs_flatten]
    induction xs generalizing x with
    | nil => simp [List.intercalate]
    | cons y ys ih =>
      have := ih y
      simp only [List.intercalate, List.intersperse, List.flatten_cons, List.map_cons,
        List.singleton_append] at this ⊢
      rw [← this]
      simp

theorem Split_ne_nil (s : GoString) (c : Byte) : Split s c ≠ [] := by
  rw [Split_eq_loop]
  cases Count s c with
  | zero => simp [genSplit.loop]
  | succ k =>
    rw [genSplit.loop]
    split <;> simp

theorem joinSegs_Split (path : GoString) : joinSegs (Split path 47) = path := by
  rw [joinSegs_eq_intercalate]
  exact (Split_parts path 47).1

theorem Clean_rooted (t : GoString) :
    Clean (47 :: t) = Clean.loop (47 :: t) true (47 :: t).length 1 [47] 1
      ∨ Clean (47 :: t) = str "." ∧ (Clean.loop (47 :: t) true (47 :: t).length 1 [47] 1) = [] := by
  unfold Clean
  have h1 : ¬ ((47 :: t : GoString) = []) := by simp
  have h2 : isPathSeparator ((47 :: t : GoString).getD 0 0) = true := rfl
  simp only [h1, if_false, h2, if_true]
  by_cases h : (Clean.loop (47 :: t) true (47 :: t).length 1 [47] 1).length = 0
  · right
    simp only [h, if_true]
    exact ⟨trivial, List.eq_nil_of_length_eq_zero h⟩
  · left
    simp only [h, if_false]


theorem Clean_loop_dotdot (path : GoString) (k r : Nat) (out t : GoString)
    (h : path.drop r = 46 :: 46 :: t) (ht : t = [] ∨ ∃ t', t = 47 :: t') :
    Clean.loop path true (k + 1) r out 1
      = Clean.loop path true k (r + 2)
          (if out.length > 1 then out.take (Clean.backtrack out 1 (out.length - 1)) else out)
          1 := by
  obtain ⟨h1, h2, h3, _⟩ := drop_cons_facts path r 46 (46 :: t) h
  obtain ⟨g1, g2, g3, g4⟩ := drop_cons_facts path (r + 1) 46 t h3
  rw [Clean.loop]
  dsimp only
  rw [if_pos h1, h2, if_neg (by decide)]
  have c2 : ¬ ((46 : Byte) = 46 ∧ (r + 1 = path.length
      ∨ isPathSeparator (path.getD (r + 1) 0) = true)) := by
    rintro ⟨_, hor⟩
    rcases hor with h5 | h5
    · omega
    · rw [g2] at h5
      exact absurd h5 (by decide)
  rw [if_neg c2]
  have c3 : (46 : Byte) = 46 ∧ path.getD (r + 1) 0 = 46 ∧ (r + 2 = path.length
      ∨ isPathSeparator (path.getD (r + 2) 0) = true) := by
    refine ⟨rfl, g2, ?_⟩
    rcases ht with e | ⟨t', e⟩
    · exact Or.inl (g4.mpr e)
    · right
      rw [e] at g3
      have := (drop_cons_facts path (r + 1 + 1) 47 t' g3).2.1
      rw [show r + 2 = r + 1 + 1 from rfl, this]
      decide
  rw [if_pos c3]
  by_cases hl : out.length > 1
  · rw [if_pos hl, if_pos hl]
  · rw [if_neg hl, if_neg hl]
    simp only [Bool.true_eq_false, if_false]

/-- Where the inner loop of the `..` case stops: at the first index, going down,
that is `dotdot` or holds a separator. -/
theorem backtrack_stop (out : GoString) (dotdot p : Nat) (hp : dotdot ≤ p)
    (hstop : p = dotdot ∨ isPathSeparator (out.getD p 0) = true) :
    ∀ j, (∀ i, p < i → i ≤ p + j → isPathSeparator (out.getD i 0) = false) →
      Clean.backtrack out dotdot (p + j) = p := by
  intro j
  induction j with
  | zero =>
    intro _
    cases p with
    | zero => rfl
    | succ w =>
      rw [Nat.add_zero, Clean.backtrack]
      have : ¬ (w + 1 > dotdot ∧ isPathSeparator (out.getD (w + 1) 0) = false) := by
        rintro ⟨h1, h2⟩
        rcases hstop with e | e
        · omega
        · rw [e] at h2
          exact absurd h2 (by decide)
      rw [if_neg this]
  | succ j ih =>
    intro h
    have e : p + (j + 1) = (p + j) + 1 := by omega
    rw [e, Clean.backtrack]
    have hc : p + j + 1 > dotdot ∧ isPathSeparator (out.getD (p + j + 1) 0) = false :=
      ⟨by omega, h (p + j + 1) (by omega) (by omega)⟩
    rw [if_pos hc]
    exact ih (fun i h1 h2 => h i h1 (by omega))

theorem backtrack_segment (pre s : GoString) (c : Byte) (dotdot : Nat)
    (hs : (47 : Byte) ∉ s) (hp : dotdot ≤ pre.length) (hstop : pre.length = dotdot ∨ c = 47) :
    (pre ++ c :: s).take
        (Clean.backtrack (pre ++ c :: s) dotdot ((pre ++ c :: s).length - 1)) = pre := by
  have hlen : (pre ++ c :: s).length - 1 = pre.length + s.length := by simp
  have hb : Clean.backtrack (pre ++ c :: s) dotdot (pre.length + s.length) = pre.length := by
    apply backtrack_stop (pre ++ c :: s) dotdot pre.length hp
    · rcases hstop with e | e
      · exact Or.inl e
      · right
        have hg : (pre ++ c :: s).getD pre.length 0 = 47 := by
          rw [List.getD_eq_getElem?_getD, List.getElem?_append_right (le_refl _), e]
          simp
        rw [hg]
        decide
    · intro i h1 h2
      obtain ⟨d, rfl⟩ : ∃ d, i = pre.length + 1 + d := ⟨i - pre.length - 1, by omega⟩
      have hd : d < s.length := by omega
      have hg : (pre ++ c :: s).getD (pre.length + 1 + d) 0 = s[d] := by
        rw [List.getD_eq_getElem?_getD, List.getElem?_append_right (by omega)]
        have : pre.length + 1 + d - pre.length = d + 1 := by omega
        rw [this, List.getElem?_cons_succ, List.getElem?_eq_getElem hd]
        rfl
      rw [hg]
      have hm : s[d] ∈ s := List.getElem_mem hd
      have hne : s[d] ≠ 47 := fun e => hs (e ▸ hm)
      simp [isPathSeparator, hne]
  rw [hlen, hb]
  simp

theorem rootOf_concat (init : List GoString) (seg : GoString) :
    rootOf (init ++ [seg]) = if init = [] then 47 :: seg else rootOf init ++ 47 :: seg := by
  by_cases h : init = []
  · subst h
    simp [rootOf, joinSegs]
  · rw [if_neg h]
    unfold rootOf
    rw [joinSegs_append init [seg] h (by simp)]
    simp [joinSegs]

theorem rootOf_length (stack : List GoString) (hne : stack ≠ []) (h : ∀ s ∈ stack, s ≠ []) :
    2 ≤ (rootOf stack).length := by
  cases stack with
  | nil => exact absurd rfl hne
  | cons y ys =>
    unfold rootOf
    rw [joinSegs_flatten]
    have hy := h y (List.mem_cons_self _ _)
    cases y with
    | nil => exact absurd rfl hy
    | cons a b => simp

theorem rootOf_push (stack : List GoString) (seg : GoString) (h : ∀ s ∈ stack, s ≠ []) :
    pushSeg (rootOf stack) seg = rootOf (stack ++ [seg]) := by
  rw [rootOf_concat]
  unfold pushSeg
  by_cases hs : stack = []
  · subst hs
    simp [rootOf, joinSegs]
  · have := rootOf_length stack hs h
    have hl : (rootOf stack).length ≠ 1 := by omega
    rw [if_pos hl, if_neg hs]
    simp

/-- The `..` case of the loop on a rooted path removes the last segment of the name
built so far, and leaves the root slash as it is. -/
theorem rootOf_dropLast (stack : List GoString) (h : ∀ s ∈ stack, s ≠ [] ∧ (47 : Byte) ∉ s) :
    (if (rootOf stack).length > 1 then
        (rootOf stack).take (Clean.backtrack (rootOf stack) 1 ((rootOf stack).length - 1))
      else rootOf stack) = rootOf stack.dropLast := by
  rcases List.eq_nil_or_concat stack with e | ⟨init, seg, e⟩
  · subst e
    rfl
  · rw [List.concat_eq_append] at e
    subst e
    have hseg := h seg (by simp)
    have hinit : ∀ s ∈ init, s ≠ [] := fun s hs => (h s (by simp [hs])).1
    rw [List.dropLast_concat, rootOf_concat]
    by_cases hi : init = []
    · subst hi
      obtain ⟨c, s, e⟩ := List.exists_cons_of_ne_nil hseg.1
      subst e
      have hs : (47 : Byte) ∉ s := fun e => hseg.2 (List.mem_cons_of_mem _ e)
      have hb := backtrack_segment [47] s c 1 hs (by simp) (Or.inl rfl)
      simp only [if_true, List.singleton_append] at hb ⊢
      rw [hb]
      simp [rootOf, joinSegs]
    · rw [if_neg hi]
      have hl := rootOf_length init hi hinit
      have hb := backtrack_segment (rootOf init) seg 47 1 hseg.2 (by omega) (Or.inr rfl)
      rw [hb, if_pos (by simp only [List.length_append, List.length_cons]; omega)]

theorem stepSeg_segments (stack : List GoString) (seg : GoString)
    (h : ∀ s ∈ stack, s ≠ [] ∧ (47 : Byte) ∉ s) (hseg : (47 : Byte) ∉ seg) :
    ∀ s ∈ stepSeg stack seg, s ≠ [] ∧ (47 : Byte) ∉ s := by
  unfold stepSeg
  by_cases h1 : seg = [] ∨ seg = str "."
  · rw [if_pos h1]
    exact h
  · rw [if_neg h1]
    by_cases h2 : seg = str ".."
    · rw [if_pos h2]
      intro s hs
      exact h s (List.mem_of_mem_dropLast hs)
    · rw [if_neg h2]
      intro s hs
      rcases List.mem_append.mp hs with e | e
      · exact h s e
      · rw [List.mem_singleton] at e
        rw [e]
        exact ⟨fun e' => h1 (Or.inl e'), hseg⟩

theorem stepSeg_foldl_segments (segs : List GoString) :
    ∀ stack : List GoString, (∀ s ∈ stack, s ≠ [] ∧ (47 : Byte) ∉ s) →
      (∀ s ∈ segs, (47 : Byte) ∉ s) →
      ∀ s ∈ segs.foldl stepSeg stack, s ≠ [] ∧ (47 : Byte) ∉ s := by
  induction segs with
  | nil => intro stack h _; exact h
  | cons x xs ih =>
    intro stack h hsegs
    rw [List.foldl_cons]
    exact ih _ (stepSeg_segments stack x h (hsegs x (List.mem_cons_self _ _)))
      (fun s hs => hsegs s (List.mem_cons_of_mem _ hs))

theorem stepSeg_nil (stack : List GoString) : stepSeg stack [] = stack := by
  simp [stepSeg]

/-- On a rooted path whose rest is a sequence of `/`-separated segments, the loop of
`filepath.Clean` that has built the name with the segments `stack` ends with the
name whose segments are `stack` after every segment has acted on it. -/
theorem Clean_loop_stack (path : GoString) :
    ∀ (fuel : Nat) (segs : List GoString) (r : Nat) (stack : List GoString),
      segs ≠ [] → (∀ s ∈ segs, (47 : Byte) ∉ s) →
      (∀ s ∈ stack, s ≠ [] ∧ (47 : Byte) ∉ s) →
      path.drop r = joinSegs segs → (joinSegs segs).length ≤ fuel →
      Clean.loop path true fuel r (rootOf stack) 1 = rootOf (segs.foldl stepSeg stack) := by
  intro fuel
  induction fuel with
  | zero =>
    intro segs r stack hne _ _ hdrop hlen
    have hnil : joinSegs segs = [] := List.eq_nil_of_length_eq_zero (by omega)
    rw [Clean_loop_end path true 0 r _ 1 (by rw [hdrop, hnil])]
    cases segs with
    | nil => exact absurd rfl hne
    | cons s0 segs' =>
      rw [joinSegs_cons] at hnil
      have h0 : s0 = [] := (List.append_eq_nil.mp hnil).1
      subst h0
      rcases joinSegs_nil_cons segs' with ⟨_, h2⟩ | ⟨x, xs, _, h2⟩
      · subst h2
        rw [List.foldl_cons, stepSeg_nil]
        rfl
      · rw [List.nil_append, h2] at hnil
        simp at hnil
  | succ k ih =>
    intro segs r stack hne hsegs hstack hdrop hlen
    cases segs with
    | nil => exact absurd rfl hne
    | cons s0 segs' =>
      have hrest : ∀ s ∈ ([] : GoString) :: segs', (47 : Byte) ∉ s := by
        intro s hs
        rcases List.mem_cons.mp hs with e | e
        · rw [e]; simp
        · exact hsegs s (List.mem_cons_of_mem _ e)
      have hfold : ∀ st : List GoString,
          (([] : GoString) :: segs').foldl stepSeg st = segs'.foldl stepSeg st := by
        intro st
        rw [List.foldl_cons, stepSeg_nil]
      rw [joinSegs_cons] at hdrop hlen
      cases s0 with
      | nil =>
        rw [List.nil_append] at hdrop hlen
        rw [hfold]
        rcases joinSegs_nil_cons segs' with ⟨h1, h2⟩ | ⟨x, xs, h1, h2⟩
        · subst h2
          rw [Clean_loop_end path true (k + 1) r _ 1 (by rw [hdrop, h1])]
          rfl
        · rw [h2] at hdrop hlen
          rw [Clean_loop_sep path true k r _ 1 _ hdrop]
          apply ih segs' (r + 1) stack (by rw [h1]; simp)
            (fun s hs => hsegs s (List.mem_cons_of_mem _ hs)) hstack
            (drop_cons_facts path r 47 _ hdrop).2.2.1
          simp only [List.length_cons] at hlen
          omega
      | cons c s =>
        have hshape := joinSegs_tail_shape segs'
        have hsep : (47 : Byte) ∉ c :: s := hsegs _ (List.mem_cons_self _ _)
        by_cases hdot : c :: s = str "."
        · have hc : c = 46 := by simpa [str] using (List.cons.inj hdot).1
          have hs : s = [] := by simpa [str] using (List.cons.inj hdot).2
          subst hc
          subst hs
          simp only [List.cons_append, List.nil_append] at hdrop hlen
          rw [Clean_loop_dot path true k r _ 1 _ hdrop hshape]
          have hk : stepSeg stack [46] = stack := by
            unfold stepSeg
            rw [if_pos (Or.inr rfl : ([46] : GoString) = [] ∨ ([46] : GoString) = str ".")]
          rw [List.foldl_cons, hk, ← hfold]
          apply ih ([] :: segs') (r + 1) stack (by simp) hrest hstack
            (drop_cons_facts path r 46 _ hdrop).2.2.1
          simp only [List.length_cons] at hlen
          omega
        · by_cases hdd : c :: s = str ".."
          · have hdd' : c :: s = [46, 46] := hdd
            rw [hdd'] at hdrop hlen
            simp only [List.cons_append, List.nil_append] at hdrop hlen
            rw [Clean_loop_dotdot path k r _ _ hdrop hshape, rootOf_dropLast stack hstack]
            have hk : stepSeg stack (c :: s) = stack.dropLast := by
              unfold stepSeg
              rw [if_neg (by
                rintro (e | e)
                · exact absurd e (by simp)
                · exact hdot e), if_pos hdd]
            rw [List.foldl_cons, hk, ← hfold]
            apply ih ([] :: segs') (r + 2) stack.dropLast (by simp) hrest
              (fun x hx => hstack x (List.mem_of_mem_dropLast hx))
            · have e1 := (drop_cons_facts path r 46 _ hdrop).2.2.1
              exact (drop_cons_facts path (r + 1) 46 _ e1).2.2.1
            · simp only [List.length_cons] at hlen
              omega
          · have hreg : regularSeg (c :: s) = true := by
              unfold regularSeg
              simp only [decide_eq_true_eq]
              exact ⟨by simp, hsep, hdot, hdd⟩
            rw [Clean_loop_regular path k r _ 1 (c :: s) _ hdrop hreg hshape,
              rootOf_push stack (c :: s) (fun x hx => (hstack x hx).1)]
            have hk : stepSeg stack (c :: s) = stack ++ [c :: s] := by
              unfold stepSeg
              rw [if_neg (by
                rintro (e | e)
                · exact absurd e (by simp)
                · exact hdot e), if_neg hdd]
            rw [List.foldl_cons, hk, ← hfold]
            apply ih ([] :: segs') (r + (c :: s).length) (stack ++ [c :: s]) (by simp) hrest
            · intro x hx
              rcases List.mem_append.mp hx with e | e
              · exact hstack x e
              · rw [List.mem_singleton] at e
                rw [e]
                exact ⟨by simp, hsep⟩
            · have : path.drop (r + (c :: s).length) = (path.drop r).drop (c :: s).length := by
                rw [List.drop_drop]
              rw [this, hdrop, List.drop_left]
            · simp only [List.length_append, List.length_cons] at hlen
              omega

theorem stepSeg_foldl_regular (regs : List GoString) (h : ∀ s ∈ regs, regularSeg s = true) :
    ∀ stack : List GoString, regs.foldl stepSeg stack = stack ++ regs := by
  induction regs with
  | nil => intro stack; simp
  | cons x xs ih =>
    intro stack
    have hx := h x (List.mem_cons_self _ _)
    unfold regularSeg at hx
    simp only [decide_eq_true_eq] at hx
    have hk : stepSeg stack x = stack ++ [x] := by
      unfold stepSeg
      rw [if_neg (by
        rintro (e | e)
        · exact hx.1 e
        · exact hx.2.2.1 e), if_neg hx.2.2.2]
    rw [List.foldl_cons, hk, ih (fun s hs => h s (List.mem_cons_of_mem _ hs))]
    simp

theorem regularSeg_segment (s : GoString) (h : regularSeg s = true) :
    s ≠ [] ∧ (47 : Byte) ∉ s := by
  unfold regularSeg at h
  simp only [decide_eq_true_eq] at h
  exact ⟨h.1, h.2.1⟩

/-- `filepath.Join(root, path)` for a clean absolute root and any path: the name
whose segments are those of the root after every segment of the path has acted
on them. -/
theorem Join_rootOf (rootSegs : List GoString) (path : GoString)
    (hroot : ∀ s ∈ rootSegs, regularSeg s = true) :
    Join [rootOf rootSegs, path] = rootOf ((Split path 47).foldl stepSeg rootSegs) := by
  have hsplit : ∀ s ∈ Split path 47, (47 : Byte) ∉ s :=
    fun s hs => (Split_parts path 47).2 s hs
  have hJ : Join [rootOf rootSegs, path] = Clean (47 :: (joinSegs rootSegs ++ 47 :: path)) := by
    unfold Join
    have : rootOf rootSegs ≠ [] := by simp [rootOf]
    rw [if_pos this]
    congr 1
    simp [stringsJoin, List.intercalate, rootOf, str]
    rfl
  obtain ⟨segsAll, hne, hall, hjoin, hfold⟩ : ∃ segsAll : List GoString, segsAll ≠ []
      ∧ (∀ s ∈ segsAll, (47 : Byte) ∉ s)
      ∧ joinSegs segsAll = joinSegs rootSegs ++ 47 :: path
      ∧ segsAll.foldl stepSeg [] = (Split path 47).foldl stepSeg rootSegs := by
    cases hrs : rootSegs with
    | nil =>
      refine ⟨[] :: Split path 47, by simp, ?_, ?_, ?_⟩
      · intro s hs
        rcases List.mem_cons.mp hs with e | e
        · rw [e]; simp
        · exact hsplit s e
      · rcases joinSegs_nil_cons (Split path 47) with ⟨_, h2⟩ | ⟨x, xs, _, h2⟩
        · exact absurd h2 (Split_ne_nil path 47)
        · rw [h2, joinSegs_Split]
          rfl
      · rw [List.foldl_cons, stepSeg_nil]
    | cons y ys =>
      rw [← hrs]
      refine ⟨rootSegs ++ Split path 47, by simp [hrs], ?_, ?_, ?_⟩
      · intro s hs
        rcases List.mem_append.mp hs with e | e
        · exact (regularSeg_segment s (hroot s e)).2
        · exact hsplit s e
      · rw [joinSegs_append _ _ (by simp [hrs]) (Split_ne_nil path 47), joinSegs_Split]
      · rw [List.foldl_append, stepSeg_foldl_regular rootSegs hroot, List.nil_append]
  have hloop := Clean_loop_stack (47 :: (joinSegs rootSegs ++ 47 :: path))
    (47 :: (joinSegs rootSegs ++ 47 :: path)).length segsAll 1 [] hne hall
    (by simp) (by rw [hjoin]; rfl) (by rw [hjoin]; simp)
  have hroot0 : rootOf [] = [47] := rfl
  rw [hroot0, hfold] at hloop
  rw [hJ]
  rcases Clean_rooted (joinSegs rootSegs ++ 47 :: path) with h | ⟨_, h⟩
  · rw [h, hloop]
  · rw [hloop] at h
    exact absurd h (by simp [rootOf])

theorem segment_append_inj : ∀ (x y a b : GoString), (47 : Byte) ∉ x → (47 : Byte) ∉ y →
    (a = [] ∨ ∃ t, a = 47 :: t) → (b = [] ∨ ∃ t, b = 47 :: t) → x ++ a = y ++ b →
    x = y ∧ a = b := by
  intro x
  induction x with
  | nil =>
    intro y a b _ hy ha hb h
    cases y with
    | nil => exact ⟨rfl, by simpa using h⟩
    | cons d y' =>
      exfalso
      rw [List.nil_append, List.cons_append] at h
      rcases ha with e | ⟨t, e⟩
      · rw [e] at h
        simp at h
      · rw [e] at h
        exact hy (by rw [← (List.cons.inj h).1]; simp)
  | cons c x' ih =>
    intro y a b hx hy ha hb h
    cases y with
    | nil =>
      exfalso
      rw [List.nil_append, List.cons_append] at h
      rcases hb with e | ⟨t, e⟩
      · rw [e] at h
        simp at h
      · rw [e] at h
        exact hx (by rw [(List.cons.inj h).1]; simp)
    | cons d y' =>
      rw [List.cons_append, List.cons_append] at h
      obtain ⟨h1, h2⟩ := List.cons.inj h
      obtain ⟨e1, e2⟩ := ih y' a b (fun e => hx (List.mem_cons_of_mem _ e))
        (fun e => hy (List.mem_cons_of_mem _ e)) ha hb h2
      exact ⟨by rw [h1, e1], e2⟩

theorem joinSegs_prefix : ∀ (rs st : List GoString) (t : GoString),
    (∀ s ∈ rs, s ≠ [] ∧ (47 : Byte) ∉ s) → (∀ s ∈ st, s ≠ [] ∧ (47 : Byte) ∉ s) →
    (t = [] ∨ ∃ t', t = 47 :: t') → joinSegs rs ++ t = joinSegs st → rs <+: st := by
  intro rs
  induction rs with
  | nil => intro st _ _ _ _ _; exact List.nil_prefix
  | cons x xs ih =>
    intro st t hrs hst ht h
    have hx := hrs x (List.mem_cons_self _ _)
    cases st with
    | nil =>
      exfalso
      rw [joinSegs_cons] at h
      have : x = [] := by
        have h' : x ++ (joinSegs ([] :: xs) ++ t) = [] := by
          rw [← List.append_assoc]; exact h
        exact (List.append_eq_nil.mp h').1
      exact hx.1 this
    | cons y ys =>
      have hy := hst y (List.mem_cons_self _ _)
      rw [joinSegs_cons x, joinSegs_cons y, List.append_assoc] at h
      have hshape : joinSegs ([] :: xs) ++ t = [] ∨ ∃ u, joinSegs ([] :: xs) ++ t = 47 :: u := by
        rcases joinSegs_tail_shape xs with e | ⟨u, e⟩
        · rw [e, List.nil_append]; exact ht
        · rw [e]; exact Or.inr ⟨_, rfl⟩
      obtain ⟨e1, e2⟩ := segment_append_inj x y _ _ hx.2 hy.2 hshape (joinSegs_tail_shape ys) h
      subst e1
      rcases joinSegs_nil_cons xs with ⟨_, h2⟩ | ⟨x', xs', h1, h2⟩
      · subst h2
        exact ⟨ys, rfl⟩
      · rw [h2] at e2
        rcases joinSegs_nil_cons ys with ⟨g1, _⟩ | ⟨y', ys', _, g2⟩
        · rw [g1] at e2
          simp at e2
        · rw [g2, List.cons_append] at e2
          have hp := ih ys t (fun s hs => hrs s (List.mem_cons_of_mem _ hs))
            (fun s hs => hst s (List.mem_cons_of_mem _ hs)) ht (List.cons.inj e2).2
          obtain ⟨u, hu⟩ := hp
          exact ⟨u, by rw [List.cons_append, hu]⟩

/-- A clean absolute name is the root or under it exactly when the segments of the
root are the first segments of the name. -/
theorem underRoot_rootOf (rootSegs stack : List GoString)
    (hroot : ∀ s ∈ rootSegs, s ≠ [] ∧ (47 : Byte) ∉ s)
    (hstack : ∀ s ∈ stack, s ≠ [] ∧ (47 : Byte) ∉ s) :
    underRoot (rootOf rootSegs) (rootOf stack) = true ↔ rootSegs <+: stack := by
  by_cases hr : rootSegs = []
  · subst hr
    constructor
    · intro _; exact List.nil_prefix
    · intro _
      simp [underRoot, rootOf, joinSegs]
  · have hl := rootOf_length rootSegs hr (fun s hs => (hroot s hs).1)
    have hne : rootOf rootSegs ≠ [47] := by
      intro e
      rw [e] at hl
      simp at hl
    unfold underRoot
    rw [if_neg hne, Bool.or_eq_true, decide_eq_true_eq, List.isPrefixOf_iff_prefix]
    constructor
    · rintro (h | ⟨u, h⟩)
      · have h' : joinSegs rootSegs ++ [] = joinSegs stack := by
          unfold rootOf at h
          rw [List.append_nil]
          exact (List.cons.inj h).2.symm
        exact joinSegs_prefix rootSegs stack [] hroot hstack (Or.inl rfl) h'
      · have h' : joinSegs rootSegs ++ 47 :: u = joinSegs stack := by
          unfold rootOf at h
          simp only [List.cons_append, List.append_assoc, List.singleton_append] at h
          exact (List.cons.inj h).2
        exact joinSegs_prefix rootSegs stack (47 :: u) hroot hstack (Or.inr ⟨u, rfl⟩) h'
    · rintro ⟨extra, h⟩
      subst h
      by_cases he : extra = []
      · subst he
        left
        rw [List.append_nil]
      · right
        refine ⟨joinSegs extra, ?_⟩
        unfold rootOf
        rw [joinSegs_append rootSegs extra hr he]
        simp

theorem staysUnder_prefix (rootSegs : List GoString) :
    ∀ (segs extra : List GoString), staysUnder extra.length segs = true →
      rootSegs <+: segs.foldl stepSeg (rootSegs ++ extra) := by
  intro segs
  induction segs with
  | nil => intro extra _; exact List.prefix_append _ _
  | cons seg rest ih =>
    intro extra h
    rw [List.foldl_cons]
    unfold staysUnder at h
    unfold stepSeg
    by_cases h1 : seg = [] ∨ seg = str "."
    · rw [if_pos h1] at h ⊢
      exact ih extra h
    · rw [if_neg h1] at h ⊢
      by_cases h2 : seg = str ".."
      · rw [if_pos h2] at h ⊢
        rw [Bool.and_eq_true, decide_eq_true_eq] at h
        have hne : extra ≠ [] := by
          intro e
          rw [e] at h
          simp at h
        rw [List.dropLast_append_of_ne_nil _ hne]
        apply ih
        rw [List.length_dropLast]
        exact h.2
      · rw [if_neg h2] at h ⊢
        rw [List.append_assoc]
        apply ih
        rw [List.length_append]
        exact h

/-- The response of `processClient` depends on the file system only through the
result of reading `filepath.Join(root, path)`. -/
theorem processClient_reads_join (ReadFile ReadFile' : FileSystem) (range : RangeOrder)
    (connection c1 : Conn) (root_direcotry path : GoString)
    (hfirst : readAndDecodeHTTPFirstLine connection = .ok ((path, none), c1))
    (hsame : ReadFile (Join [root_direcotry, path]) = ReadFile' (Join [root_direcotry, path])) :
    processClient ReadFile range connection root_direcotry
      = processClient ReadFile' range connection root_direcotry := by
  unfold processClient
  rw [hfirst]
  simp only [hsame]

/-- C16, as amended: for a clean absolute root (`/` or `/a/b/...`, segments that
name entries) and every path `readAndDecodeHTTPFirstLine` returns, the file
`processClient` reads, `filepath.Join(root, path)`, is the name whose segments are
those of the root after every `/`-separated segment of the path has acted on them
(an empty segment and `.` do nothing, `..` removes the last segment, any other
segment is added); it is the root itself or lies under it exactly when the
segments of the root are still its first segments, which holds for every path in
which no `..` climbs above the root, and for every path when the root is `/`. -/
theorem processClient_file_under_root (ReadFile ReadFile' : FileSystem) (range : RangeOrder)
    (connection c1 : Conn) (rootSegs : List GoString) (path : GoString)
    (hroot : ∀ s ∈ rootSegs, regularSeg s = true)
    (hfirst : readAndDecodeHTTPFirstLine connection = .ok ((path, none), c1)) :
    (ReadFile (Join [rootOf rootSegs, path]) = ReadFile' (Join [rootOf rootSegs, path]) →
      processClient ReadFile range connection (rootOf rootSegs)
        = processClient ReadFile' range connection (rootOf rootSegs))
    ∧ Join [rootOf rootSegs, path] = rootOf ((Split path 47).foldl stepSeg rootSegs)
    ∧ (underRoot (rootOf rootSegs) (Join [rootOf rootSegs, path]) = true
        ↔ rootSegs <+: (Split path 47).foldl stepSeg rootSegs)
    ∧ (staysUnder 0 (Split path 47) = true →
        underRoot (rootOf rootSegs) (Join [rootOf rootSegs, path]) = true)
    ∧ (rootSegs = [] → underRoot (rootOf rootSegs) (Join [rootOf rootSegs, path]) = true) := by
  have hsegs : ∀ s ∈ rootSegs, s ≠ [] ∧ (47 : Byte) ∉ s :=
    fun s hs => regularSeg_segment s (hroot s hs)
  have hiff : underRoot (rootOf rootSegs) (Join [rootOf rootSegs, path]) = true
      ↔ rootSegs <+: (Split path 47).foldl stepSeg rootSegs := by
    rw [Join_rootOf rootSegs path hroot]
    exact underRoot_rootOf rootSegs _ hsegs
      (stepSeg_foldl_segments _ rootSegs hsegs (fun s hs => (Split_parts path 47).2 s hs))
  refine ⟨processClient_reads_join ReadFile ReadFile' range connection c1 _ path hfirst,
    Join_rootOf rootSegs path hroot, hiff, ?_, ?_⟩
  · intro h
    have := staysUnder_prefix rootSegs (Split path 47) [] h
    rw [List.append_nil] at this
    exact hiff.mpr this
  · intro h
    apply hiff.mpr
    rw [h]
    exact List.nil_prefix

theorem processClient_file_under_root_witness :
    (exampleFS (Join [rootOf [str "srv", str "www"], str "/a/../b"])
        = outsideFS (Join [rootOf [str "srv", str "www"], str "/a/../b"]) →
      processClient exampleFS id (exampleConn "GET /a/../b HTTP/1.1\r\nHost: x\r\n\r\n")
          (rootOf [str "srv", str "www"])
        = processClient outsideFS id (exampleConn "GET /a/../b HTTP/1.1\r\nHost: x\r\n\r\n")
            (rootOf [str "srv", str "www"]))
    ∧ Join [rootOf [str "srv", str "www"], str "/a/../b"]
        = rootOf ((Split (str "/a/../b") 47).foldl stepSeg [str "srv", str "www"])
    ∧ (underRoot (rootOf [str "srv", str "www"])
          (Join [rootOf [str "srv", str "www"], str "/a/../b"]) = true
        ↔ [str "srv", str "www"]
            <+: (Split (str "/a/../b") 47).foldl stepSeg [str "srv", str "www"])
    ∧ (staysUnder 0 (Split (str "/a/../b") 47) = true →
        underRoot (rootOf [str "srv", str "www"])
          (Join [rootOf [str "srv", str "www"], str "/a/../b"]) = true)
    ∧ (([str "srv", str "www"] : List GoString) = [] →
        underRoot (rootOf [str "srv", str "www"])
          (Join [rootOf [str "srv", str "www"], str "/a/../b"]) = true) :=
  processClient_file_under_root exampleFS outsideFS id
    (exampleConn "GET /a/../b HTTP/1.1\r\nHost: x\r\n\r\n")
    (exampleConn "Host: x\r\n\r\n") [str "srv", str "www"] (str "/a/../b")
    (by decide) (by decide)

/-- C16, as stated, fails: the request line `GET /../x HTTP/1.1` decodes to the path
`/../x`, `filepath.Join("/srv/www", "/../x")` is `/srv/x`, which is neither the
root `/srv/www` nor under it, and `processClient` serves that file. -/
theorem processClient_file_escapes_root :
    readAndDecodeHTTPFirstLine (exampleConn "GET /../x HTTP/1.1\r\nHost: x\r\n\r\n")
        = .ok ((str "/../x", none), exampleConn "Host: x\r\n\r\n")
    ∧ Join [str "/srv/www", str "/../x"] = str "/srv/x"
    ∧ underRoot (str "/srv/www") (Join [str "/srv/www", str "/../x"]) = false
    ∧ processClient outsideFS id (exampleConn "GET /../x HTTP/1.1\r\nHost: x\r\n\r\n")
        (str "/srv/www")
      = .ok { input := [], failure := str "EOF",
              output := str "HTTP/1.1 200 OK\r\nContent-Length: 6\r\nHost: x\r\n\r\nsecret",
              closed := true } := by
  decide

end HttpServer
